import Mathlib

/-!
# irc-logs-converter: the per-line control-code interpreter of `main.go`

A shallow embedding of `ConvertLine` and of the functions it calls, followed by
theorems about them.

Modelling conventions

* A Go `string` is a `List Char`: the sequence of the code points of a line of
  valid UTF-8.  The regular expressions and `strings.TrimSpace` of the source
  work on code points, and every byte they single out is ASCII, so a byte of
  the source is the character with the same number.
* `int8` values (`ColorNumber`, `Index`) are integers; every conversion to
  `Index` and every arithmetic step on an `Index` that can leave the range
  goes through `toInt8`, which wraps modulo 256 as Go does.
* A run-time panic (an index or a slice bound out of range) is `none`.
* The package variables `codes`, `tags`, `conv`, `opened` are the fields of
  `State`, passed explicitly.
* `strings.Builder` is the list of the writes made to it, one `Chunk` for each
  `WriteString` of a text and one for each call of `Tag.ToString`;
  `conv.String()` is the concatenation `render`.
-/

namespace IrcLogs

/-! ## Constants and data types (main.go 15-65) -/

abbrev Str := List Char

def CharColor : Char := Char.ofNat 0x03
def CharReset : Char := Char.ofNat 0x0f
def CharBold : Char := Char.ofNat 0x02
def CharItalic : Char := Char.ofNat 0x1d
def CharUnderline : Char := Char.ofNat 0x1f

/-- Conversion of an integer to `int8`: wraps modulo 256 into -128..127. -/
def toInt8 (n : Int) : Int := (n + 128) % 256 - 128

/-- Go `type ColorNumber int8`.  The signatures below write `Int` for it. -/
abbrev ColorNumber := Int

/-- Go `type Index int8`; see `toInt8` for the places where it wraps.  The
signatures below write `Int` for it. -/
abbrev Index := Int

def ColorNone : Int := -1
def ColorTransp : Int := 99

/-- Go `type ColorState uint8` with its `iota` constants; `StateZero` is the
unnamed value 0 of the `_` line. -/
inductive ColorState where
  | StateZero
  | StateCancel
  | StateNew
  | StateFg
  | StateBg
  | StateBoth
  | StateSame
  deriving DecidableEq, Repr

open ColorState

structure ColorCode where
  fg : Int
  bg : Int
  deriving DecidableEq, Repr

structure FormatCode where
  id : Int
  char : Char
  text : Str
  color : ColorCode
  deriving DecidableEq, Repr

structure Tag where
  char : Char
  color : ColorCode
  deriving DecidableEq, Repr

/-- One write to the output builder: a literal text, or the markup that
`Tag.ToString` writes for a tag (`close = true` for the closing form). -/
inductive Chunk where
  | text (s : Str)
  | markup (t : Tag) (close : Bool)
  deriving DecidableEq, Repr

/-- The package variables `codes`, `tags`, `conv`, `opened` (main.go 149-152).
`tags` is in slice order: the innermost (last opened) region is last. -/
structure State where
  codes : List FormatCode
  tags : List Tag
  conv : List Chunk
  opened : Char → Bool

/-- The package state before the first call: all four variables are nil. -/
def State.init : State := ⟨[], [], [], fun _ => false⟩

/-! ## Rendering (main.go 67-114) -/

/-- The verb `%d` of `fmt.Sprintf` on an integer. -/
def fmtInt (n : Int) : Str :=
  if n < 0 then '-' :: Nat.toDigits 10 n.natAbs else Nat.toDigits 10 n.toNat

/-- Go `unicode.IsSpace`. -/
def isSpace (c : Char) : Bool :=
  let n := c.toNat
  (9 ≤ n ∧ n ≤ 13) ∨ n = 0x20 ∨ n = 0x85 ∨ n = 0xA0 ∨ n = 0x1680 ∨
    (0x2000 ≤ n ∧ n ≤ 0x200A) ∨ n = 0x2028 ∨ n = 0x2029 ∨ n = 0x202F ∨
    n = 0x205F ∨ n = 0x3000

/-- Go `strings.TrimSpace`: drops the leading and the trailing white space. -/
def TrimSpace (s : Str) : Str :=
  ((s.dropWhile isSpace).reverse.dropWhile isSpace).reverse

/-- The `class` string that `Tag.ToString` builds for a colour tag
(main.go 72-83). -/
def classOf (color : ColorCode) : Str :=
  let c1 : Str :=
    if color.fg ≠ ColorNone ∧ color.fg ≠ ColorTransp then
      "fc".toList ++ fmtInt color.fg
    else []
  if color.bg ≠ ColorNone ∧ color.bg ≠ ColorTransp then
    (if c1.length > 0 then c1 ++ [' '] else c1) ++ ("bc".toList ++ fmtInt color.bg)
  else c1

/-- The double quote character. -/
def dquote : Char := Char.ofNat 0x22

/-- The bytes that `Tag.ToString(close)` writes to the builder. -/
def Tag.markup (tag : Tag) (close : Bool) : Str :=
  if tag.char = CharColor then
    let name : Str :=
      if ¬ close then
        "span".toList ++ (" class=".toList ++ [dquote] ++ TrimSpace (classOf tag.color) ++ [dquote])
      else "span".toList
    ['<'] ++ (if close then ['/'] else []) ++ name ++ ['>']
  else
    let n0 : Char := Char.ofNat 0
    let n1 := if tag.char = CharBold then 'b' else n0
    let n2 := if tag.char = CharItalic then 'i' else n1
    let n3 := if tag.char = CharUnderline then 'u' else n2
    ['['] ++ (if close then ['/'] else []) ++ [n3] ++ [']']

def Chunk.render : Chunk → Str
  | .text s => s
  | .markup t close => t.markup close

/-- The value of `conv.String()`. -/
def render (conv : List Chunk) : Str :=
  (conv.map Chunk.render).flatten

/-- `conv.WriteString(text)`. -/
def State.write (st : State) (text : Str) : State :=
  { st with conv := st.conv ++ [Chunk.text text] }

/-- Go `func (tag *Tag) ToString(close bool)`: writes the markup to `conv`. -/
def Tag.ToString (st : State) (tag : Tag) (close : Bool) : State :=
  { st with conv := st.conv ++ [Chunk.markup tag close] }

/-! ## The colour-transition classifier (main.go 116-147) -/

def ColorCode.GetState (cc other : ColorCode) : ColorState :=
  let isFgNone := cc.fg = ColorNone
  let isBgNone := cc.bg = ColorNone
  let isFg2None := other.fg = ColorNone
  let isBg2None := other.bg = ColorNone
  if (isFgNone ∧ isBgNone) ∨ (cc.fg = ColorTransp ∧ cc.bg = ColorTransp) then
    StateCancel
  else if isFg2None ∧ isBg2None then
    StateNew
  else
    let isFgChanged := cc.fg ≠ other.fg
    let isBgChanged := cc.bg ≠ other.bg ∧ ¬ isBgNone
    if isFgChanged then
      if isBgChanged ∨ (isBgNone ∧ isBg2None) then StateBoth else StateFg
    else
      if isBgChanged then
        if isFgNone ∧ isFg2None then StateBoth else StateBg
      else StateSame

/-! ## The tag stack (main.go 154-219) -/

/-- The loop of `GetCurrentColor`, over the tags from the innermost outwards,
with the accumulator `r`. -/
def GetCurrentColorLoop (r : ColorCode) : List Tag → ColorCode
  | [] => r
  | tag :: rest =>
    if tag.char = CharColor then
      let r1 : ColorCode :=
        if r.fg = ColorNone ∧ tag.color.fg ≠ ColorNone then { r with fg := tag.color.fg } else r
      let r2 : ColorCode :=
        if r1.bg = ColorNone ∧ tag.color.bg ≠ ColorNone then { r1 with bg := tag.color.bg } else r1
      if r2.fg ≠ ColorNone ∧ r2.bg ≠ ColorNone then r2 else GetCurrentColorLoop r2 rest
    else GetCurrentColorLoop r rest

/-- Go `GetCurrentColor`; its loop index is an `int`, so it visits every tag. -/
def GetCurrentColor (tags : List Tag) : ColorCode :=
  GetCurrentColorLoop ⟨ColorNone, ColorNone⟩ tags.reverse

def AddTag (st : State) (t : Tag) : State :=
  Tag.ToString { st with tags := st.tags ++ [t] } t false

/-- Go `AddFormatTag`: `Tag{char: c}` has the zero colour. -/
def AddFormatTag (st : State) (c : Char) : State :=
  AddTag st ⟨c, ⟨0, 0⟩⟩

def AddColorTag (st : State) (fg bg : Int) : State :=
  if (fg ≠ ColorNone ∧ fg ≠ ColorTransp) ∨ (bg ≠ ColorNone ∧ bg ≠ ColorTransp) then
    AddTag st ⟨CharColor, ⟨fg, bg⟩⟩
  else st

/-- The index expression `l[i]` with an `Int`: panics outside `0..len-1`. -/
def getIdx {α : Type} (l : List α) (i : Int) : Option α :=
  if i < 0 then none else l.get? i.toNat

/-- The slice expression `l[:i]`: panics unless `0 ≤ i ≤ len`. -/
def sliceTo {α : Type} (l : List α) (i : Int) : Option (List α) :=
  if 0 ≤ i ∧ i.toNat ≤ l.length then some (l.take i.toNat) else none

/-- The slice expression `l[i:]`: panics unless `0 ≤ i ≤ len`. -/
def sliceFrom {α : Type} (l : List α) (i : Int) : Option (List α) :=
  if 0 ≤ i ∧ i.toNat ≤ l.length then some (l.drop i.toNat) else none

/-- The starting value `Index(len) - 1` of the downward loops. -/
def lastIndex (len : Nat) : Int := toInt8 (toInt8 len - 1)

/-- Go `CloseTag`. -/
def CloseTag (st : State) (i : Int) : Option State :=
  if 0 ≤ i ∧ i < toInt8 st.tags.length then
    match getIdx st.tags i with
    | none => none
    | some t =>
      let st1 := Tag.ToString st t true
      match sliceTo st1.tags i, sliceFrom st1.tags (toInt8 (i + 1)) with
      | some a, some b => some { st1 with tags := a ++ b }
      | _, _ => none
  else some st

/-- The loop `for i := ...; i >= 0; i--` of `GetLastTagIndex`; the argument is
`i + 1`, the number of iterations left. -/
def GetLastTagIndexLoop (tags : List Tag) (c : Char) : Nat → Option Int
  | 0 => some (-1)
  | i + 1 =>
    match getIdx tags i with
    | none => none
    | some t => if t.char = c then some i else GetLastTagIndexLoop tags c i

def GetLastTagIndex (tags : List Tag) (c : Char) : Option Int :=
  GetLastTagIndexLoop tags c (lastIndex tags.length + 1).toNat

/-- The loop of `Reset`; the argument is `i + 1`. -/
def ResetLoop (colors : Bool) (tags : List Tag) : Nat → State → Option State
  | 0, st => some st
  | i + 1, st =>
    match getIdx tags i with
    | none => none
    | some tag =>
      if tag.char ≠ CharColor ∧ colors then ResetLoop colors tags i st
      else ResetLoop colors tags i (Tag.ToString st tag true)

/-- Go `Reset`. -/
def Reset (st : State) (colors : Bool) : Option State :=
  match ResetLoop colors st.tags (lastIndex st.tags.length + 1).toNat st with
  | none => none
  | some st1 => some { st1 with tags := [] }

/-! ## The regular expressions `re` and `re2` (main.go 23-24)

Both have the shape `(marker)?([^markers]*)`, with greedy operators only, so a
match never fails and never backtracks: at a marker it takes the marker (for
`re`, a colour byte also takes the digit groups that follow) and the text up to
the next marker or the end of the line.  `FindAllStringSubmatch(s, -1)` hence
cuts `s` at every marker; a match without marker occurs only as the first one,
when `s` does not begin with a marker (this covers the single empty match of
the empty string; the empty match at the end of a non-empty string is adjacent
to the previous match and is dropped by `FindAll`). -/

/-- Cuts a string at the characters satisfying `p`: the text before the first
such character, then each such character with the text that follows it. -/
def cut (p : Char → Bool) : Str → Str × List (Char × Str)
  | [] => ([], [])
  | c :: cs =>
    let r := cut p cs
    if p c then ([], (c, r.1) :: r.2) else (c :: r.1, r.2)

/-- A match of `re`: `g1` .. `g5` are `match[1]` .. `match[5]`. -/
structure Match where
  g1 : Str
  g2 : Str
  g3 : Str
  g4 : Str
  g5 : Str
  deriving DecidableEq, Repr

/-- The greedy `\d{1,2}` at the start of a string: the digits taken (none when
it does not match) and the rest. -/
def takeDigits : Str → Str × Str
  | a :: b :: rest =>
    if a.isDigit then
      if b.isDigit then ([a, b], rest) else ([a], b :: rest)
    else ([], a :: b :: rest)
  | [a] => if a.isDigit then ([a], []) else ([], [a])
  | [] => ([], [])

/-- The match of `re` that starts at a colour byte followed by `run` (the text
up to the next colour or reset byte):
`(\x03)(?:(\d{1,2})(?:,(\d{1,2}))?)?([^\x03\x0f]*)`. -/
def reMatchColor (run : Str) : Match :=
  let d1 := takeDigits run
  if d1.1 = [] then ⟨[], [CharColor], [], [], run⟩
  else
    match d1.2 with
    | ',' :: r2 =>
      let d2 := takeDigits r2
      if d2.1 = [] then ⟨[], [CharColor], d1.1, [], d1.2⟩
      else ⟨[], [CharColor], d1.1, d2.1, d2.2⟩
    | _ => ⟨[], [CharColor], d1.1, [], d1.2⟩

/-- The match of `re` that starts at the marker `c` followed by `run`. -/
def reMatch (c : Char) (run : Str) : Match :=
  if c = CharReset then ⟨[CharReset], [], [], [], run⟩ else reMatchColor run

def isReMarker (c : Char) : Bool := c = CharColor ∨ c = CharReset

/-- The value of `re.FindAllStringSubmatch(s, -1)`. -/
def reFindAll (s : Str) : List Match :=
  let r := cut isReMarker s
  let rest := r.2.map (fun x => reMatch x.1 x.2)
  match s with
  | [] => [⟨[], [], [], [], []⟩]
  | c :: _ => if isReMarker c then rest else ⟨[], [], [], [], r.1⟩ :: rest

def isRe2Marker (c : Char) : Bool := c = CharBold ∨ c = CharItalic ∨ c = CharUnderline

/-- The value of `re2.FindAllStringSubmatch(s, -1)`: for each match the pair
of `match[1]` (empty or one marker) and `match[2]`. -/
def re2FindAll (s : Str) : List (Str × Str) :=
  let r := cut isRe2Marker s
  let rest := r.2.map (fun x => ([x.1], x.2))
  match s with
  | [] => [([], [])]
  | c :: _ => if isRe2Marker c then rest else ([], r.1) :: rest

/-- Go `strconv.ParseInt(s, 10, 8)`: `none` for an error (no digits, a
character that is not a digit, a value outside -128..127). -/
def ParseInt8 (s : Str) : Option Int :=
  let digits (d : Str) : Option Nat :=
    if d ≠ [] ∧ d.all Char.isDigit then
      some (d.foldl (fun a c => 10 * a + (c.toNat - 48)) 0)
    else none
  match s with
  | '+' :: d => (digits d).bind (fun v => if v ≤ 127 then some (v : Int) else none)
  | '-' :: d => (digits d).bind (fun v => if v ≤ 128 then some (-(v : Int)) else none)
  | d => (digits d).bind (fun v => if v ≤ 127 then some (v : Int) else none)

/-! ## The lookahead closure decider (main.go 367-400) -/

/-- The loop `for i := start; i < Index(len(codes)); i++` of
`ShouldCloseColorTag`; the first argument is the number of iterations left,
`Index(len(codes)) - i`.  Inside the loop `i < 127`, so `i++` does not wrap. -/
def ShouldCloseColorTagLoop (codes : List FormatCode) (t : Tag) : Nat → Int → Option Bool
  | 0, _ => some true
  | n + 1, i =>
    if t.char = CharColor then
      match getIdx codes i with
      | none => none
      | some code =>
        if code.char = CharColor then
          let state := code.color.GetState t.color
          if state = StateCancel ∨
              (t.color.fg ≠ ColorTransp ∧ code.color.fg = ColorTransp) ∨
              (t.color.bg ≠ ColorTransp ∧ code.color.bg = ColorTransp) then
            some true
          else if state = StateFg ∨ state = StateBg ∨ state = StateSame then
            some false
          else ShouldCloseColorTagLoop codes t n (i + 1)
        else ShouldCloseColorTagLoop codes t n (i + 1)
    else ShouldCloseColorTagLoop codes t n (i + 1)

def ShouldCloseColorTag (codes : List FormatCode) (t : Tag) (start : Int) : Option Bool :=
  ShouldCloseColorTagLoop codes t (toInt8 codes.length - start).toNat start

/-- The loop of `ShouldCloseAllColorTags`; the argument is `i + 1`. -/
def ShouldCloseAllColorTagsLoop (start : Int) : Nat → State → Option State
  | 0, st => some st
  | i + 1, st =>
    match getIdx st.tags i with
    | none => none
    | some tag =>
      if tag.char = CharColor then
        match ShouldCloseColorTag st.codes tag start with
        | none => none
        | some true =>
          match CloseTag st i with
          | none => none
          | some st1 => ShouldCloseAllColorTagsLoop start i st1
        | some false => some st
      else some st

def ShouldCloseAllColorTags (st : State) (start : Int) : Option State :=
  ShouldCloseAllColorTagsLoop start (lastIndex st.tags.length + 1).toNat st

/-! ## Conversion of one token and of one line (main.go 221-365) -/

/-- The statement `opened[char] = !opened[char]`. -/
def State.flip (st : State) (char : Char) : State :=
  { st with opened := fun k => if k = char then ! st.opened char else st.opened k }

/-- The style toggler at a marker `char` (main.go 354-360): closes the last
tag of that kind if the flag is set, opens one if not, and flips the flag. -/
def toggleTag (st : State) (char : Char) : Option State :=
  if st.opened char then
    match GetLastTagIndex st.tags char with
    | none => none
    | some i => (CloseTag st i).map (fun s => s.flip char)
  else some ((AddFormatTag st char).flip char)

/-- One iteration of the loop over the matches of `re2` in
`ConvertFormatCode` (main.go 350-364); `m` is `(match[1], match[2])`. -/
def toggleStep (st : State) (m : Str × Str) : Option State :=
  match m.1 with
  | [] => some (st.write m.2)
  | char :: _ => (toggleTag st char).map (fun s => s.write m.2)

/-- The loop over the matches of `re2`. -/
def toggleLoop : State → List (Str × Str) → Option State
  | st, [] => some st
  | st, m :: ms =>
    match toggleStep st m with
    | none => none
    | some st1 => toggleLoop st1 ms

/-- The first part of `ConvertFormatCode` for a colour token (main.go
314-324, "closing tags"). -/
def closeTags (st : State) (i : Int) (c : FormatCode) : Option State :=
  let state := c.color.GetState (GetCurrentColor st.tags)
  if state = StateCancel then Reset st true
  else if state = StateFg ∨ state = StateBg ∨ state = StateBoth then
    ShouldCloseAllColorTags st i
  else some st

/-- The second part of `ConvertFormatCode` for a colour token (main.go
326-345, "opening tags").  `state` is the value that the first part leaves:
recomputed after closing, and the first value when nothing was closed (the
stack is then unchanged, so it is the same value). -/
def openTags (st : State) (c : FormatCode) : State :=
  let state := c.color.GetState (GetCurrentColor st.tags)
  let isSpace : Bool := (TrimSpace c.text).length = 0
  if state = StateBoth ∨ state = StateNew then
    AddColorTag st (if isSpace then ColorNone else c.color.fg) c.color.bg
  else if state = StateFg then
    if ¬ isSpace then AddColorTag st c.color.fg ColorNone else st
  else if state = StateBg then AddColorTag st ColorNone c.color.bg
  else st

/-- The directive part of `ConvertFormatCode` (main.go 313-348). -/
def directive (st : State) (i : Int) (c : FormatCode) : Option State :=
  if c.char = CharColor then (closeTags st i c).map (fun s => openTags s c)
  else if c.char = CharReset then Reset st false
  else some st

/-- Go `ConvertFormatCode`. -/
def ConvertFormatCode (st : State) (i : Int) (c : FormatCode) : Option State :=
  (directive st i c).bind (fun sb => toggleLoop sb (re2FindAll c.text))

/-- Go `GetLastCodeIndex`; the loop argument is `i + 1`. -/
def GetLastCodeIndexLoop (codes : List FormatCode) (c : Char) : Nat → Option Int
  | 0 => some (-1)
  | i + 1 =>
    match getIdx codes i with
    | none => none
    | some code => if code.char = c then some i else GetLastCodeIndexLoop codes c i

def GetLastCodeIndex (codes : List FormatCode) (c : Char) : Option Int :=
  GetLastCodeIndexLoop codes c (lastIndex codes.length + 1).toNat

/-- The new colour token `code` after the statement of main.go 258-260: it
takes the background of the discarded token `prev` when it has a foreground
and no background. -/
def inheritBg (code prev : FormatCode) : FormatCode :=
  if code.color.bg = ColorNone ∧ code.color.fg ≠ ColorNone then
    { code with color := { code.color with bg := prev.color.bg } }
  else code

/-- The merge of a new colour token `code` into `codes` (main.go 253-266). -/
def mergeColor (codes : List FormatCode) (code : FormatCode) : Option (List FormatCode) :=
  match GetLastCodeIndex codes CharColor with
  | none => none
  | some p =>
    if p ≥ 0 then
      match getIdx codes p with
      | none => none
      | some prev =>
        if prev.text.length = 0 then
          if prev.color.fg ≠ ColorNone then
            match sliceTo codes p, sliceFrom codes (toInt8 (p + 1)) with
            | some a, some b => some ((a ++ b) ++ [inheritBg code prev])
            | _, _ => none
          else some (codes ++ [code])
        else some (codes ++ [code])
    else some (codes ++ [code])

/-- The colour branch of the loop over the matches of `re` (main.go 234-267)
for the match of index `i` with the text `text` and the parsed numbers. -/
def colorStep (st : State) (i : Nat) (text : Str) (fg bg : Int) : Option State :=
  if fg = 1 ∧ bg = ColorNone ∧ i = 0 then some (st.write text)
  else
    (mergeColor st.codes ⟨toInt8 i, CharColor, text, ⟨fg, bg⟩⟩).map
      (fun cs => { st with codes := cs })

/-- The body of the loop over the matches of `re` (main.go 230-277); `i` is
the index of the match. -/
def tokenStep (st : State) (i : Nat) (m : Match) : Option State :=
  if m.g2.length > 0 ∧ m.g2.head? = some CharColor then
    colorStep st i m.g5 ((ParseInt8 m.g3).getD ColorNone) ((ParseInt8 m.g4).getD ColorNone)
  else if m.g1.length > 0 ∧ m.g1.head? = some CharReset then
    some { st with codes := st.codes ++ [⟨toInt8 i, CharReset, m.g5, ⟨0, 0⟩⟩] }
  else some (st.write m.g5)

/-- The loop over the matches of `re`, from the index `i` on. -/
def tokenLoop : State → Nat → List Match → Option State
  | st, _, [] => some st
  | st, i, m :: ms =>
    match tokenStep st i m with
    | none => none
    | some st1 => tokenLoop st1 (i + 1) ms

/-- The trailing-empty drop (main.go 279-284). -/
def dropTrailing (codes : List FormatCode) : List FormatCode :=
  match codes.getLast? with
  | none => codes
  | some l => if l.text.length = 0 then codes.dropLast else codes

/-- The loop `for i, code := range codes` (main.go 293-295), from index `i`. -/
def codeLoop : State → Nat → List FormatCode → Option State
  | st, _, [] => some st
  | st, i, c :: cs =>
    match ConvertFormatCode st (toInt8 i) c with
    | none => none
    | some st1 => codeLoop st1 (i + 1) cs

/-- Go `ConvertLine`: the state after the call and the string returned. -/
def ConvertLine (st : State) (s : Str) : Option (State × Str) :=
  let st0 : State := { st with conv := [], codes := [] }
  match tokenLoop st0 0 (reFindAll s) with
  | none => none
  | some st1 =>
    let st2 : State := { st1 with codes := dropTrailing st1.codes, opened := fun _ => false }
    match codeLoop st2 0 st2.codes with
    | none => none
    | some st3 =>
      match Reset st3 false with
      | none => none
      | some st4 => some (st4, render st4.conv)

/-- The string returned by `ConvertLine` called in the initial package state. -/
def convert (s : Str) : Option Str :=
  (ConvertLine State.init s).map Prod.snd

/-- The successive calls of `ConvertLine` that the loop of `ConvertFile`
(main.go 429-433) makes for the lines it converts: the package state after the
last call. -/
def ConvertLines : State → List Str → Option State
  | st, [] => some st
  | st, l :: ls =>
    match ConvertLine st l with
    | none => none
    | some r => ConvertLines r.1 ls

/-- A line of 129 tokens: 127 times a reset byte followed by `a`, then the
colour directives `\x0302` (no text) and `\x0303` with the text `x`. -/
def line129 : Str :=
  (List.replicate 127 [CharReset, 'a']).flatten ++ "\x0302\x0303x".toList

/-! ## The classifier of the specification (section 4.1) -/

/-- The classifier as the specification words it, rule by rule: the candidate
`c` against the active colour `a`. -/
def classifySpec (c a : ColorCode) : ColorState :=
  if (c.fg = ColorNone ∧ c.bg = ColorNone) ∨ (c.fg = ColorTransp ∧ c.bg = ColorTransp) then
    StateCancel
  else if a.fg = ColorNone ∧ a.bg = ColorNone then StateNew
  else
    let fgChanged : Bool := decide (c.fg ≠ a.fg)
    let bgChanged : Bool := decide (c.bg ≠ a.bg ∧ c.bg ≠ ColorNone)
    if fgChanged then
      if bgChanged ∨ (a.bg = ColorNone ∧ c.bg = ColorNone) then StateBoth else StateFg
    else if bgChanged then
      if a.fg = ColorNone ∧ c.fg = ColorNone then StateBoth else StateBg
    else StateSame

/-! ## Predicates used in the statements -/

/-- A colour component that `Tag.ToString` renders: neither unset nor
transparent. -/
def visible (n : Int) : Prop := n ≠ ColorNone ∧ n ≠ ColorTransp

instance (n : Int) : Decidable (visible n) := by
  unfold visible; infer_instance

/-- The chunk is the opening markup of a region. -/
def Chunk.isOpen : Chunk → Bool
  | .markup _ false => true
  | _ => false

/-- `st1` arises from `st` by closing regions only: `codes` and `opened` are
the same, no tag is new, and the builder has grown by closing markups of tags
of `st`. -/
def Closes (st st1 : State) : Prop :=
  st1.codes = st.codes ∧ st1.opened = st.opened ∧ (∀ t ∈ st1.tags, t ∈ st.tags) ∧
  ∃ added, st1.conv = st.conv ++ added ∧
    ∀ ch ∈ added, ∃ t ∈ st.tags, ch = Chunk.markup t true

/-- Every tag on the stack and every tag whose markup is in the builder
satisfies `ok`. -/
def Good (ok : Tag → Prop) (st : State) : Prop :=
  (∀ t ∈ st.tags, ok t) ∧ ∀ t b, Chunk.markup t b ∈ st.conv → ok t

/-- The class list of a colour region as the specification words it: `fc<fg>`
if the foreground is visible, `bc<bg>` if the background is visible, joined by
one space when both are. -/
def classSpec (c : ColorCode) : Str :=
  if visible c.fg ∧ visible c.bg then
    "fc".toList ++ fmtInt c.fg ++ [' '] ++ ("bc".toList ++ fmtInt c.bg)
  else if visible c.fg then "fc".toList ++ fmtInt c.fg
  else if visible c.bg then "bc".toList ++ fmtInt c.bg
  else []

/-- A colour tag has a visible component. -/
def colorVisible (t : Tag) : Prop :=
  t.char = CharColor → visible t.color.fg ∨ visible t.color.bg

/-- Replaces the token list of a state. -/
def State.withCodes (st : State) (cs : List FormatCode) : State :=
  { st with codes := cs }

/-- The part of `ConvertLine` after the loop over the matches (main.go
279-299): the string returned from the state `st1` that the loop leaves. -/
def emit (st1 : State) : Option Str :=
  (codeLoop { st1 with codes := dropTrailing st1.codes, opened := fun _ => false } 0
      (dropTrailing st1.codes)).bind
    (fun st3 => (Reset st3 false).map (fun st4 => render st4.conv))

/-! ## Nesting of the markup written -/

/-- The effect of one chunk on the list of the open regions (innermost first)
under proper nesting: an opening markup opens a region, a closing markup has to
be that of the innermost open region and closes it. -/
def nestStep (stack : List Tag) : Chunk → Option (List Tag)
  | .text _ => some stack
  | .markup t false => some (t :: stack)
  | .markup t true =>
    match stack with
    | u :: rest => if u = t then some rest else none
    | [] => none

/-- Removes the innermost region of the kind `c` from the open regions
(innermost first): the region removed and the regions left, in their order. -/
def closeKind (c : Char) : List Tag → Option (Tag × List Tag)
  | [] => none
  | u :: rest =>
    if u.char = c then some (u, rest)
    else
      match closeKind c rest with
      | none => none
      | some r => some (r.1, u :: r.2)

/-- The effect of one chunk on the open regions when a closing markup of a
colour region has to be that of the innermost open region, and a closing
markup of a style region that of the innermost open region of its kind. -/
def kindStep (stack : List Tag) : Chunk → Option (List Tag)
  | .text _ => some stack
  | .markup t false => some (t :: stack)
  | .markup t true =>
    if t.char = CharColor then nestStep stack (.markup t true)
    else
      match closeKind t.char stack with
      | none => none
      | some r => if r.1 = t then some r.2 else none

/-- Runs the chunks of a builder through `step`, from the open regions
`stack`; `none` when a closing markup is not allowed by `step`. -/
def runChunks (step : List Tag → Chunk → Option (List Tag)) :
    List Tag → List Chunk → Option (List Tag)
  | stack, [] => some stack
  | stack, ch :: chs =>
    match step stack ch with
    | none => none
    | some s1 => runChunks step s1 chs

/-- Every region opened is closed once, each closing markup being that of the
most recently opened region still open. -/
def properlyNested (conv : List Chunk) : Bool :=
  runChunks nestStep [] conv = some []

/-- Every region opened is closed once, a colour region when it is the
innermost open region, a style region when it is the innermost open region of
its kind. -/
def closedByKind (conv : List Chunk) : Bool :=
  runChunks kindStep [] conv = some []

/-- The number of tags of the kind `c` on a stack. -/
def kindCount (c : Char) (tags : List Tag) : Nat :=
  tags.countP (fun t => t.char = c)

/-- The invariant of the loop over the tokens, before the token of index `i`:
the chunks written replay to the tag stack; every tag is a colour tag or a
style tag; a style kind has at most one tag on the stack, and none when its
flag is not set; at most `i` colour tags are on the stack. -/
structure LineInv (i : Nat) (st : State) : Prop where
  run : runChunks kindStep [] st.conv = some st.tags.reverse
  kinds : ∀ t ∈ st.tags, t.char = CharColor ∨ isRe2Marker t.char = true
  flags : ∀ c, isRe2Marker c = true → kindCount c st.tags ≤ (if st.opened c then 1 else 0)
  colors : kindCount CharColor st.tags ≤ i

/-- Replaces the `opened` map of a state. -/
def State.withOpened (st : State) (o : Char → Bool) : State :=
  { st with opened := o }

/-- The lookahead decider as the specification words it, on the tokens from
the start position on: `true` is "close", `false` is "keep".  `regionFirst`
says which colour is the candidate of the classifier: the colour of the
region `r` (`true`), or the colour of the later token (`false`). -/
def lookaheadSpec (regionFirst : Bool) (r : Tag) : List FormatCode → Bool
  | [] => true
  | k :: ks =>
    if k.char = CharColor then
      let st :=
        if regionFirst then classifySpec r.color k.color else classifySpec k.color r.color
      if st = StateCancel ∨ (r.color.fg ≠ ColorTransp ∧ k.color.fg = ColorTransp) ∨
          (r.color.bg ≠ ColorTransp ∧ k.color.bg = ColorTransp) then true
      else if st = StateFg ∨ st = StateBg ∨ st = StateSame then false
      else lookaheadSpec regionFirst r ks
    else lookaheadSpec regionFirst r ks

/-! ## The texts of a line -/

/-- The bytes of the directive that a match of `re` has taken: the reset byte,
or the colour byte with its digit groups and comma. -/
def Match.directive (m : Match) : Str :=
  m.g1 ++ m.g2 ++ m.g3 ++ (if m.g4 = [] then [] else ',' :: m.g4)

/-- The match begins with a colour or a reset byte (the tests of main.go 233
and 268). -/
def marked (m : Match) : Prop :=
  (m.g2.length > 0 ∧ m.g2.head? = some CharColor) ∨
    (m.g1.length > 0 ∧ m.g1.head? = some CharReset)

/-- The literal text of a chunk: empty for a markup. -/
def Chunk.textPart : Chunk → Str
  | .text x => x
  | .markup _ _ => []

/-- The literal texts written to the builder, in order: the output without
the markup. -/
def textOf (conv : List Chunk) : Str :=
  (conv.map Chunk.textPart).flatten

/-- The texts of a token list, in order. -/
def textsOf (codes : List FormatCode) : Str :=
  (codes.map (fun c => c.text)).flatten

/-- The chunk is the closing markup of a region. -/
def Chunk.isClose : Chunk → Bool
  | .markup _ true => true
  | _ => false

/-- The invariant of the loop over the tokens of a line without style marker,
before the token of index `i`: the chunks written replay, under proper
nesting, to the tag stack; the tags on the stack and the tags of the markups
written are colour tags; at most `i` tags are on the stack. -/
structure NestInv (i : Nat) (st : State) : Prop where
  run : runChunks nestStep [] st.conv = some st.tags.reverse
  colors : ∀ t ∈ st.tags, t.char = CharColor
  marks : ∀ t b, Chunk.markup t b ∈ st.conv → t.char = CharColor
  count : st.tags.length ≤ i

/-! ## The line without its directives, as the specification words it -/

/-- The number of digits of a decimal number of one or two digits at the start
of a string: 0 when the string does not begin with a digit. -/
def digitsLength : Str → Nat
  | a :: b :: _ => if a.isDigit then (if b.isDigit then 2 else 1) else 0
  | [a] => if a.isDigit then 1 else 0
  | [] => 0

/-- The number of bytes after a colour byte that belong to its directive: none
when no digit follows; else the one or two digits of the foreground and, when
a comma and a digit follow them, the comma and the one or two digits of the
background. -/
def directiveLength (s : Str) : Nat :=
  let n := digitsLength s
  if n = 0 then 0
  else
    match s.drop n with
    | c :: r => if c = ',' ∧ digitsLength r ≠ 0 then n + 1 + digitsLength r else n
    | [] => n

/-- Removes the directives from a line, byte by byte; the first argument is the
number of the bytes of the current colour directive that are still to
remove. -/
def stripLoop : Nat → Str → Str
  | _, [] => []
  | k + 1, _ :: s => stripLoop k s
  | 0, c :: s =>
    if c = CharReset then stripLoop 0 s
    else if c = CharColor then stripLoop (directiveLength s) s
    else c :: stripLoop 0 s

/-- The line with every reset byte and every colour directive (the colour byte
with the digit groups and the comma that belong to it) removed. -/
def stripDirectives (s : Str) : Str := stripLoop 0 s

/-- The chunk is the markup, opening or closing, of a colour region. -/
def Chunk.isColor : Chunk → Bool
  | .markup t _ => decide (t.char = CharColor)
  | .text _ => false

/-- The colour markups written, in order. -/
def colorMarkups (conv : List Chunk) : List Chunk :=
  conv.filter Chunk.isColor

/-! ## Basic facts -/

theorem lastIndex_zero : lastIndex 0 = -1 := by decide

theorem cut_no_marker (p : Char → Bool) (s : Str) (h : ∀ c ∈ s, p c = false) :
    cut p s = (s, []) := by
  induction s with
  | nil => rfl
  | cons c cs ih =>
    have hc : p c = false := h c (List.mem_cons_self _ _)
    have ih1 := ih (fun d hd => h d (List.mem_cons_of_mem _ hd))
    simp [cut, hc, ih1]

theorem reFindAll_no_marker (s : Str) (h : ∀ c ∈ s, isReMarker c = false) :
    reFindAll s = [⟨[], [], [], [], s⟩] := by
  cases s with
  | nil => rfl
  | cons c cs =>
    have hc : isReMarker c = false := h c (List.mem_cons_self _ _)
    simp [reFindAll, cut_no_marker isReMarker (c :: cs) h, hc]

theorem toInt8_of_small (n : Int) (h0 : -128 ≤ n) (h1 : n ≤ 127) : toInt8 n = n := by
  unfold toInt8
  omega

theorem lastIndex_small (n : Nat) (h : n ≤ 127) : lastIndex n = (n : Int) - 1 := by
  unfold lastIndex
  rw [toInt8_of_small (n : Int) (by omega) (by omega)]
  exact toInt8_of_small _ (by omega) (by omega)

theorem lastIndex_loop_count (n : Nat) (h : n ≤ 127) : (lastIndex n + 1).toNat = n := by
  rw [lastIndex_small n h]
  omega

theorem Reset_nil (st : State) (colors : Bool) (h : st.tags = []) :
    Reset st colors = some { st with tags := [] } := by
  unfold Reset
  rw [h, List.length_nil, lastIndex_loop_count 0 (by omega)]
  rfl

theorem tokenStep_plain (st : State) (i : Nat) (t : Str) :
    tokenStep st i ⟨[], [], [], [], t⟩ = some (st.write t) := by
  rfl

theorem render_text (t : Str) : render [Chunk.text t] = t := by
  simp [render, Chunk.render]

/-- A line without colour or reset byte is written through as it is. -/
theorem ConvertLine_no_directive (st : State) (s : Str) (ht : st.tags = [])
    (h : ∀ c ∈ s, isReMarker c = false) :
    ConvertLine st s =
      some (⟨[], [], [Chunk.text s], fun _ => false⟩, s) := by
  unfold ConvertLine
  rw [reFindAll_no_marker s h]
  simp only [tokenLoop, tokenStep_plain]
  simp only [State.write, dropTrailing, List.getLast?_nil, codeLoop, List.nil_append]
  rw [ht, Reset_nil _ _ rfl]
  simp only [render_text]

/-! ## The state at the start and at the end of a call -/

theorem tokenStep_withOpened (st : State) (o : Char → Bool) (i : Nat) (m : Match) :
    tokenStep (st.withOpened o) i m = (tokenStep st i m).map (fun r => r.withOpened o) := by
  unfold tokenStep colorStep
  simp only [State.withOpened, State.write]
  split_ifs
  · rfl
  · cases mergeColor st.codes _ <;> rfl
  · rfl
  · rfl

theorem tokenLoop_withOpened (ms : List Match) (st : State) (o : Char → Bool) (i : Nat) :
    tokenLoop (st.withOpened o) i ms = (tokenLoop st i ms).map (fun r => r.withOpened o) := by
  induction ms generalizing st i with
  | nil => rfl
  | cons m ms ih =>
    simp only [tokenLoop, tokenStep_withOpened]
    cases tokenStep st i m with
    | none => rfl
    | some st1 => simpa using ih st1 (i + 1)

/-- `ConvertLine` reads nothing of the state it is called in but the tag
stack: the builder, the token list and the open flags are cleared first. -/
theorem ConvertLine_cleared (st : State) (s : Str) :
    ConvertLine st s = ConvertLine ⟨[], st.tags, [], fun _ => false⟩ s := by
  have h := tokenLoop_withOpened (reFindAll s) ⟨[], st.tags, [], fun _ => false⟩ st.opened 0
  unfold ConvertLine
  simp only [State.withOpened] at h
  simp only [h]
  cases tokenLoop ⟨[], st.tags, [], fun _ => false⟩ 0 (reFindAll s) <;> rfl

theorem Reset_tags (st st1 : State) (colors : Bool) (h : Reset st colors = some st1) :
    st1.tags = [] := by
  unfold Reset at h
  cases hl : ResetLoop colors st.tags (lastIndex st.tags.length + 1).toNat st with
  | none => simp [hl] at h
  | some st2 =>
    simp only [hl, Option.some.injEq] at h
    rw [← h]

/-- After a call that returns, the tag stack is empty. -/
theorem ConvertLine_tags (st : State) (s : Str) (r : State × Str)
    (h : ConvertLine st s = some r) : r.1.tags = [] := by
  unfold ConvertLine at h
  cases h1 : tokenLoop { st with conv := [], codes := [] } 0 (reFindAll s) with
  | none => simp [h1] at h
  | some st1 =>
    simp only [h1] at h
    cases h2 : codeLoop { st1 with codes := dropTrailing st1.codes, opened := fun _ => false } 0
        (dropTrailing st1.codes) with
    | none => simp [h2] at h
    | some st3 =>
      simp only [h2] at h
      cases h3 : Reset st3 false with
      | none => simp [h3] at h
      | some st4 =>
        simp only [h3, Option.some.injEq] at h
        rw [← h]
        exact Reset_tags st3 st4 false h3

theorem ConvertLines_tags (ls : List Str) (st0 st : State) (h0 : st0.tags = [])
    (h : ConvertLines st0 ls = some st) : st.tags = [] := by
  induction ls generalizing st0 with
  | nil =>
    simp only [ConvertLines, Option.some.injEq] at h
    rw [← h]; exact h0
  | cons l ls ih =>
    simp only [ConvertLines] at h
    cases h1 : ConvertLine st0 l with
    | none => simp [h1] at h
    | some r =>
      simp only [h1] at h
      exact ih r.1 (ConvertLine_tags st0 l r h1) h

/-! ## Closing regions -/

theorem getIdx_mem {α : Type} (l : List α) (i : Int) (x : α) (h : getIdx l i = some x) :
    x ∈ l := by
  unfold getIdx at h
  split_ifs at h
  exact List.get?_mem h

theorem Closes.refl (st : State) : Closes st st :=
  ⟨rfl, rfl, fun _ h => h, [], by simp, by simp⟩

theorem Closes.trans {a b c : State} (h1 : Closes a b) (h2 : Closes b c) : Closes a c := by
  obtain ⟨hc1, ho1, ht1, ad1, hv1, ha1⟩ := h1
  obtain ⟨hc2, ho2, ht2, ad2, hv2, ha2⟩ := h2
  refine ⟨hc2.trans hc1, ho2.trans ho1, fun t h => ht1 t (ht2 t h), ad1 ++ ad2, ?_, ?_⟩
  · rw [hv2, hv1, List.append_assoc]
  · intro ch hch
    rcases List.mem_append.mp hch with h | h
    · exact ha1 ch h
    · obtain ⟨t, htm, hte⟩ := ha2 ch h
      exact ⟨t, ht1 t htm, hte⟩

theorem CloseTag_closes (st st1 : State) (i : Int) (h : CloseTag st i = some st1) :
    Closes st st1 := by
  unfold CloseTag at h
  split_ifs at h with hi
  · cases hg : getIdx st.tags i with
    | none => simp [hg] at h
    | some t =>
      simp only [hg, Tag.ToString] at h
      cases ha : sliceTo st.tags i with
      | none => simp [ha] at h
      | some a =>
        cases hb : sliceFrom st.tags (toInt8 (i + 1)) with
        | none => simp [ha, hb] at h
        | some b =>
          simp only [ha, hb, Option.some.injEq] at h
          subst h
          refine ⟨rfl, rfl, ?_, [Chunk.markup t true], rfl, ?_⟩
          · intro u hu
            unfold sliceTo at ha
            unfold sliceFrom at hb
            split_ifs at ha hb
            simp only [Option.some.injEq] at ha hb
            subst ha hb
            rcases List.mem_append.mp hu with h' | h'
            · exact List.mem_of_mem_take h'
            · exact List.mem_of_mem_drop h'
          · intro ch hch
            simp only [List.mem_singleton] at hch
            exact ⟨t, getIdx_mem _ _ _ hg, hch⟩
  · simp only [Option.some.injEq] at h
    subst h
    exact Closes.refl st

theorem ResetLoop_spec (colors : Bool) (tags : List Tag) (k : Nat) (st st1 : State)
    (h : ResetLoop colors tags k st = some st1) :
    st1.codes = st.codes ∧ st1.opened = st.opened ∧ st1.tags = st.tags ∧
    ∃ added, st1.conv = st.conv ++ added ∧
      ∀ ch ∈ added, ∃ t ∈ tags, ch = Chunk.markup t true := by
  induction k generalizing st with
  | zero =>
    simp only [ResetLoop, Option.some.injEq] at h
    subst h
    exact ⟨rfl, rfl, rfl, [], by simp, by simp⟩
  | succ k ih =>
    simp only [ResetLoop] at h
    cases hg : getIdx tags (k : Int) with
    | none => simp [hg] at h
    | some tag =>
      simp only [hg] at h
      split_ifs at h
      · exact ih st h
      · obtain ⟨h1, h2, h3, ad, h4, h5⟩ := ih _ h
        refine ⟨h1, h2, h3, Chunk.markup tag true :: ad, ?_, ?_⟩
        · rw [h4]; simp [Tag.ToString]
        · intro ch hch
          rcases List.mem_cons.mp hch with h' | h'
          · exact ⟨tag, getIdx_mem _ _ _ hg, h'⟩
          · exact h5 ch h'

theorem Reset_closes (st st1 : State) (colors : Bool) (h : Reset st colors = some st1) :
    Closes st st1 := by
  unfold Reset at h
  cases hl : ResetLoop colors st.tags (lastIndex st.tags.length + 1).toNat st with
  | none => simp [hl] at h
  | some st2 =>
    simp only [hl, Option.some.injEq] at h
    subst h
    obtain ⟨h1, h2, _, ad, h4, h5⟩ := ResetLoop_spec _ _ _ _ _ hl
    exact ⟨h1, h2, by simp, ad, h4, h5⟩

theorem ShouldCloseAllColorTagsLoop_closes (start : Int) (k : Nat) (st st1 : State)
    (h : ShouldCloseAllColorTagsLoop start k st = some st1) : Closes st st1 := by
  induction k generalizing st with
  | zero =>
    simp only [ShouldCloseAllColorTagsLoop, Option.some.injEq] at h
    subst h
    exact Closes.refl st
  | succ k ih =>
    simp only [ShouldCloseAllColorTagsLoop] at h
    cases hg : getIdx st.tags (k : Int) with
    | none => simp [hg] at h
    | some tag =>
      simp only [hg] at h
      split_ifs at h
      · cases hs : ShouldCloseColorTag st.codes tag start with
        | none => simp [hs] at h
        | some b =>
          cases b with
          | false =>
            simp only [hs, Option.some.injEq] at h
            subst h
            exact Closes.refl st
          | true =>
            simp only [hs] at h
            cases hc : CloseTag st (k : Int) with
            | none => simp [hc] at h
            | some st2 =>
              simp only [hc] at h
              exact Closes.trans (CloseTag_closes _ _ _ hc) (ih st2 h)
      · simp only [Option.some.injEq] at h
        subst h
        exact Closes.refl st

theorem ShouldCloseAllColorTags_closes (st st1 : State) (start : Int)
    (h : ShouldCloseAllColorTags st start = some st1) : Closes st st1 :=
  ShouldCloseAllColorTagsLoop_closes _ _ _ _ h

/-! ## Rendering of colour tags -/

theorem toDigitsCore_suffix (b fuel n : Nat) (ds : List Char) :
    ∃ pre, Nat.toDigitsCore b fuel n ds = pre ++ ds := by
  induction fuel generalizing n ds with
  | zero => exact ⟨[], rfl⟩
  | succ f ih =>
    simp only [Nat.toDigitsCore]
    split_ifs
    · exact ⟨[Nat.digitChar (n % b)], rfl⟩
    · obtain ⟨pre, hp⟩ := ih (n / b) (Nat.digitChar (n % b) :: ds)
      exact ⟨pre ++ [Nat.digitChar (n % b)], by rw [hp]; simp⟩

theorem toDigits_last (m : Nat) :
    ∃ l, Nat.toDigits 10 m = l ++ [Nat.digitChar (m % 10)] := by
  unfold Nat.toDigits
  simp only [Nat.toDigitsCore]
  split_ifs
  · exact ⟨[], rfl⟩
  · exact toDigitsCore_suffix 10 m (m / 10) [Nat.digitChar (m % 10)]

theorem digitChar_not_space (m : Nat) : isSpace (Nat.digitChar (m % 10)) = false := by
  have h : m % 10 < 10 := Nat.mod_lt _ (by decide)
  interval_cases (m % 10) <;> decide

theorem fmtInt_last (n : Int) : ∃ l d, fmtInt n = l ++ [d] ∧ isSpace d = false := by
  unfold fmtInt
  split_ifs
  · obtain ⟨l, hl⟩ := toDigits_last n.natAbs
    exact ⟨'-' :: l, _, by rw [hl]; rfl, digitChar_not_space _⟩
  · obtain ⟨l, hl⟩ := toDigits_last n.toNat
    exact ⟨l, _, hl, digitChar_not_space _⟩

theorem TrimSpace_id (a d : Char) (l : Str) (ha : isSpace a = false) (hd : isSpace d = false) :
    TrimSpace (a :: (l ++ [d])) = a :: (l ++ [d]) := by
  unfold TrimSpace
  have h1 : List.dropWhile isSpace (a :: (l ++ [d])) = a :: (l ++ [d]) := by
    simp [List.dropWhile, ha]
  rw [h1]
  have h2 : (a :: (l ++ [d])).reverse = d :: (l.reverse ++ [a]) := by simp
  rw [h2]
  have h3 : List.dropWhile isSpace (d :: (l.reverse ++ [a])) = d :: (l.reverse ++ [a]) := by
    simp [List.dropWhile, hd]
  rw [h3]
  simp

theorem classOf_eq_classSpec (c : ColorCode) : classOf c = classSpec c := by
  unfold classOf classSpec visible
  by_cases hf : c.fg ≠ ColorNone ∧ c.fg ≠ ColorTransp
  · by_cases hb : c.bg ≠ ColorNone ∧ c.bg ≠ ColorTransp
    · simp [hf, hb]
    · simp [hf, hb]
  · by_cases hb : c.bg ≠ ColorNone ∧ c.bg ≠ ColorTransp
    · simp [hf, hb]
    · simp [hf, hb]

theorem TrimSpace_classSpec (c : ColorCode) : TrimSpace (classSpec c) = classSpec c := by
  obtain ⟨lf, df, hlf, hdf⟩ := fmtInt_last c.fg
  obtain ⟨lb, db, hlb, hdb⟩ := fmtInt_last c.bg
  unfold classSpec
  split_ifs
  · have e : "fc".toList ++ fmtInt c.fg ++ [' '] ++ ("bc".toList ++ fmtInt c.bg) =
        'f' :: (('c' :: (fmtInt c.fg ++ [' '] ++ 'b' :: 'c' :: lb)) ++ [db]) := by
      rw [hlb]; simp
    rw [e]
    exact TrimSpace_id _ _ _ (by decide) hdb
  · have e : "fc".toList ++ fmtInt c.fg = 'f' :: (('c' :: lf) ++ [df]) := by
      rw [hlf]; simp
    rw [e]
    exact TrimSpace_id _ _ _ (by decide) hdf
  · have e : "bc".toList ++ fmtInt c.bg = 'b' :: (('c' :: lb) ++ [db]) := by
      rw [hlb]; simp
    rw [e]
    exact TrimSpace_id _ _ _ (by decide) hdb
  · rfl

theorem classSpec_ne_nil (c : ColorCode) (h : visible c.fg ∨ visible c.bg) :
    classSpec c ≠ [] := by
  unfold classSpec
  split_ifs with h1 h2 h3
  · simp
  · simp
  · simp
  · rcases h with h | h
    · exact absurd h h2
    · exact absurd h h3

theorem markup_color_open (t : Tag) (h : t.char = CharColor) :
    t.markup false = "<span class=".toList ++ [dquote] ++ classSpec t.color ++ [dquote, '>'] := by
  unfold Tag.markup
  rw [if_pos h, classOf_eq_classSpec, TrimSpace_classSpec]
  simp

theorem markup_color_close (t : Tag) (h : t.char = CharColor) :
    t.markup true = "</span>".toList := by
  unfold Tag.markup
  rw [if_pos h]
  simp

/-! ## Preservation of `Good` -/

theorem Good.of_eq {ok : Tag → Prop} {st st1 : State} (h : Good ok st)
    (ht : st1.tags = st.tags) (hc : st1.conv = st.conv) : Good ok st1 := by
  unfold Good at *
  rw [ht, hc]
  exact h

theorem Closes.good {ok : Tag → Prop} {st st1 : State} (h : Good ok st) (hc : Closes st st1) :
    Good ok st1 := by
  obtain ⟨_, _, ht, ad, hv, ha⟩ := hc
  refine ⟨fun t h1 => h.1 t (ht t h1), ?_⟩
  intro t b hm
  rw [hv] at hm
  rcases List.mem_append.mp hm with h1 | h1
  · exact h.2 t b h1
  · obtain ⟨u, hu, he⟩ := ha _ h1
    cases he
    exact h.1 _ hu

theorem write_good {ok : Tag → Prop} {st : State} (h : Good ok st) (x : Str) :
    Good ok (st.write x) := by
  refine ⟨h.1, ?_⟩
  intro t b hm
  simp only [State.write, List.mem_append, List.mem_singleton] at hm
  rcases hm with h1 | h1
  · exact h.2 t b h1
  · cases h1

theorem AddTag_good {ok : Tag → Prop} {st : State} (h : Good ok st) (t : Tag) (ht : ok t) :
    Good ok (AddTag st t) := by
  constructor
  · intro u hu
    simp only [AddTag, Tag.ToString, List.mem_append, List.mem_singleton] at hu
    rcases hu with h1 | h1
    · exact h.1 u h1
    · rw [h1]; exact ht
  · intro u b hm
    simp only [AddTag, Tag.ToString, List.mem_append, List.mem_singleton] at hm
    rcases hm with h1 | h1
    · exact h.2 u b h1
    · cases h1
      exact ht

theorem AddColorTag_good {ok : Tag → Prop} {st : State} (h : Good ok st) (fg bg : Int)
    (hC : ∀ f b, visible f ∨ visible b → ok ⟨CharColor, ⟨f, b⟩⟩) :
    Good ok (AddColorTag st fg bg) := by
  unfold AddColorTag
  split_ifs with hv
  · exact AddTag_good h _ (hC fg bg hv)
  · exact h

theorem toggleTag_good {ok : Tag → Prop} {st st1 : State} (h : Good ok st) (char : Char)
    (hS : ∀ c, ok ⟨c, ⟨0, 0⟩⟩) (hs : toggleTag st char = some st1) : Good ok st1 := by
  unfold toggleTag at hs
  split_ifs at hs
  · cases hg : GetLastTagIndex st.tags char with
    | none => simp [hg] at hs
    | some i =>
      simp only [hg, Option.map_eq_some'] at hs
      obtain ⟨s2, h2, he⟩ := hs
      subst he
      exact Good.of_eq (Closes.good h (CloseTag_closes _ _ _ h2)) rfl rfl
  · simp only [Option.some.injEq] at hs
    subst hs
    exact Good.of_eq (AddTag_good h _ (hS char)) rfl rfl

theorem toggleStep_good {ok : Tag → Prop} {st st1 : State} (h : Good ok st) (m : Str × Str)
    (hS : ∀ c, ok ⟨c, ⟨0, 0⟩⟩) (hs : toggleStep st m = some st1) : Good ok st1 := by
  unfold toggleStep at hs
  cases hm : m.1 with
  | nil =>
    simp only [hm, Option.some.injEq] at hs
    subst hs
    exact write_good h _
  | cons char rest =>
    simp only [hm, Option.map_eq_some'] at hs
    obtain ⟨s2, h2, he⟩ := hs
    subst he
    exact write_good (toggleTag_good h char hS h2) _

theorem toggleLoop_good {ok : Tag → Prop} (ms : List (Str × Str)) {st st1 : State}
    (h : Good ok st) (hS : ∀ c, ok ⟨c, ⟨0, 0⟩⟩) (hs : toggleLoop st ms = some st1) :
    Good ok st1 := by
  induction ms generalizing st with
  | nil =>
    simp only [toggleLoop, Option.some.injEq] at hs
    subst hs
    exact h
  | cons m ms ih =>
    simp only [toggleLoop] at hs
    cases h1 : toggleStep st m with
    | none => simp [h1] at hs
    | some st2 =>
      simp only [h1] at hs
      exact ih (toggleStep_good h m hS h1) hs

theorem closeTags_closes (st st1 : State) (i : Int) (c : FormatCode)
    (h : closeTags st i c = some st1) : Closes st st1 := by
  unfold closeTags at h
  simp only [] at h
  split_ifs at h
  · exact Reset_closes _ _ _ h
  · exact ShouldCloseAllColorTags_closes _ _ _ h
  · simp only [Option.some.injEq] at h
    subst h
    exact Closes.refl st

theorem openTags_good {ok : Tag → Prop} {st : State} (h : Good ok st) (c : FormatCode)
    (hC : ∀ f b, visible f ∨ visible b → ok ⟨CharColor, ⟨f, b⟩⟩) :
    Good ok (openTags st c) := by
  unfold openTags
  simp only []
  split_ifs <;> first | exact AddColorTag_good h _ _ hC | exact h

theorem directive_good {ok : Tag → Prop} {st st1 : State} (h : Good ok st)
    (i : Int) (c : FormatCode)
    (hC : ∀ f b, visible f ∨ visible b → ok ⟨CharColor, ⟨f, b⟩⟩)
    (hs : directive st i c = some st1) : Good ok st1 := by
  unfold directive at hs
  split_ifs at hs
  · simp only [Option.map_eq_some'] at hs
    obtain ⟨sa, ha, he⟩ := hs
    subst he
    exact openTags_good (Closes.good h (closeTags_closes _ _ _ _ ha)) c hC
  · exact Closes.good h (Reset_closes _ _ _ hs)
  · simp only [Option.some.injEq] at hs
    subst hs
    exact h

theorem ConvertFormatCode_good {ok : Tag → Prop} {st st1 : State} (h : Good ok st)
    (i : Int) (c : FormatCode) (hS : ∀ c, ok ⟨c, ⟨0, 0⟩⟩)
    (hC : ∀ f b, visible f ∨ visible b → ok ⟨CharColor, ⟨f, b⟩⟩)
    (hs : ConvertFormatCode st i c = some st1) : Good ok st1 := by
  unfold ConvertFormatCode at hs
  simp only [Option.bind_eq_some] at hs
  obtain ⟨sb, hb, ht⟩ := hs
  exact toggleLoop_good _ (directive_good h i c hC hb) hS ht

theorem codeLoop_good {ok : Tag → Prop} (cs : List FormatCode) {st st1 : State} (h : Good ok st)
    (i : Nat) (hS : ∀ c, ok ⟨c, ⟨0, 0⟩⟩)
    (hC : ∀ f b, visible f ∨ visible b → ok ⟨CharColor, ⟨f, b⟩⟩)
    (hs : codeLoop st i cs = some st1) : Good ok st1 := by
  induction cs generalizing st i with
  | nil =>
    simp only [codeLoop, Option.some.injEq] at hs
    subst hs
    exact h
  | cons c cs ih =>
    simp only [codeLoop] at hs
    cases h1 : ConvertFormatCode st (toInt8 i) c with
    | none => simp [h1] at hs
    | some st2 =>
      simp only [h1] at hs
      exact ih (ConvertFormatCode_good h _ c hS hC h1) (i + 1) hs

/-- The loop over the matches of `re` leaves the tag stack alone and writes
texts only. -/
theorem tokenStep_spec (st st1 : State) (i : Nat) (m : Match)
    (hs : tokenStep st i m = some st1) :
    st1.tags = st.tags ∧ st1.opened = st.opened ∧
    (st1.conv = st.conv ∨ ∃ x, st1.conv = st.conv ++ [Chunk.text x]) := by
  unfold tokenStep colorStep at hs
  split_ifs at hs
  · simp only [Option.some.injEq] at hs
    subst hs
    exact ⟨rfl, rfl, Or.inr ⟨_, rfl⟩⟩
  · simp only [Option.map_eq_some'] at hs
    obtain ⟨cs, _, he⟩ := hs
    subst he
    exact ⟨rfl, rfl, Or.inl rfl⟩
  · simp only [Option.some.injEq] at hs
    subst hs
    exact ⟨rfl, rfl, Or.inl rfl⟩
  · simp only [Option.some.injEq] at hs
    subst hs
    exact ⟨rfl, rfl, Or.inr ⟨_, rfl⟩⟩

theorem tokenStep_good {ok : Tag → Prop} {st st1 : State} (h : Good ok st) (i : Nat) (m : Match)
    (hs : tokenStep st i m = some st1) : Good ok st1 := by
  obtain ⟨ht, _, hc⟩ := tokenStep_spec st st1 i m hs
  rcases hc with hc | ⟨x, hc⟩
  · exact Good.of_eq h ht hc
  · exact Good.of_eq (write_good h x) ht hc

theorem tokenLoop_good {ok : Tag → Prop} (ms : List Match) {st st1 : State} (h : Good ok st)
    (i : Nat) (hs : tokenLoop st i ms = some st1) : Good ok st1 := by
  induction ms generalizing st i with
  | nil =>
    simp only [tokenLoop, Option.some.injEq] at hs
    subst hs
    exact h
  | cons m ms ih =>
    simp only [tokenLoop] at hs
    cases h1 : tokenStep st i m with
    | none => simp [h1] at hs
    | some st2 =>
      simp only [h1] at hs
      exact ih (tokenStep_good h i m h1) (i + 1) hs

/-- The steps of `ConvertLine`, as a statement about a call that returns. -/
theorem ConvertLine_steps (st0 : State) (s : Str) (r : State × Str)
    (h : ConvertLine st0 s = some r) :
    ∃ st1 st3, tokenLoop { st0 with conv := [], codes := [] } 0 (reFindAll s) = some st1 ∧
      codeLoop { st1 with codes := dropTrailing st1.codes, opened := fun _ => false } 0
        (dropTrailing st1.codes) = some st3 ∧
      Reset st3 false = some r.1 ∧ r.2 = render r.1.conv := by
  unfold ConvertLine at h
  cases h1 : tokenLoop { st0 with conv := [], codes := [] } 0 (reFindAll s) with
  | none => simp [h1] at h
  | some st1 =>
    simp only [h1] at h
    cases h2 : codeLoop { st1 with codes := dropTrailing st1.codes, opened := fun _ => false } 0
        (dropTrailing st1.codes) with
    | none => simp [h2] at h
    | some st3 =>
      simp only [h2] at h
      cases h3 : Reset st3 false with
      | none => simp [h3] at h
      | some st4 =>
        simp only [h3, Option.some.injEq] at h
        subst h
        exact ⟨st1, st3, rfl, h2, h3, rfl⟩

/-- The invariant `Good` holds for the state that a call of `ConvertLine` in a
state with an empty tag stack ends in; the string returned is the rendering of
the builder. -/
theorem ConvertLine_good {ok : Tag → Prop} (st0 : State) (s : Str) (r : State × Str)
    (h0 : st0.tags = []) (hS : ∀ c, ok ⟨c, ⟨0, 0⟩⟩)
    (hC : ∀ f b, visible f ∨ visible b → ok ⟨CharColor, ⟨f, b⟩⟩)
    (h : ConvertLine st0 s = some r) : Good ok r.1 ∧ r.2 = render r.1.conv := by
  obtain ⟨st1, st3, h1, h2, h3, h4⟩ := ConvertLine_steps st0 s r h
  have g0 : Good ok { st0 with conv := [], codes := [] } := by
    constructor
    · intro t ht
      rw [show ({ st0 with conv := [], codes := [] } : State).tags = st0.tags from rfl, h0] at ht
      cases ht
    · intro t b hm
      cases hm
  have g1 : Good ok st1 := tokenLoop_good _ g0 0 h1
  have g2 : Good ok { st1 with codes := dropTrailing st1.codes, opened := fun _ => false } :=
    Good.of_eq g1 rfl rfl
  have g3 : Good ok st3 := codeLoop_good _ g2 0 hS hC h2
  exact ⟨Closes.good g3 (Reset_closes _ _ _ h3), h4⟩

/-! ## A colour token with a white-space text -/

theorem re2FindAll_no_marker (s : Str) (h : ∀ c ∈ s, isRe2Marker c = false) :
    re2FindAll s = [([], s)] := by
  cases s with
  | nil => rfl
  | cons c cs =>
    have hc : isRe2Marker c = false := h c (List.mem_cons_self _ _)
    simp [re2FindAll, cut_no_marker isRe2Marker (c :: cs) h, hc]

theorem isSpace_not_marker (x : Char) (h : isSpace x = true) : isRe2Marker x = false := by
  cases hm : isRe2Marker x with
  | false => rfl
  | true =>
    exfalso
    simp only [isRe2Marker, decide_eq_true_eq] at hm
    rcases hm with h1 | h1 | h1 <;> rw [h1] at h <;> revert h <;> decide

theorem TrimSpace_of_space (s : Str) (h : ∀ x ∈ s, isSpace x = true) : TrimSpace s = [] := by
  unfold TrimSpace
  have h1 : List.dropWhile isSpace s = [] := by
    rw [List.dropWhile_eq_nil_iff]
    exact h
  rw [h1]
  rfl

theorem toggleLoop_space (st : State) (s : Str) (h : ∀ x ∈ s, isSpace x = true) :
    toggleLoop st (re2FindAll s) = some (st.write s) := by
  rw [re2FindAll_no_marker s (fun x hx => isSpace_not_marker x (h x hx))]
  rfl

theorem openTags_space (st : State) (c : FormatCode) (h : ∀ x ∈ c.text, isSpace x = true) :
    openTags st c = st ∨
    (visible c.color.bg ∧ openTags st c = AddTag st ⟨CharColor, ⟨ColorNone, c.color.bg⟩⟩) := by
  have hn : ¬ visible ColorNone := by unfold visible; decide
  have ha : AddColorTag st ColorNone c.color.bg = st ∨
      (visible c.color.bg ∧
        AddColorTag st ColorNone c.color.bg = AddTag st ⟨CharColor, ⟨ColorNone, c.color.bg⟩⟩) := by
    unfold AddColorTag
    split_ifs with hv
    · right
      rcases hv with hv | hv
      · exact absurd hv hn
      · exact ⟨hv, rfl⟩
    · left; rfl
  unfold openTags
  simp only [TrimSpace_of_space c.text h, List.length_nil, decide_True, if_true, not_true,
    if_false]
  split_ifs
  · exact ha
  · left; rfl
  · exact ha
  · left; rfl

/-! ## The tag stack functions never panic -/

theorem toInt8_le (n : Int) : toInt8 n ≤ 127 := by
  unfold toInt8; omega

theorem toInt8_ge (n : Int) : -128 ≤ toInt8 n := by
  unfold toInt8; omega

theorem toInt8_len_le (n : Nat) : toInt8 n ≤ (n : Int) := by
  unfold toInt8; omega

theorem lastIndex_count_le (n : Nat) : (lastIndex n + 1).toNat ≤ n := by
  unfold lastIndex toInt8; omega

theorem getIdx_lt {α : Type} (l : List α) (k : Nat) (h : k < l.length) :
    getIdx l (k : Int) = some (l.get ⟨k, h⟩) := by
  unfold getIdx
  have h0 : ¬ ((k : Int) < 0) := by omega
  rw [if_neg h0]
  simp [List.get?_eq_get h]

theorem CloseTag_total (st : State) (i : Int) : ∃ st1, CloseTag st i = some st1 := by
  unfold CloseTag
  split_ifs with hi
  · have h1 := toInt8_len_le st.tags.length
    have h2 := toInt8_le st.tags.length
    have h3 : (0 : Int) ≤ i := hi.1
    have h4 : (i : Int) < toInt8 st.tags.length := hi.2
    have hlt : i.toNat < st.tags.length := by omega
    have hi' : i = ((i.toNat : Nat) : Int) := by omega
    have hg : getIdx st.tags i = some (st.tags.get ⟨i.toNat, hlt⟩) := by
      conv_lhs => rw [hi']
      exact getIdx_lt _ _ hlt
    have e1 : toInt8 (i + 1) = i + 1 := toInt8_of_small _ (by omega) (by omega)
    have ha : sliceTo st.tags i = some (st.tags.take i.toNat) := by
      unfold sliceTo
      rw [if_pos ⟨hi.1, by omega⟩]
    have hb : sliceFrom st.tags (toInt8 (i + 1)) = some (st.tags.drop (i + 1).toNat) := by
      unfold sliceFrom
      rw [e1, if_pos ⟨by omega, by omega⟩]
    simp only [hg, Tag.ToString, ha, hb]
    exact ⟨_, rfl⟩
  · exact ⟨st, rfl⟩

theorem GetLastTagIndexLoop_total (tags : List Tag) (c : Char) (k : Nat) (hk : k ≤ tags.length) :
    ∃ j, GetLastTagIndexLoop tags c k = some j := by
  induction k with
  | zero => exact ⟨-1, rfl⟩
  | succ k ih =>
    simp only [GetLastTagIndexLoop]
    rw [getIdx_lt tags k (by omega)]
    simp only []
    split_ifs
    · exact ⟨_, rfl⟩
    · exact ih (by omega)

theorem GetLastTagIndex_total (tags : List Tag) (c : Char) :
    ∃ j, GetLastTagIndex tags c = some j :=
  GetLastTagIndexLoop_total tags c _ (lastIndex_count_le _)

theorem ResetLoop_total (colors : Bool) (tags : List Tag) (k : Nat) (st : State)
    (hk : k ≤ tags.length) : ∃ st1, ResetLoop colors tags k st = some st1 := by
  induction k generalizing st with
  | zero => exact ⟨st, rfl⟩
  | succ k ih =>
    simp only [ResetLoop]
    rw [getIdx_lt tags k (by omega)]
    simp only []
    split_ifs
    · exact ih st (by omega)
    · exact ih _ (by omega)

theorem Reset_total (st : State) (colors : Bool) : ∃ st1, Reset st colors = some st1 := by
  unfold Reset
  obtain ⟨st1, h⟩ := ResetLoop_total colors st.tags _ st (lastIndex_count_le _)
  rw [h]
  exact ⟨_, rfl⟩

theorem toggleTag_total (st : State) (char : Char) : ∃ st1, toggleTag st char = some st1 := by
  unfold toggleTag
  split_ifs
  · obtain ⟨j, hj⟩ := GetLastTagIndex_total st.tags char
    obtain ⟨s2, h2⟩ := CloseTag_total st j
    rw [hj]
    simp only [h2]
    exact ⟨_, rfl⟩
  · exact ⟨_, rfl⟩

theorem toggleStep_total (st : State) (m : Str × Str) : ∃ st1, toggleStep st m = some st1 := by
  unfold toggleStep
  cases m.1 with
  | nil => exact ⟨_, rfl⟩
  | cons char rest =>
    obtain ⟨s2, h2⟩ := toggleTag_total st char
    simp only [h2]
    exact ⟨_, rfl⟩

theorem toggleLoop_total (ms : List (Str × Str)) (st : State) :
    ∃ st1, toggleLoop st ms = some st1 := by
  induction ms generalizing st with
  | nil => exact ⟨st, rfl⟩
  | cons m ms ih =>
    obtain ⟨s2, h2⟩ := toggleStep_total st m
    simp only [toggleLoop, h2]
    exact ih s2

/-! ## Functions that do not read the token list -/

theorem CloseTag_withCodes (st : State) (cs : List FormatCode) (i : Int) :
    CloseTag (st.withCodes cs) i = (CloseTag st i).map (fun s => s.withCodes cs) := by
  unfold CloseTag
  simp only [State.withCodes, Tag.ToString]
  split_ifs
  · cases getIdx st.tags i with
    | none => rfl
    | some t =>
      simp only []
      cases sliceTo st.tags i <;> cases sliceFrom st.tags (toInt8 (i + 1)) <;> rfl
  · rfl

theorem ResetLoop_withCodes (colors : Bool) (tags : List Tag) (k : Nat) (st : State)
    (cs : List FormatCode) :
    ResetLoop colors tags k (st.withCodes cs) =
      (ResetLoop colors tags k st).map (fun s => s.withCodes cs) := by
  induction k generalizing st with
  | zero => rfl
  | succ k ih =>
    simp only [ResetLoop]
    cases getIdx tags (k : Int) with
    | none => rfl
    | some tag =>
      simp only []
      split_ifs
      · exact ih st
      · exact ih (Tag.ToString st tag true)

theorem Reset_withCodes (st : State) (cs : List FormatCode) (colors : Bool) :
    Reset (st.withCodes cs) colors = (Reset st colors).map (fun s => s.withCodes cs) := by
  unfold Reset
  have h := ResetLoop_withCodes colors st.tags (lastIndex st.tags.length + 1).toNat st cs
  simp only [State.withCodes] at h ⊢
  rw [h]
  cases ResetLoop colors st.tags (lastIndex st.tags.length + 1).toNat st <;> rfl

theorem toggleTag_withCodes (st : State) (cs : List FormatCode) (char : Char) :
    toggleTag (st.withCodes cs) char = (toggleTag st char).map (fun s => s.withCodes cs) := by
  unfold toggleTag
  have h : ∀ i, CloseTag (st.withCodes cs) i = (CloseTag st i).map (fun s => s.withCodes cs) :=
    CloseTag_withCodes st cs
  simp only [State.withCodes] at h ⊢
  split_ifs
  · cases GetLastTagIndex st.tags char with
    | none => rfl
    | some i =>
      simp only [h i]
      cases CloseTag st i <;> rfl
  · rfl

theorem toggleStep_withCodes (st : State) (cs : List FormatCode) (m : Str × Str) :
    toggleStep (st.withCodes cs) m = (toggleStep st m).map (fun s => s.withCodes cs) := by
  unfold toggleStep
  cases m.1 with
  | nil => rfl
  | cons char rest =>
    simp only [toggleTag_withCodes]
    cases toggleTag st char <;> rfl

theorem toggleLoop_withCodes (ms : List (Str × Str)) (st : State) (cs : List FormatCode) :
    toggleLoop (st.withCodes cs) ms = (toggleLoop st ms).map (fun s => s.withCodes cs) := by
  induction ms generalizing st with
  | nil => rfl
  | cons m ms ih =>
    simp only [toggleLoop, toggleStep_withCodes]
    cases toggleStep st m with
    | none => rfl
    | some s1 => exact ih s1

theorem openTags_withCodes (st : State) (cs : List FormatCode) (c : FormatCode) :
    openTags (st.withCodes cs) c = (openTags st c).withCodes cs := by
  unfold openTags AddColorTag
  simp only [State.withCodes]
  split_ifs <;> rfl

theorem ShouldCloseAllColorTags_nil (st : State) (i : Int) (h : st.tags = []) :
    ShouldCloseAllColorTags st i = some st := by
  unfold ShouldCloseAllColorTags
  rw [h, List.length_nil, lastIndex_loop_count 0 (by omega)]
  rfl

/-- With an empty tag stack the directive part does not read the token list,
and it never reads the `id` of the token. -/
theorem directive_withCodes (st : State) (cs : List FormatCode) (i : Int) (c : FormatCode)
    (h : st.tags = []) :
    directive (st.withCodes cs) i c = (directive st i c).map (fun s => s.withCodes cs) := by
  unfold directive closeTags
  have h1 : (st.withCodes cs).tags = [] := h
  simp only [ShouldCloseAllColorTags_nil _ _ h1, ShouldCloseAllColorTags_nil _ _ h,
    Reset_withCodes, Option.map_map]
  have h2 : (st.withCodes cs).tags = st.tags := rfl
  rw [h2]
  split_ifs
  · cases Reset st true with
    | none => rfl
    | some s1 => simp [openTags_withCodes]
  · simp [openTags_withCodes]
  · simp [openTags_withCodes]
  · rfl
  · rfl

theorem ConvertFormatCode_withCodes (st : State) (cs : List FormatCode) (i : Int)
    (c : FormatCode) (h : st.tags = []) :
    ConvertFormatCode (st.withCodes cs) i c =
      (ConvertFormatCode st i c).map (fun s => s.withCodes cs) := by
  unfold ConvertFormatCode
  rw [directive_withCodes st cs i c h]
  cases directive st i c with
  | none => rfl
  | some s1 => exact toggleLoop_withCodes _ s1 cs

theorem ConvertFormatCode_id (st : State) (i : Int) (c : FormatCode) (n : Int) :
    ConvertFormatCode st i { c with id := n } = ConvertFormatCode st i c := by
  rfl

/-! ## The tokenizer on digit groups -/

theorem isDigit_not_marker (a : Char) (h : a.isDigit = true) : isReMarker a = false := by
  cases hm : isReMarker a with
  | false => rfl
  | true =>
    exfalso
    simp only [isReMarker, decide_eq_true_eq] at hm
    rcases hm with h1 | h1 <;> rw [h1] at h <;> revert h <;> decide

theorem isDigit_toNat (a : Char) (h : a.isDigit = true) : 48 ≤ a.toNat ∧ a.toNat ≤ 57 := by
  simp only [Char.isDigit, Bool.and_eq_true, decide_eq_true_eq] at h
  exact ⟨h.1, h.2⟩

theorem ParseInt8_two (a b : Char) (ha : a.isDigit = true) (hb : b.isDigit = true) :
    ∃ v : Int, ParseInt8 [a, b] = some v ∧ 0 ≤ v := by
  have h1 := isDigit_toNat a ha
  have h2 := isDigit_toNat b hb
  unfold ParseInt8
  split
  · rename_i d he
    simp only [List.cons.injEq] at he
    rw [he.1] at ha
    exact absurd ha (by decide)
  · rename_i d he
    simp only [List.cons.injEq] at he
    rw [he.1] at ha
    exact absurd ha (by decide)
  · refine ⟨((10 * (10 * 0 + (a.toNat - 48)) + (b.toNat - 48) : Nat) : Int), ?_, by omega⟩
    simp [ha, hb]
    omega

theorem takeDigits_two (a b : Char) (t : Str) (ha : a.isDigit = true) (hb : b.isDigit = true) :
    takeDigits (a :: b :: t) = ([a, b], t) := by
  simp [takeDigits, ha, hb]

theorem reMatchColor_pair (a1 a2 b1 b2 : Char) (t : Str) (h1 : a1.isDigit = true)
    (h2 : a2.isDigit = true) (h3 : b1.isDigit = true) (h4 : b2.isDigit = true) :
    reMatchColor (a1 :: a2 :: ',' :: b1 :: b2 :: t) = ⟨[], [CharColor], [a1, a2], [b1, b2], t⟩ := by
  unfold reMatchColor
  simp [takeDigits_two, h1, h2, h3, h4]

theorem takeDigits_none (t : Str) (h : ∀ d r, t = d :: r → d.isDigit = false) :
    takeDigits t = ([], t) := by
  match t, h with
  | [], _ => rfl
  | [a], h => simp [takeDigits, h a [] rfl]
  | a :: b :: r, h => simp [takeDigits, h a (b :: r) rfl]

theorem reMatchColor_single (c1 c2 : Char) (t : Str) (h1 : c1.isDigit = true)
    (h2 : c2.isDigit = true) (ht : ∀ d r, t = ',' :: d :: r → d.isDigit = false) :
    reMatchColor (c1 :: c2 :: t) = ⟨[], [CharColor], [c1, c2], [], t⟩ := by
  unfold reMatchColor
  rw [takeDigits_two c1 c2 t h1 h2]
  simp only [List.cons_ne_nil, if_false]
  split
  · rename_i r2
    rw [takeDigits_none r2 (fun d r hr => ht d r (by rw [hr]))]
    simp
  · rfl

theorem GetLastCodeIndex_nil (c : Char) : GetLastCodeIndex [] c = some (-1) := by
  unfold GetLastCodeIndex
  rw [List.length_nil, lastIndex_loop_count 0 (by omega)]
  rfl

theorem mergeColor_nil (code : FormatCode) : mergeColor [] code = some [code] := by
  unfold mergeColor
  rw [GetLastCodeIndex_nil]
  rfl

theorem toInt8_one : toInt8 1 = 1 := by decide

theorem mergeColor_single (prev code : FormatCode) (h1 : prev.char = CharColor)
    (h2 : prev.text = []) (h3 : prev.color.fg ≠ ColorNone) (h4 : code.color.bg = ColorNone)
    (h5 : code.color.fg ≠ ColorNone) :
    mergeColor [prev] code =
      some [{ code with color := { code.color with bg := prev.color.bg } }] := by
  have hg : GetLastCodeIndex [prev] CharColor = some 0 := by
    unfold GetLastCodeIndex
    rw [List.length_singleton, lastIndex_loop_count 1 (by omega)]
    simp [GetLastCodeIndexLoop, getIdx, h1]
  unfold mergeColor
  rw [hg]
  simp [getIdx, h2, h3, h4, h5, sliceTo, sliceFrom, toInt8_one, inheritBg]

theorem directive_total_nil (st : State) (i : Int) (c : FormatCode) (h : st.tags = []) :
    ∃ s1, directive st i c = some s1 := by
  unfold directive closeTags
  simp only [ShouldCloseAllColorTags_nil _ _ h]
  split_ifs
  · obtain ⟨s1, h1⟩ := Reset_total st true
    rw [h1]
    exact ⟨_, rfl⟩
  · exact ⟨_, rfl⟩
  · exact ⟨_, rfl⟩
  · exact Reset_total st false
  · exact ⟨_, rfl⟩

theorem ConvertFormatCode_total_nil (st : State) (i : Int) (c : FormatCode) (h : st.tags = []) :
    ∃ s1, ConvertFormatCode st i c = some s1 := by
  unfold ConvertFormatCode
  obtain ⟨s1, h1⟩ := directive_total_nil st i c h
  rw [h1]
  exact toggleLoop_total _ s1

/-! ## A line with one colour token -/

theorem convert_emit (s : Str) :
    convert s = (tokenLoop ⟨[], [], [], fun _ => false⟩ 0 (reFindAll s)).bind emit := by
  unfold convert ConvertLine emit
  simp only [State.init]
  cases tokenLoop ⟨[], [], [], fun _ => false⟩ 0 (reFindAll s) with
  | none => rfl
  | some st1 =>
    simp only [Option.some_bind]
    cases codeLoop { st1 with codes := dropTrailing st1.codes, opened := fun _ => false } 0
        (dropTrailing st1.codes) with
    | none => rfl
    | some st3 =>
      simp only [Option.some_bind]
      cases Reset st3 false <;> rfl

theorem emit_core (cs : List FormatCode) (c : FormatCode) (cv : List Chunk) (f : Char → Bool) :
    (codeLoop ⟨cs, [], cv, f⟩ 0 [c]).bind
        (fun st3 => (Reset st3 false).map (fun st4 => render st4.conv)) =
      (ConvertFormatCode ⟨[], [], cv, f⟩ (toInt8 0) { c with id := 0 }).bind
        (fun st3 => (Reset st3 false).map (fun st4 => render st4.conv)) := by
  have h1 : ConvertFormatCode ⟨cs, [], cv, f⟩ (toInt8 0) c =
      (ConvertFormatCode ⟨[], [], cv, f⟩ (toInt8 0) { c with id := 0 }).map
        (fun s => s.withCodes cs) :=
    ConvertFormatCode_withCodes ⟨[], [], cv, f⟩ cs (toInt8 0) c rfl
  simp only [codeLoop, Nat.cast_zero, h1]
  cases ConvertFormatCode ⟨[], [], cv, f⟩ (toInt8 0) { c with id := 0 } with
  | none => rfl
  | some s1 =>
    simp only [Option.map_some', Option.some_bind, Reset_withCodes]
    cases Reset s1 false <;> rfl

/-- What a line with the single token `c` returns does not depend on the
`id` of the token. -/
theorem emit_single_id (c : FormatCode) (n : Int) (cv : List Chunk) (f : Char → Bool) :
    emit ⟨[{ c with id := n }], [], cv, f⟩ = emit ⟨[c], [], cv, f⟩ := by
  unfold emit
  by_cases ht : c.text.length = 0
  · have e1 : dropTrailing [c] = [] := by simp [dropTrailing, ht]
    have e2 : dropTrailing [{ c with id := n }] = [] := by simp [dropTrailing, ht]
    simp only [e1, e2]
  · have e1 : dropTrailing [c] = [c] := by simp [dropTrailing, ht]
    have e2 : dropTrailing [{ c with id := n }] = [{ c with id := n }] := by
      simp [dropTrailing, ht]
    simp only [e1, e2]
    rw [emit_core, emit_core]

theorem emit_single_total (c : FormatCode) (cv : List Chunk) (f : Char → Bool) :
    ∃ out, emit ⟨[c], [], cv, f⟩ = some out := by
  unfold emit
  by_cases ht : c.text.length = 0
  · have e1 : dropTrailing [c] = [] := by simp [dropTrailing, ht]
    simp only [e1, codeLoop, Option.some_bind]
    obtain ⟨s4, h4⟩ := Reset_total ⟨[], [], cv, fun _ => false⟩ false
    rw [h4]
    exact ⟨_, rfl⟩
  · have e1 : dropTrailing [c] = [c] := by simp [dropTrailing, ht]
    simp only [e1]
    rw [emit_core]
    obtain ⟨s1, h1⟩ := ConvertFormatCode_total_nil ⟨[], [], cv, fun _ => false⟩ (toInt8 0)
      { c with id := 0 } rfl
    obtain ⟨s4, h4⟩ := Reset_total s1 false
    rw [h1, Option.some_bind, h4]
    exact ⟨_, rfl⟩

theorem tokenStep_color (st : State) (i : Nat) (g3 g4 g5 : Str) :
    tokenStep st i ⟨[], [CharColor], g3, g4, g5⟩ =
      colorStep st i g5 ((ParseInt8 g3).getD ColorNone) ((ParseInt8 g4).getD ColorNone) := by
  unfold tokenStep
  rw [if_pos (show ([CharColor] : Str).length > 0 ∧ ([CharColor] : Str).head? = some CharColor
    from ⟨by decide, rfl⟩)]

theorem ParseInt8_nil : ParseInt8 [] = none := by
  rfl

theorem reMatch_color (run : Str) : reMatch CharColor run = reMatchColor run := by
  unfold reMatch
  rw [if_neg (by decide)]

theorem cut_marker (p : Char → Bool) (c : Char) (cs : Str) (h : p c = true) :
    cut p (c :: cs) = ([], (c, (cut p cs).1) :: (cut p cs).2) := by
  simp [cut, h]

theorem cut_text (p : Char → Bool) (c : Char) (cs : Str) (h : p c = false) :
    cut p (c :: cs) = (c :: (cut p cs).1, (cut p cs).2) := by
  simp [cut, h]

theorem reFindAll_marker (c : Char) (cs : Str) (h : isReMarker c = true) :
    reFindAll (c :: cs) =
      reMatch c (cut isReMarker cs).1 ::
        (cut isReMarker cs).2.map (fun x => reMatch x.1 x.2) := by
  simp [reFindAll, cut_marker isReMarker c cs h, h]

/-- The matches of `re` on a colour directive with two groups of two digits
followed by a colour directive with one group of two digits and the text `t`. -/
theorem reFindAll_two_directives (a1 a2 b1 b2 c1 c2 : Char) (t : Str)
    (h1 : a1.isDigit = true) (h2 : a2.isDigit = true) (h3 : b1.isDigit = true)
    (h4 : b2.isDigit = true) (h5 : c1.isDigit = true) (h6 : c2.isDigit = true)
    (ht : ∀ x ∈ t, isReMarker x = false)
    (hc : ∀ d r, t = ',' :: d :: r → d.isDigit = false) :
    reFindAll (CharColor :: a1 :: a2 :: ',' :: b1 :: b2 :: CharColor :: c1 :: c2 :: t) =
      [⟨[], [CharColor], [a1, a2], [b1, b2], []⟩, ⟨[], [CharColor], [c1, c2], [], t⟩] := by
  have hm : isReMarker CharColor = true := by decide
  have hk : isReMarker ',' = false := by decide
  rw [reFindAll_marker _ _ hm]
  rw [cut_text _ _ _ (isDigit_not_marker a1 h1), cut_text _ _ _ (isDigit_not_marker a2 h2),
    cut_text _ _ _ hk, cut_text _ _ _ (isDigit_not_marker b1 h3),
    cut_text _ _ _ (isDigit_not_marker b2 h4), cut_marker _ _ _ hm,
    cut_text _ _ _ (isDigit_not_marker c1 h5), cut_text _ _ _ (isDigit_not_marker c2 h6),
    cut_no_marker isReMarker t ht]
  simp only [List.map_cons, List.map_nil, reMatch_color]
  rw [reMatchColor_pair a1 a2 b1 b2 [] h1 h2 h3 h4, reMatchColor_single c1 c2 t h5 h6 hc]

/-- The matches of `re` on one colour directive with two groups of two digits
and the text `t`. -/
theorem reFindAll_one_directive (c1 c2 b1 b2 : Char) (t : Str)
    (h3 : b1.isDigit = true) (h4 : b2.isDigit = true) (h5 : c1.isDigit = true)
    (h6 : c2.isDigit = true) (ht : ∀ x ∈ t, isReMarker x = false) :
    reFindAll (CharColor :: c1 :: c2 :: ',' :: b1 :: b2 :: t) =
      [⟨[], [CharColor], [c1, c2], [b1, b2], t⟩] := by
  have hm : isReMarker CharColor = true := by decide
  have hk : isReMarker ',' = false := by decide
  rw [reFindAll_marker _ _ hm]
  rw [cut_text _ _ _ (isDigit_not_marker c1 h5), cut_text _ _ _ (isDigit_not_marker c2 h6),
    cut_text _ _ _ hk, cut_text _ _ _ (isDigit_not_marker b1 h3),
    cut_text _ _ _ (isDigit_not_marker b2 h4), cut_no_marker isReMarker t ht]
  simp only [List.map_nil, reMatch_color]
  rw [reMatchColor_pair c1 c2 b1 b2 t h5 h6 h3 h4]

/-- The token list after the loop over the matches, for the two lines of the
merge: one token with the foreground `f2` and the background `b1`. -/
theorem tokenLoop_merge (a1 a2 b1 b2 c1 c2 : Char) (t : Str)
    (h1 : a1.isDigit = true) (h2 : a2.isDigit = true) (h3 : b1.isDigit = true)
    (h4 : b2.isDigit = true) (h5 : c1.isDigit = true) (h6 : c2.isDigit = true)
    (ht : ∀ x ∈ t, isReMarker x = false)
    (hc : ∀ d r, t = ',' :: d :: r → d.isDigit = false) :
    tokenLoop ⟨[], [], [], fun _ => false⟩ 0
        (reFindAll (CharColor :: a1 :: a2 :: ',' :: b1 :: b2 :: CharColor :: c1 :: c2 :: t)) =
      some ⟨[⟨toInt8 1, CharColor, t,
        ⟨(ParseInt8 [c1, c2]).getD ColorNone, (ParseInt8 [b1, b2]).getD ColorNone⟩⟩], [], [],
        fun _ => false⟩ ∧
    tokenLoop ⟨[], [], [], fun _ => false⟩ 0
        (reFindAll (CharColor :: c1 :: c2 :: ',' :: b1 :: b2 :: t)) =
      some ⟨[⟨toInt8 0, CharColor, t,
        ⟨(ParseInt8 [c1, c2]).getD ColorNone, (ParseInt8 [b1, b2]).getD ColorNone⟩⟩], [], [],
        fun _ => false⟩ := by
  obtain ⟨va, hva, hva0⟩ := ParseInt8_two a1 a2 h1 h2
  obtain ⟨vb, hvb, hvb0⟩ := ParseInt8_two b1 b2 h3 h4
  obtain ⟨vc, hvc, hvc0⟩ := ParseInt8_two c1 c2 h5 h6
  have hb1 : vb ≠ ColorNone := by unfold ColorNone; omega
  have ha1 : va ≠ ColorNone := by unfold ColorNone; omega
  have hc1 : vc ≠ ColorNone := by unfold ColorNone; omega
  constructor
  · rw [reFindAll_two_directives a1 a2 b1 b2 c1 c2 t h1 h2 h3 h4 h5 h6 ht hc]
    simp only [tokenLoop, tokenStep_color, hva, hvb, hvc, ParseInt8_nil, Option.getD_some,
      Option.getD_none]
    have s1 : colorStep ⟨[], [], [], fun _ => false⟩ 0 [] va vb =
        some ⟨[⟨toInt8 0, CharColor, [], ⟨va, vb⟩⟩], [], [], fun _ => false⟩ := by
      unfold colorStep
      rw [if_neg (fun h => hb1 h.2.1), mergeColor_nil]
      rfl
    rw [s1]
    simp only []
    have s2 : colorStep ⟨[⟨toInt8 0, CharColor, [], ⟨va, vb⟩⟩], [], [], fun _ => false⟩ (0 + 1) t
        vc ColorNone =
        some ⟨[⟨toInt8 1, CharColor, t, ⟨vc, vb⟩⟩], [], [], fun _ => false⟩ := by
      unfold colorStep
      rw [if_neg (fun h => absurd h.2.2 (by decide))]
      rw [mergeColor_single _ _ rfl rfl ha1 rfl hc1]
      rfl
    rw [s2]
  · rw [reFindAll_one_directive c1 c2 b1 b2 t h3 h4 h5 h6 ht]
    simp only [tokenLoop, tokenStep_color, hvb, hvc, Option.getD_some]
    have s1 : colorStep ⟨[], [], [], fun _ => false⟩ 0 t vc vb =
        some ⟨[⟨toInt8 0, CharColor, t, ⟨vc, vb⟩⟩], [], [], fun _ => false⟩ := by
      unfold colorStep
      rw [if_neg (fun h => hb1 h.2.1), mergeColor_nil]
      rfl
    rw [s1]

/-! ## The tag stack functions on a stack of at most 127 tags -/

theorem getIdx_append {α : Type} (pre post : List α) (t : α) :
    getIdx (pre ++ t :: post) (pre.length : Int) = some t := by
  unfold getIdx
  have h0 : ¬ ((pre.length : Int) < 0) := by omega
  rw [if_neg h0]
  simp only [Int.toNat_ofNat, List.get?_eq_getElem?]
  rw [List.getElem?_append_right (le_refl _)]
  simp

theorem toInt8_nat (n : Nat) (h : n ≤ 127) : toInt8 (n : Int) = (n : Int) :=
  toInt8_of_small _ (by omega) (by omega)

/-- `CloseTag` at the index of the tag `t`: writes its closing markup and
removes it. -/
theorem CloseTag_exact (st : State) (pre post : List Tag) (t : Tag)
    (h : st.tags = pre ++ t :: post) (hl : st.tags.length ≤ 127) :
    CloseTag st (pre.length : Int) =
      some ⟨st.codes, pre ++ post, st.conv ++ [Chunk.markup t true], st.opened⟩ := by
  have hlen : st.tags.length = pre.length + post.length + 1 := by
    rw [h]; simp; omega
  unfold CloseTag
  have hg : 0 ≤ (pre.length : Int) ∧ (pre.length : Int) < toInt8 st.tags.length := by
    rw [toInt8_nat _ hl]
    omega
  rw [if_pos hg, h, getIdx_append]
  have e1 : toInt8 ((pre.length : Int) + 1) = ((pre.length + 1 : Nat) : Int) := by
    rw [toInt8_of_small _ (by omega) (by omega)]
    omega
  have ha : sliceTo (pre ++ t :: post) (pre.length : Int) = some pre := by
    unfold sliceTo
    rw [if_pos ⟨by omega, by simp⟩]
    simp
  have hb : sliceFrom (pre ++ t :: post) (toInt8 ((pre.length : Int) + 1)) = some post := by
    unfold sliceFrom
    rw [e1, if_pos ⟨by omega, by simp⟩]
    have : (pre ++ t :: post) = (pre ++ [t]) ++ post := by simp
    rw [this]
    simp only [Int.toNat_ofNat]
    rw [List.drop_left' (by simp)]
  simp only [Tag.ToString, h, ha, hb]

theorem CloseTag_neg (st : State) : CloseTag st (-1) = some st := by
  unfold CloseTag
  rw [if_neg (by omega)]

theorem ResetLoop_exact (tags pre post : List Tag) (st : State) (h : tags = pre ++ post) :
    ResetLoop false tags pre.length st =
      some ⟨st.codes, st.tags, st.conv ++ pre.reverse.map (fun t => Chunk.markup t true),
        st.opened⟩ := by
  induction pre using List.reverseRecOn generalizing st post with
  | nil => simp [ResetLoop]
  | append_singleton pre t ih =>
    have hlen : (pre ++ [t]).length = pre.length + 1 := by simp
    rw [hlen]
    simp only [ResetLoop]
    have hg : getIdx tags (pre.length : Int) = some t := by
      rw [h, List.append_assoc]
      exact getIdx_append pre post t
    rw [hg]
    simp only [Bool.false_eq_true, and_false, if_false]
    rw [ih (t :: post) (Tag.ToString st t true) (by rw [h]; simp)]
    simp [Tag.ToString]

/-- `Reset(false)` on at most 127 tags: writes the closing markup of every
tag, the innermost first, and empties the stack. -/
theorem Reset_exact (st : State) (hl : st.tags.length ≤ 127) :
    Reset st false =
      some ⟨st.codes, [], st.conv ++ st.tags.reverse.map (fun t => Chunk.markup t true),
        st.opened⟩ := by
  unfold Reset
  rw [lastIndex_loop_count _ hl, ResetLoop_exact st.tags st.tags [] st (by simp)]

theorem GetLastTagIndexLoop_exact (tags : List Tag) (c : Char) (pre post : List Tag)
    (h : tags = pre ++ post) (hp : ∀ u ∈ post, u.char ≠ c) :
    (GetLastTagIndexLoop tags c pre.length = some (-1) ∧ ∀ u ∈ tags, u.char ≠ c) ∨
    ∃ p1 t p2, tags = p1 ++ t :: p2 ∧ t.char = c ∧ (∀ u ∈ p2, u.char ≠ c) ∧
      GetLastTagIndexLoop tags c pre.length = some (p1.length : Int) := by
  induction pre using List.reverseRecOn generalizing post with
  | nil =>
    left
    refine ⟨rfl, ?_⟩
    rw [h]
    simpa using hp
  | append_singleton pre t ih =>
    have hlen : (pre ++ [t]).length = pre.length + 1 := by simp
    rw [hlen]
    simp only [GetLastTagIndexLoop]
    have hg : getIdx tags (pre.length : Int) = some t := by
      rw [h, List.append_assoc]
      exact getIdx_append pre post t
    rw [hg]
    simp only []
    by_cases hc : t.char = c
    · right
      refine ⟨pre, t, post, by rw [h]; simp, hc, hp, ?_⟩
      rw [if_pos hc]
    · rw [if_neg hc]
      apply ih (t :: post) (by rw [h]; simp)
      intro u hu
      rcases List.mem_cons.mp hu with h1 | h1
      · rw [h1]; exact hc
      · exact hp u h1

/-- `GetLastTagIndex` on at most 127 tags: -1 when no tag has the kind `c`,
else the index of the innermost tag of that kind. -/
theorem GetLastTagIndex_exact (tags : List Tag) (c : Char) (hl : tags.length ≤ 127) :
    (GetLastTagIndex tags c = some (-1) ∧ ∀ u ∈ tags, u.char ≠ c) ∨
    ∃ p1 t p2, tags = p1 ++ t :: p2 ∧ t.char = c ∧ (∀ u ∈ p2, u.char ≠ c) ∧
      GetLastTagIndex tags c = some (p1.length : Int) := by
  unfold GetLastTagIndex
  rw [lastIndex_loop_count _ hl]
  exact GetLastTagIndexLoop_exact tags c tags [] (by simp) (by simp)

/-! ## The lookahead on at most 127 tokens -/

theorem ShouldCloseColorTagLoop_total (codes : List FormatCode) (t : Tag) (n : Nat) (i : Int)
    (h0 : 0 ≤ i) (h1 : i + n ≤ codes.length) :
    ∃ b, ShouldCloseColorTagLoop codes t n i = some b := by
  induction n generalizing i with
  | zero => exact ⟨true, rfl⟩
  | succ n ih =>
    have hi : i = ((i.toNat : Nat) : Int) := by omega
    have hlt : i.toNat < codes.length := by omega
    have hg : getIdx codes i = some (codes.get ⟨i.toNat, hlt⟩) := by
      conv_lhs => rw [hi]
      exact getIdx_lt _ _ hlt
    have hn := ih (i + 1) (by omega) (by omega)
    simp only [ShouldCloseColorTagLoop, hg]
    split_ifs
    · exact ⟨_, rfl⟩
    · exact ⟨_, rfl⟩
    · exact hn
    · exact hn
    · exact hn

theorem ShouldCloseColorTag_total (codes : List FormatCode) (t : Tag) (start : Int)
    (h0 : 0 ≤ start) (hl : codes.length ≤ 127) :
    ∃ b, ShouldCloseColorTag codes t start = some b := by
  unfold ShouldCloseColorTag
  rw [toInt8_nat _ hl]
  by_cases h : start ≤ codes.length
  · exact ShouldCloseColorTagLoop_total codes t _ start h0 (by omega)
  · have e : ((codes.length : Int) - start).toNat = 0 := by omega
    rw [e]
    exact ⟨true, rfl⟩

/-- The loop of `ShouldCloseAllColorTags` started at the top of a stack of at
most 127 tags: it closes colour tags from the top, writing their closing
markups, and leaves the rest. -/
theorem ShouldCloseAllColorTagsLoop_exact (start : Int) (k : Nat) (st : State)
    (hk : st.tags.length = k) (hl : k ≤ 127) (h0 : 0 ≤ start) (hc : st.codes.length ≤ 127) :
    ∃ pre post, st.tags = pre ++ post ∧ (∀ t ∈ post, t.char = CharColor) ∧
      ShouldCloseAllColorTagsLoop start k st =
        some ⟨st.codes, pre, st.conv ++ post.reverse.map (fun t => Chunk.markup t true),
          st.opened⟩ := by
  induction k generalizing st with
  | zero =>
    have hnil : st.tags = [] := List.length_eq_zero.mp hk
    obtain ⟨cds, tgs, cv, op⟩ := st
    simp only [] at hnil
    subst hnil
    exact ⟨[], [], rfl, by simp, by simp [ShouldCloseAllColorTagsLoop]⟩
  | succ k ih =>
    rcases List.eq_nil_or_concat st.tags with hnil | ⟨init, top, hcat⟩
    · rw [hnil] at hk
      simp at hk
    · have hil : init.length = k := by
        rw [hcat] at hk
        simpa using hk
      have hcat' : st.tags = init ++ top :: [] := by rw [hcat, List.concat_eq_append]
      have hg : getIdx st.tags (k : Int) = some top := by
        rw [hcat', ← hil]
        exact getIdx_append init [] top
      simp only [ShouldCloseAllColorTagsLoop, hg]
      have keep : ∃ pre post, st.tags = pre ++ post ∧ (∀ t ∈ post, t.char = CharColor) ∧
          some st = some (⟨st.codes, pre,
            st.conv ++ post.reverse.map (fun t => Chunk.markup t true), st.opened⟩ : State) :=
        ⟨st.tags, [], by simp, by simp, by simp⟩
      split_ifs with hcol
      · obtain ⟨b, hb⟩ := ShouldCloseColorTag_total st.codes top start h0 hc
        rw [hb]
        cases b with
        | false => exact keep
        | true =>
          simp only []
          have hclose := CloseTag_exact st init [] top hcat' (by omega)
          rw [hil] at hclose
          rw [hclose]
          simp only [List.append_nil]
          obtain ⟨pre, post, h1, h2, h3⟩ :=
            ih ⟨st.codes, init, st.conv ++ [Chunk.markup top true], st.opened⟩ hil (by omega) hc
          refine ⟨pre, post ++ [top], ?_, ?_, ?_⟩
          · rw [hcat']
            simp only [] at h1
            rw [h1]
            simp
          · intro t ht
            rcases List.mem_append.mp ht with h' | h'
            · exact h2 t h'
            · simp only [List.mem_singleton] at h'
              rw [h']; exact hcol
          · rw [h3]
            simp
      · exact keep

theorem ShouldCloseAllColorTags_exact (st : State) (start : Int)
    (hl : st.tags.length ≤ 127) (h0 : 0 ≤ start) (hc : st.codes.length ≤ 127) :
    ∃ pre post, st.tags = pre ++ post ∧ (∀ t ∈ post, t.char = CharColor) ∧
      ShouldCloseAllColorTags st start =
        some ⟨st.codes, pre, st.conv ++ post.reverse.map (fun t => Chunk.markup t true),
          st.opened⟩ := by
  unfold ShouldCloseAllColorTags
  rw [lastIndex_loop_count _ hl]
  exact ShouldCloseAllColorTagsLoop_exact start _ st rfl hl h0 hc

/-! ## Running the chunks of the builder -/

theorem runChunks_append (step : List Tag → Chunk → Option (List Tag)) (a b : List Chunk)
    (s : List Tag) :
    runChunks step s (a ++ b) = (runChunks step s a).bind (fun s1 => runChunks step s1 b) := by
  induction a generalizing s with
  | nil => rfl
  | cons ch chs ih =>
    simp only [List.cons_append, runChunks]
    cases step s ch with
    | none => rfl
    | some s1 => exact ih s1

theorem closeKind_head (t : Tag) (rest : List Tag) :
    closeKind t.char (t :: rest) = some (t, rest) := by
  simp [closeKind]

theorem kindStep_top (t : Tag) (rest : List Tag) :
    kindStep (t :: rest) (Chunk.markup t true) = some rest := by
  simp only [kindStep]
  split_ifs
  · simp [nestStep]
  · rw [closeKind_head]
    simp

/-- Closing all of `post`, the innermost first, leaves the regions below. -/
theorem kindRun_close_all (post rest : List Tag) :
    runChunks kindStep (post ++ rest) (post.map (fun t => Chunk.markup t true)) = some rest := by
  induction post with
  | nil => rfl
  | cons t post ih =>
    simp only [List.cons_append, List.map_cons, runChunks, kindStep_top]
    exact ih

theorem closeKind_skip (c : Char) (a : List Tag) (t : Tag) (b : List Tag)
    (ha : ∀ u ∈ a, u.char ≠ c) (ht : t.char = c) :
    closeKind c (a ++ t :: b) = some (t, a ++ b) := by
  induction a with
  | nil => simp [closeKind, ht]
  | cons u a ih =>
    have hu : u.char ≠ c := ha u (List.mem_cons_self _ _)
    have ih1 := ih (fun v hv => ha v (List.mem_cons_of_mem _ hv))
    simp [closeKind, hu, ih1]

/-- Closing the innermost region of a style kind. -/
theorem kindStep_style (a : List Tag) (t : Tag) (b : List Tag)
    (ha : ∀ u ∈ a, u.char ≠ t.char) (ht : t.char ≠ CharColor) :
    kindStep (a ++ t :: b) (Chunk.markup t true) = some (a ++ b) := by
  simp only [kindStep]
  rw [if_neg ht, closeKind_skip t.char a t b ha rfl]
  simp

/-! ## The invariant of the loop over the tokens -/

theorem kindCount_append (c : Char) (a b : List Tag) :
    kindCount c (a ++ b) = kindCount c a + kindCount c b := by
  simp [kindCount, List.countP_append]

theorem kindCount_cons (c : Char) (t : Tag) (a : List Tag) :
    kindCount c (t :: a) = kindCount c a + (if t.char = c then 1 else 0) := by
  simp [kindCount, List.countP_cons]

theorem kindCount_nil (c : Char) : kindCount c [] = 0 := rfl

theorem kindCount_zero (c : Char) (a : List Tag) (h : ∀ u ∈ a, u.char ≠ c) :
    kindCount c a = 0 := by
  induction a with
  | nil => rfl
  | cons t a ih =>
    rw [kindCount_cons, ih (fun u hu => h u (List.mem_cons_of_mem _ hu)),
      if_neg (h t (List.mem_cons_self _ _))]

theorem isRe2Marker_iff (c : Char) :
    isRe2Marker c = true ↔ c = CharBold ∨ c = CharItalic ∨ c = CharUnderline := by
  simp [isRe2Marker]

theorem marker_ne_color (c : Char) (h : isRe2Marker c = true) : c ≠ CharColor := by
  intro hc
  rw [hc] at h
  revert h
  decide

theorem length_eq_kinds (tags : List Tag)
    (h : ∀ t ∈ tags, t.char = CharColor ∨ isRe2Marker t.char = true) :
    tags.length = kindCount CharColor tags + kindCount CharBold tags +
      kindCount CharItalic tags + kindCount CharUnderline tags := by
  induction tags with
  | nil => rfl
  | cons t a ih =>
    have ih1 := ih (fun u hu => h u (List.mem_cons_of_mem _ hu))
    have ht := h t (List.mem_cons_self _ _)
    rw [isRe2Marker_iff] at ht
    simp only [kindCount_cons, List.length_cons, ih1]
    have d1 : CharBold ≠ CharColor := by decide
    have d2 : CharItalic ≠ CharColor := by decide
    have d3 : CharUnderline ≠ CharColor := by decide
    have d4 : CharColor ≠ CharBold := by decide
    have d5 : CharItalic ≠ CharBold := by decide
    have d6 : CharUnderline ≠ CharBold := by decide
    have d7 : CharColor ≠ CharItalic := by decide
    have d8 : CharBold ≠ CharItalic := by decide
    have d9 : CharUnderline ≠ CharItalic := by decide
    have d10 : CharColor ≠ CharUnderline := by decide
    have d11 : CharBold ≠ CharUnderline := by decide
    have d12 : CharItalic ≠ CharUnderline := by decide
    rcases ht with e | e | e | e <;> rw [e] <;> simp [d1, d2, d3, d4, d5, d6, d7, d8, d9, d10, d11, d12] <;> omega

theorem flag_le_one (st : State) (c : Char)
    (h : kindCount c st.tags ≤ (if st.opened c then 1 else 0)) : kindCount c st.tags ≤ 1 := by
  split_ifs at h <;> omega

/-- Under the invariant the stack holds at most `i + 3` tags. -/
theorem LineInv.length_le {i : Nat} {st : State} (h : LineInv i st) :
    st.tags.length ≤ i + 3 := by
  have h1 := length_eq_kinds st.tags h.kinds
  have hb := flag_le_one st CharBold (h.flags CharBold (by decide))
  have hi := flag_le_one st CharItalic (h.flags CharItalic (by decide))
  have hu := flag_le_one st CharUnderline (h.flags CharUnderline (by decide))
  have hc := h.colors
  omega

theorem LineInv.mono {i j : Nat} {st : State} (h : LineInv i st) (hij : i ≤ j) :
    LineInv j st :=
  ⟨h.run, h.kinds, h.flags, le_trans h.colors hij⟩

theorem runChunks_snoc (step : List Tag → Chunk → Option (List Tag)) (a : List Chunk)
    (ch : Chunk) (s s1 : List Tag) (h : runChunks step s a = some s1) :
    runChunks step s (a ++ [ch]) = step s1 ch := by
  rw [runChunks_append, h, Option.some_bind]
  simp only [runChunks]
  cases step s1 ch <;> rfl

theorem LineInv.write {i : Nat} {st : State} (h : LineInv i st) (x : Str) :
    LineInv i (st.write x) := by
  refine ⟨?_, h.kinds, h.flags, h.colors⟩
  simp only [State.write]
  rw [runChunks_snoc _ _ _ _ _ h.run]
  rfl

theorem LineInv.addTag {i : Nat} {st : State} (h : LineInv i st) (t : Tag) (o : Char → Bool)
    (hk : t.char = CharColor ∨ isRe2Marker t.char = true)
    (hf : ∀ c, isRe2Marker c = true →
      kindCount c (st.tags ++ [t]) ≤ (if o c then 1 else 0))
    (hc : kindCount CharColor (st.tags ++ [t]) ≤ i) :
    LineInv i ⟨st.codes, st.tags ++ [t], st.conv ++ [Chunk.markup t false], o⟩ := by
  refine ⟨?_, ?_, hf, hc⟩
  · simp only []
    rw [runChunks_snoc _ _ _ _ _ h.run]
    simp [kindStep]
  · intro u hu
    rcases List.mem_append.mp hu with h1 | h1
    · exact h.kinds u h1
    · simp only [List.mem_singleton] at h1
      rw [h1]; exact hk

/-- The style toggler at a marker keeps the invariant and does not panic, on a
stack that cannot reach 128 tags. -/
theorem toggleTag_inv {i : Nat} {st : State} (h : LineInv i st) (c : Char)
    (hc : isRe2Marker c = true) (hi : i + 3 ≤ 127) :
    ∃ st1, toggleTag st c = some st1 ∧ LineInv i st1 ∧ st1.codes = st.codes := by
  have hlen : st.tags.length ≤ 127 := le_trans h.length_le hi
  have hcol : c ≠ CharColor := marker_ne_color c hc
  unfold toggleTag
  by_cases ho : st.opened c = true
  · rw [if_pos ho]
    have hfc := h.flags c hc
    rw [if_pos ho] at hfc
    rcases GetLastTagIndex_exact st.tags c hlen with ⟨hg, hno⟩ | ⟨p1, t, p2, htags, htc, hp2, hg⟩
    · rw [hg]
      simp only [CloseTag_neg, Option.map_some']
      refine ⟨_, rfl, ⟨h.run, h.kinds, ?_, h.colors⟩, rfl⟩
      intro d hd
      simp only [State.flip]
      by_cases hdc : d = c
      · rw [hdc, kindCount_zero c st.tags hno]
        exact Nat.zero_le _
      · simp only [if_neg hdc]
        exact h.flags d hd
    · rw [hg]
      simp only [CloseTag_exact st p1 p2 t htags hlen, Option.map_some']
      refine ⟨_, rfl, ⟨?_, ?_, ?_, ?_⟩, rfl⟩
      · simp only [State.flip]
        rw [runChunks_snoc _ _ _ _ _ h.run, htags]
        have e : (p1 ++ t :: p2).reverse = p2.reverse ++ t :: p1.reverse := by simp
        rw [e, kindStep_style p2.reverse t p1.reverse
          (fun u hu => by rw [htc]; exact hp2 u (List.mem_reverse.mp hu)) (by rw [htc]; exact hcol)]
        simp
      · intro u hu
        apply h.kinds u
        rw [htags]
        simp only [State.flip] at hu
        rcases List.mem_append.mp hu with h1 | h1
        · exact List.mem_append_left _ h1
        · exact List.mem_append_right _ (List.mem_cons_of_mem _ h1)
      · intro d hd
        simp only [State.flip]
        rw [htags, kindCount_append, kindCount_cons, if_pos htc] at hfc
        by_cases hdc : d = c
        · rw [hdc, kindCount_append]
          omega
        · simp only [if_neg hdc]
          have hfd := h.flags d hd
          rw [htags, kindCount_append, kindCount_cons,
            if_neg (fun e => hdc (by rw [← e, htc]))] at hfd
          rw [kindCount_append]
          exact hfd
      · have hcc := h.colors
        rw [htags, kindCount_append, kindCount_cons,
          if_neg (fun e => hcol (by rw [← htc, e]))] at hcc
        simp only [State.flip]
        rw [kindCount_append]
        exact hcc
  · rw [if_neg ho]
    have hf : st.opened c = false := by
      cases hb : st.opened c with
      | false => rfl
      | true => exact absurd hb ho
    have hfc := h.flags c hc
    rw [hf] at hfc
    simp only [Bool.false_eq_true, if_false] at hfc
    refine ⟨_, rfl, ?_, rfl⟩
    simp only [AddFormatTag, AddTag, Tag.ToString, State.flip]
    apply LineInv.addTag h ⟨c, ⟨0, 0⟩⟩ _ (Or.inr hc)
    · intro d hd
      rw [kindCount_append, kindCount_cons, kindCount_nil]
      by_cases hdc : d = c
      · rw [hdc]
        simp only [if_true, hf, Bool.not_false]
        omega
      · simp only [if_neg hdc, if_neg (fun e : c = d => hdc e.symm)]
        exact h.flags d hd
    · rw [kindCount_append, kindCount_cons, kindCount_nil, if_neg hcol]
      exact h.colors

theorem cut_markers (p : Char → Bool) (s : Str) : ∀ x ∈ (cut p s).2, p x.1 = true := by
  induction s with
  | nil => simp [cut]
  | cons c cs ih =>
    simp only [cut]
    by_cases hc : p c = true
    · rw [if_pos hc]
      intro x hx
      rcases List.mem_cons.mp hx with h1 | h1
      · rw [h1]; exact hc
      · exact ih x h1
    · rw [if_neg hc]
      exact ih

theorem re2FindAll_markers (s : Str) :
    ∀ m ∈ re2FindAll s, m.1 = [] ∨ ∃ c, m.1 = [c] ∧ isRe2Marker c = true := by
  have hrest : ∀ m ∈ (cut isRe2Marker s).2.map (fun x => (([x.1] : Str), x.2)),
      m.1 = [] ∨ ∃ c, m.1 = [c] ∧ isRe2Marker c = true := by
    intro m hm
    obtain ⟨x, hx, he⟩ := List.mem_map.mp hm
    right
    exact ⟨x.1, by rw [← he], cut_markers _ _ x hx⟩
  unfold re2FindAll
  cases s with
  | nil =>
    intro m hm
    simp only [List.mem_singleton] at hm
    left; rw [hm]
  | cons c cs =>
    simp only []
    split_ifs
    · exact hrest
    · intro m hm
      rcases List.mem_cons.mp hm with h1 | h1
      · left; rw [h1]
      · exact hrest m h1

theorem toggleStep_inv {i : Nat} {st : State} (h : LineInv i st) (m : Str × Str)
    (hm : m.1 = [] ∨ ∃ c, m.1 = [c] ∧ isRe2Marker c = true) (hi : i + 3 ≤ 127) :
    ∃ st1, toggleStep st m = some st1 ∧ LineInv i st1 ∧ st1.codes = st.codes := by
  unfold toggleStep
  rcases hm with h1 | ⟨c, h1, hc⟩
  · rw [h1]
    exact ⟨_, rfl, h.write _, rfl⟩
  · rw [h1]
    obtain ⟨s1, hs1, hinv, hcodes⟩ := toggleTag_inv h c hc hi
    simp only [hs1, Option.map_some']
    exact ⟨_, rfl, hinv.write _, hcodes⟩

theorem toggleLoop_inv {i : Nat} (ms : List (Str × Str)) {st : State} (h : LineInv i st)
    (hm : ∀ m ∈ ms, m.1 = [] ∨ ∃ c, m.1 = [c] ∧ isRe2Marker c = true) (hi : i + 3 ≤ 127) :
    ∃ st1, toggleLoop st ms = some st1 ∧ LineInv i st1 ∧ st1.codes = st.codes := by
  induction ms generalizing st with
  | nil => exact ⟨st, rfl, h, rfl⟩
  | cons m ms ih =>
    obtain ⟨s1, hs1, hinv, hcodes⟩ := toggleStep_inv h m (hm m (List.mem_cons_self _ _)) hi
    obtain ⟨s2, hs2, hinv2, hcodes2⟩ := ih hinv (fun x hx => hm x (List.mem_cons_of_mem _ hx))
    simp only [toggleLoop, hs1]
    exact ⟨s2, hs2, hinv2, hcodes2.trans hcodes⟩

theorem Reset_inv {i : Nat} {st : State} (h : LineInv i st) (hi : i + 3 ≤ 127) :
    ∃ st1, Reset st false = some st1 ∧ LineInv i st1 ∧ st1.codes = st.codes := by
  have hlen : st.tags.length ≤ 127 := le_trans h.length_le hi
  rw [Reset_exact st hlen]
  refine ⟨_, rfl, ⟨?_, ?_, ?_, ?_⟩, rfl⟩
  · simp only []
    rw [runChunks_append, h.run, Option.some_bind]
    have := kindRun_close_all st.tags.reverse []
    simpa using this
  · intro t ht
    cases ht
  · intro c _
    simp [kindCount_nil]
  · simp [kindCount_nil]

theorem GetState_ne_cancel (cc other : ColorCode) (h : visible cc.fg) :
    cc.GetState other ≠ StateCancel := by
  unfold visible at h
  unfold ColorCode.GetState
  simp only []
  rw [if_neg (by tauto)]
  split_ifs <;> simp

theorem closeTags_inv {i : Nat} {st : State} (h : LineInv i st) (start : Int) (c : FormatCode)
    (hi : i + 3 ≤ 127) (h0 : 0 ≤ start) (hc : st.codes.length ≤ 127) (hv : visible c.color.fg) :
    ∃ st1, closeTags st start c = some st1 ∧ LineInv i st1 ∧ st1.codes = st.codes := by
  have hlen : st.tags.length ≤ 127 := le_trans h.length_le hi
  unfold closeTags
  simp only []
  rw [if_neg (GetState_ne_cancel _ _ hv)]
  split_ifs
  · obtain ⟨pre, post, htags, hpost, hex⟩ := ShouldCloseAllColorTags_exact st start hlen h0 hc
    rw [hex]
    refine ⟨_, rfl, ⟨?_, ?_, ?_, ?_⟩, rfl⟩
    · simp only []
      rw [runChunks_append, h.run, Option.some_bind, htags]
      have := kindRun_close_all post.reverse pre.reverse
      simpa using this
    · intro t ht
      exact h.kinds t (by rw [htags]; exact List.mem_append_left _ ht)
    · intro d hd
      have := h.flags d hd
      rw [htags, kindCount_append] at this
      simp only []
      omega
    · have := h.colors
      rw [htags, kindCount_append] at this
      simp only []
      omega
  · exact ⟨st, rfl, h, rfl⟩

theorem AddColorTag_inv {i : Nat} {st : State} (h : LineInv i st) (fg bg : Int) :
    LineInv (i + 1) (AddColorTag st fg bg) ∧ (AddColorTag st fg bg).codes = st.codes := by
  unfold AddColorTag
  split_ifs
  · refine ⟨?_, rfl⟩
    simp only [AddTag, Tag.ToString]
    apply LineInv.addTag (h.mono (Nat.le_succ i)) ⟨CharColor, ⟨fg, bg⟩⟩ _ (Or.inl rfl)
    · intro d hd
      rw [kindCount_append, kindCount_cons, kindCount_nil,
        if_neg (fun e : CharColor = d => marker_ne_color d hd e.symm)]
      exact h.flags d hd
    · rw [kindCount_append, kindCount_cons, kindCount_nil, if_pos rfl]
      have := h.colors
      omega
  · exact ⟨h.mono (Nat.le_succ i), rfl⟩

theorem openTags_inv {i : Nat} {st : State} (h : LineInv i st) (c : FormatCode) :
    LineInv (i + 1) (openTags st c) ∧ (openTags st c).codes = st.codes := by
  unfold openTags
  simp only []
  split_ifs <;> first | exact AddColorTag_inv h _ _ | exact ⟨h.mono (Nat.le_succ i), rfl⟩

theorem directive_inv {i : Nat} {st : State} (h : LineInv i st) (start : Int) (c : FormatCode)
    (hi : i + 3 ≤ 127) (h0 : 0 ≤ start) (hc : st.codes.length ≤ 127)
    (hv : c.char = CharColor → visible c.color.fg) :
    ∃ st1, directive st start c = some st1 ∧ LineInv (i + 1) st1 ∧ st1.codes = st.codes := by
  unfold directive
  split_ifs with hcol hres
  · obtain ⟨sa, hsa, hinv, hcodes⟩ := closeTags_inv h start c hi h0 hc (hv hcol)
    rw [hsa]
    obtain ⟨h1, h2⟩ := openTags_inv hinv c
    exact ⟨_, rfl, h1, h2.trans hcodes⟩
  · obtain ⟨s1, hs1, hinv, hcodes⟩ := Reset_inv h hi
    exact ⟨s1, hs1, hinv.mono (Nat.le_succ i), hcodes⟩
  · exact ⟨st, rfl, h.mono (Nat.le_succ i), rfl⟩

/-- `ConvertFormatCode` on the token of index `i` keeps the invariant and does
not panic, when at most 127 tokens are in `codes` and `i < 124`. -/
theorem ConvertFormatCode_inv {i : Nat} {st : State} (h : LineInv i st) (c : FormatCode)
    (hi : i + 4 ≤ 127) (hc : st.codes.length ≤ 127)
    (hv : c.char = CharColor → visible c.color.fg) :
    ∃ st1, ConvertFormatCode st (toInt8 i) c = some st1 ∧ LineInv (i + 1) st1 ∧
      st1.codes = st.codes := by
  unfold ConvertFormatCode
  rw [toInt8_nat i (by omega)]
  obtain ⟨sb, hsb, hinv, hcodes⟩ := directive_inv h (i : Int) c (by omega) (by omega) hc hv
  rw [hsb, Option.some_bind]
  obtain ⟨s1, hs1, hinv1, hcodes1⟩ :=
    toggleLoop_inv (re2FindAll c.text) hinv (re2FindAll_markers c.text) (by omega)
  exact ⟨s1, hs1, hinv1, hcodes1.trans hcodes⟩

theorem codeLoop_inv (cs : List FormatCode) {i : Nat} {st : State} (h : LineInv i st)
    (hi : i + cs.length + 3 ≤ 127) (hc : st.codes.length ≤ 127)
    (hv : ∀ c ∈ cs, c.char = CharColor → visible c.color.fg) :
    ∃ st1, codeLoop st i cs = some st1 ∧ LineInv (i + cs.length) st1 := by
  induction cs generalizing i st with
  | nil => exact ⟨st, rfl, h⟩
  | cons c cs ih =>
    simp only [List.length_cons] at hi
    obtain ⟨s1, hs1, hinv, hcodes⟩ :=
      ConvertFormatCode_inv h c (by omega) hc (hv c (List.mem_cons_self _ _))
    obtain ⟨s2, hs2, hinv2⟩ := ih hinv (by omega) (by rw [hcodes]; exact hc)
      (fun x hx => hv x (List.mem_cons_of_mem _ hx))
    simp only [codeLoop, hs1]
    refine ⟨s2, hs2, ?_⟩
    have e : i + (c :: cs).length = i + 1 + cs.length := by simp; omega
    rw [e]
    exact hinv2

/-! ## The loop over the matches on a short line -/

theorem GetLastCodeIndexLoop_bound (codes : List FormatCode) (c : Char) (k : Nat)
    (hk : k ≤ codes.length) :
    ∃ j : Int, GetLastCodeIndexLoop codes c k = some j ∧ -1 ≤ j ∧ j < k := by
  induction k with
  | zero => exact ⟨-1, rfl, by omega, by omega⟩
  | succ k ih =>
    simp only [GetLastCodeIndexLoop]
    rw [getIdx_lt codes k (by omega)]
    simp only []
    split_ifs
    · exact ⟨k, rfl, by omega, by omega⟩
    · obtain ⟨j, hj, h1, h2⟩ := ih (by omega)
      exact ⟨j, hj, h1, by omega⟩

/-- The merge does not panic on at most 126 tokens; it adds at most one token,
and a token of the result is an old one or has the kind and the foreground of
the new one. -/
theorem mergeColor_total (codes : List FormatCode) (code : FormatCode)
    (hl : codes.length ≤ 126) :
    ∃ cs, mergeColor codes code = some cs ∧ cs.length ≤ codes.length + 1 ∧
      ∀ c ∈ cs, c ∈ codes ∨ (c.char = code.char ∧ c.color.fg = code.color.fg) := by
  have keep : ∃ cs, some (codes ++ [code]) = some cs ∧ cs.length ≤ codes.length + 1 ∧
      ∀ c ∈ cs, c ∈ codes ∨ (c.char = code.char ∧ c.color.fg = code.color.fg) := by
    refine ⟨_, rfl, by simp, ?_⟩
    intro c hc
    rcases List.mem_append.mp hc with h1 | h1
    · exact Or.inl h1
    · simp only [List.mem_singleton] at h1
      rw [h1]; exact Or.inr ⟨rfl, rfl⟩
  unfold mergeColor GetLastCodeIndex
  rw [lastIndex_loop_count _ (by omega)]
  obtain ⟨j, hj, hj1, hj2⟩ := GetLastCodeIndexLoop_bound codes CharColor codes.length
    (le_refl _)
  rw [hj]
  simp only []
  by_cases hp : j ≥ 0
  · rw [if_pos hp]
    have hjn : j = ((j.toNat : Nat) : Int) := by omega
    have hlt : j.toNat < codes.length := by omega
    have hg : getIdx codes j = some (codes.get ⟨j.toNat, hlt⟩) := by
      conv_lhs => rw [hjn]
      exact getIdx_lt _ _ hlt
    rw [hg]
    simp only []
    by_cases h1 : (codes.get ⟨j.toNat, hlt⟩).text.length = 0
    · rw [if_pos h1]
      by_cases h2 : (codes.get ⟨j.toNat, hlt⟩).color.fg ≠ ColorNone
      · rw [if_pos h2]
        have ha : sliceTo codes j = some (codes.take j.toNat) := by
          unfold sliceTo
          rw [if_pos ⟨by omega, by omega⟩]
        have e1 : toInt8 (j + 1) = j + 1 := toInt8_of_small _ (by omega) (by omega)
        have hb : sliceFrom codes (toInt8 (j + 1)) = some (codes.drop (j + 1).toNat) := by
          unfold sliceFrom
          rw [e1, if_pos ⟨by omega, by omega⟩]
        rw [ha, hb]
        refine ⟨_, rfl, ?_, ?_⟩
        · simp only [List.length_append, List.length_take, List.length_drop,
            List.length_singleton]
          omega
        · intro c hc
          rcases List.mem_append.mp hc with h5 | h5
          · rcases List.mem_append.mp h5 with h6 | h6
            · exact Or.inl (List.mem_of_mem_take h6)
            · exact Or.inl (List.mem_of_mem_drop h6)
          · simp only [List.mem_singleton] at h5
            rw [h5]
            right
            unfold inheritBg
            split_ifs <;> exact ⟨rfl, rfl⟩
      · rw [if_neg h2]
        exact keep
    · rw [if_neg h1]
      exact keep
  · rw [if_neg hp]
    exact keep

theorem tokenStep_total (st : State) (i : Nat) (m : Match) (hl : st.codes.length ≤ 126)
    (hm : m.g2 ≠ [] → visible ((ParseInt8 m.g3).getD ColorNone))
    (hc : ∀ c ∈ st.codes, c.char = CharColor → visible c.color.fg) :
    ∃ st1, tokenStep st i m = some st1 ∧ st1.codes.length ≤ st.codes.length + 1 ∧
      ∀ c ∈ st1.codes, c.char = CharColor → visible c.color.fg := by
  unfold tokenStep
  by_cases h1 : m.g2.length > 0 ∧ m.g2.head? = some CharColor
  · rw [if_pos h1]
    have hg2 : m.g2 ≠ [] := by
      intro e
      rw [e] at h1
      simp at h1
    unfold colorStep
    split_ifs
    · exact ⟨_, rfl, by simp [State.write], hc⟩
    · obtain ⟨cs, hcs, hlen, hmem⟩ := mergeColor_total st.codes
        ⟨toInt8 i, CharColor, m.g5,
          ⟨(ParseInt8 m.g3).getD ColorNone, (ParseInt8 m.g4).getD ColorNone⟩⟩ hl
      rw [hcs]
      refine ⟨_, rfl, hlen, ?_⟩
      intro c hcm hcc
      rcases hmem c hcm with h5 | ⟨_, h6⟩
      · exact hc c h5 hcc
      · rw [h6]
        exact hm hg2
  · rw [if_neg h1]
    split_ifs
    · refine ⟨_, rfl, by simp, ?_⟩
      intro c hcm hcc
      simp only [List.mem_append, List.mem_singleton] at hcm
      rcases hcm with h5 | h5
      · exact hc c h5 hcc
      · rw [h5] at hcc
        have hne : CharReset ≠ CharColor := by decide
        exact absurd hcc hne
    · exact ⟨_, rfl, by simp [State.write], hc⟩

/-- The loop over the matches of a short line does not panic; it makes at most
one token for a match, and the colour tokens have a visible foreground when
the colour matches have one. -/
theorem tokenLoop_total (ms : List Match) (st : State) (i : Nat)
    (hl : st.codes.length + ms.length ≤ 127)
    (hm : ∀ m ∈ ms, m.g2 ≠ [] → visible ((ParseInt8 m.g3).getD ColorNone))
    (hc : ∀ c ∈ st.codes, c.char = CharColor → visible c.color.fg) :
    ∃ st1, tokenLoop st i ms = some st1 ∧ st1.codes.length ≤ st.codes.length + ms.length ∧
      ∀ c ∈ st1.codes, c.char = CharColor → visible c.color.fg := by
  induction ms generalizing st i with
  | nil => exact ⟨st, rfl, by simp, hc⟩
  | cons m ms ih =>
    simp only [List.length_cons] at hl
    obtain ⟨s1, hs1, hlen1, hc1⟩ :=
      tokenStep_total st i m (by omega) (hm m (List.mem_cons_self _ _)) hc
    obtain ⟨s2, hs2, hlen2, hc2⟩ := ih s1 (i + 1) (by omega)
      (fun x hx => hm x (List.mem_cons_of_mem _ hx)) hc1
    simp only [tokenLoop, hs1]
    exact ⟨s2, hs2, by simp only [List.length_cons]; omega, hc2⟩

/-- The loop over the matches leaves the tag stack alone, and the texts it
writes do not change the open regions. -/
theorem tokenLoop_run (ms : List Match) (st st1 : State) (i : Nat) (stack : List Tag)
    (h : tokenLoop st i ms = some st1) (hr : runChunks kindStep [] st.conv = some stack) :
    st1.tags = st.tags ∧ runChunks kindStep [] st1.conv = some stack := by
  induction ms generalizing st i with
  | nil =>
    simp only [tokenLoop, Option.some.injEq] at h
    subst h
    exact ⟨rfl, hr⟩
  | cons m ms ih =>
    simp only [tokenLoop] at h
    cases h1 : tokenStep st i m with
    | none => simp [h1] at h
    | some s1 =>
      simp only [h1] at h
      obtain ⟨ht, _, hcv⟩ := tokenStep_spec st s1 i m h1
      have hr1 : runChunks kindStep [] s1.conv = some stack := by
        rcases hcv with e | ⟨x, e⟩
        · rw [e]; exact hr
        · rw [e, runChunks_snoc _ _ _ _ _ hr]
          rfl
      obtain ⟨ht2, hr2⟩ := ih s1 (i + 1) h hr1
      exact ⟨ht2.trans ht, hr2⟩

theorem dropTrailing_sub (cs : List FormatCode) :
    (dropTrailing cs).length ≤ cs.length ∧ ∀ c ∈ dropTrailing cs, c ∈ cs := by
  unfold dropTrailing
  cases cs.getLast? with
  | none => exact ⟨le_refl _, fun _ h => h⟩
  | some l =>
    simp only []
    split_ifs
    · exact ⟨by simp, fun c hc => List.mem_of_mem_dropLast hc⟩
    · exact ⟨le_refl _, fun _ h => h⟩

/-! ## Lines with a reset byte or a leading colour directive -/

theorem cut_append_no_marker (p : Char → Bool) (s rest : Str) (h : ∀ c ∈ s, p c = false) :
    cut p (s ++ rest) = (s ++ (cut p rest).1, (cut p rest).2) := by
  induction s with
  | nil => rfl
  | cons c cs ih =>
    have hc : p c = false := h c (List.mem_cons_self _ _)
    have ih1 := ih (fun d hd => h d (List.mem_cons_of_mem _ hd))
    simp [cut, hc, ih1]

/-- A text without marker in front of a marker is the first match of `re`. -/
theorem reFindAll_text_marker (a : Char) (s : Str) (c : Char) (cs : Str)
    (h : ∀ x ∈ a :: s, isReMarker x = false) (hc : isReMarker c = true) :
    reFindAll (a :: s ++ c :: cs) = ⟨[], [], [], [], a :: s⟩ :: reFindAll (c :: cs) := by
  have ha : isReMarker a = false := h a (List.mem_cons_self _ _)
  rw [reFindAll_marker c cs hc]
  have e := cut_append_no_marker isReMarker (a :: s) (c :: cs) h
  rw [cut_marker isReMarker c cs hc] at e
  simp only [List.append_nil] at e
  unfold reFindAll
  simp only [List.cons_append, ha, Bool.false_eq_true, if_false] at e ⊢
  rw [e]
  simp

theorem reFindAll_reset (t : Str) (h : ∀ x ∈ t, isReMarker x = false) :
    reFindAll (CharReset :: t) = [⟨[CharReset], [], [], [], t⟩] := by
  rw [reFindAll_marker CharReset t (by decide), cut_no_marker isReMarker t h]
  simp [reMatch]

theorem tokenStep_reset (st : State) (i : Nat) (t : Str) :
    tokenStep st i ⟨[CharReset], [], [], [], t⟩ =
      some ⟨st.codes ++ [⟨toInt8 i, CharReset, t, ⟨0, 0⟩⟩], st.tags, st.conv, st.opened⟩ := by
  unfold tokenStep
  have h1 : ¬ (([] : Str).length > 0 ∧ ([] : Str).head? = some CharColor) := by simp
  have h2 : ([CharReset] : Str).length > 0 ∧ ([CharReset] : Str).head? = some CharReset :=
    ⟨by decide, rfl⟩
  rw [if_neg h1, if_pos h2]

theorem ConvertLine_of_steps (st0 st1 st3 st4 : State) (s : Str)
    (h1 : tokenLoop { st0 with conv := [], codes := [] } 0 (reFindAll s) = some st1)
    (h2 : codeLoop { st1 with codes := dropTrailing st1.codes, opened := fun _ => false } 0
      (dropTrailing st1.codes) = some st3)
    (h3 : Reset st3 false = some st4) :
    ConvertLine st0 s = some (st4, render st4.conv) := by
  unfold ConvertLine
  simp only [h1, h2, h3]

/-- The token of a reset byte with a text `t` without style marker, processed
on an empty tag stack: the text is written and nothing else. -/
theorem ConvertFormatCode_reset_plain (cs : List FormatCode) (cv : List Chunk)
    (f : Char → Bool) (i n : Int) (t : Str) (col : ColorCode)
    (ht : ∀ x ∈ t, isRe2Marker x = false) :
    ConvertFormatCode ⟨cs, [], cv, f⟩ i ⟨n, CharReset, t, col⟩ =
      some ⟨cs, [], cv ++ [Chunk.text t], f⟩ := by
  unfold ConvertFormatCode directive
  have h1 : ¬ (CharReset = CharColor) := by decide
  simp only [if_neg h1, if_true]
  rw [Reset_nil _ _ rfl, Option.some_bind, re2FindAll_no_marker t ht]
  rfl

theorem render_append (a b : List Chunk) : render (a ++ b) = render a ++ render b := by
  simp [render]

/-- The rest of `ConvertLine` when the loop over the matches leaves the single
token of a reset byte with the text `t`. -/
theorem finish_reset (cv : List Chunk) (o : Char → Bool) (n : Int) (t : Str) (col : ColorCode)
    (s : Str) (ht : ∀ x ∈ t, isRe2Marker x = false)
    (h1 : tokenLoop ⟨[], [], [], fun _ => false⟩ 0 (reFindAll s) =
      some ⟨[⟨n, CharReset, t, col⟩], [], cv, o⟩) :
    ∃ st, ConvertLine State.init s = some (st, render cv ++ t) ∧ st.tags = [] ∧
      (st.conv = cv ∨ st.conv = cv ++ [Chunk.text t]) := by
  by_cases hlen : t.length = 0
  · have e1 : dropTrailing [(⟨n, CharReset, t, col⟩ : FormatCode)] = [] := by
      simp [dropTrailing, hlen]
    have ht0 : t = [] := List.length_eq_zero.mp hlen
    refine ⟨⟨[], [], cv, fun _ => false⟩, ?_, rfl, Or.inl rfl⟩
    have := ConvertLine_of_steps State.init _ ⟨[], [], cv, fun _ => false⟩
      ⟨[], [], cv, fun _ => false⟩ s h1 (by simp only [e1]; rfl) (Reset_nil _ _ rfl)
    rw [this, ht0]
    simp
  · have e1 : dropTrailing [(⟨n, CharReset, t, col⟩ : FormatCode)] = [⟨n, CharReset, t, col⟩] := by
      simp [dropTrailing, hlen]
    refine ⟨⟨[⟨n, CharReset, t, col⟩], [], cv ++ [Chunk.text t], fun _ => false⟩, ?_, rfl,
      Or.inr rfl⟩
    have := ConvertLine_of_steps State.init _
      ⟨[⟨n, CharReset, t, col⟩], [], cv ++ [Chunk.text t], fun _ => false⟩
      ⟨[⟨n, CharReset, t, col⟩], [], cv ++ [Chunk.text t], fun _ => false⟩ s h1
      (by
        simp only [e1, codeLoop]
        rw [ConvertFormatCode_reset_plain _ _ _ _ _ _ _ ht])
      (Reset_nil _ _ rfl)
    rw [this, render_append, render_text]

theorem takeDigits_one (c1 : Char) (t : Str) (h1 : c1.isDigit = true)
    (hd : ∀ d r, t = d :: r → d.isDigit = false) : takeDigits (c1 :: t) = ([c1], t) := by
  cases t with
  | nil => simp [takeDigits, h1]
  | cons b r => simp [takeDigits, h1, hd b r rfl]

theorem reMatchColor_one (c1 : Char) (t : Str) (h1 : c1.isDigit = true)
    (hd : ∀ d r, t = d :: r → d.isDigit = false)
    (ht : ∀ d r, t = ',' :: d :: r → d.isDigit = false) :
    reMatchColor (c1 :: t) = ⟨[], [CharColor], [c1], [], t⟩ := by
  unfold reMatchColor
  rw [takeDigits_one c1 t h1 hd]
  simp only [List.cons_ne_nil, if_false]
  split
  · rename_i r2
    rw [takeDigits_none r2 (fun d r hr => ht d r (by rw [hr]))]
    simp
  · rfl

theorem reFindAll_color_run (run : Str) (h : ∀ x ∈ run, isReMarker x = false) :
    reFindAll (CharColor :: run) = [reMatchColor run] := by
  rw [reFindAll_marker CharColor run (by decide), cut_no_marker isReMarker run h]
  simp [reMatch_color]

theorem colorStep_first (st : State) (t : Str) :
    colorStep st 0 t 1 ColorNone = some (st.write t) := by
  unfold colorStep
  rw [if_pos ⟨rfl, rfl, rfl⟩]

/-- The call when the loop over the matches has written one text and made no
token. -/
theorem ConvertLine_written (s t : Str) (o : Char → Bool)
    (h : tokenLoop ⟨[], [], [], fun _ => false⟩ 0 (reFindAll s) =
      some ⟨[], [], [Chunk.text t], o⟩) :
    ConvertLine State.init s = some (⟨[], [], [Chunk.text t], fun _ => false⟩, t) := by
  have := ConvertLine_of_steps State.init _ ⟨[], [], [Chunk.text t], fun _ => false⟩
    ⟨[], [], [Chunk.text t], fun _ => false⟩ s h rfl (Reset_nil _ _ rfl)
  rw [this, render_text]

/-! ## The Cancel branch -/

theorem GetState_eq_cancel_iff (cc other : ColorCode) :
    cc.GetState other = StateCancel ↔
      (cc.fg = ColorNone ∧ cc.bg = ColorNone) ∨ (cc.fg = ColorTransp ∧ cc.bg = ColorTransp) := by
  unfold ColorCode.GetState
  simp only []
  by_cases h : (cc.fg = ColorNone ∧ cc.bg = ColorNone) ∨
      (cc.fg = ColorTransp ∧ cc.bg = ColorTransp)
  · rw [if_pos h]
    simp [h]
  · rw [if_neg h]
    constructor
    · intro e
      exfalso
      revert e
      split_ifs <;> simp
    · intro e
      exact absurd e h

theorem ResetLoop_true_exact (tags pre post : List Tag) (st : State) (h : tags = pre ++ post) :
    ResetLoop true tags pre.length st =
      some ⟨st.codes, st.tags,
        st.conv ++ (pre.reverse.filter (fun t => t.char = CharColor)).map
          (fun t => Chunk.markup t true), st.opened⟩ := by
  induction pre using List.reverseRecOn generalizing st post with
  | nil => simp [ResetLoop]
  | append_singleton pre t ih =>
    have hlen : (pre ++ [t]).length = pre.length + 1 := by simp
    rw [hlen]
    simp only [ResetLoop]
    have hg : getIdx tags (pre.length : Int) = some t := by
      rw [h, List.append_assoc]
      exact getIdx_append pre post t
    rw [hg]
    simp only [and_true]
    by_cases hc : t.char = CharColor
    · rw [if_neg (fun hn => hn hc)]
      rw [ih (t :: post) (Tag.ToString st t true) (by rw [h]; simp)]
      simp [Tag.ToString, List.filter_cons, hc]
    · rw [if_pos hc]
      rw [ih (t :: post) st (by rw [h]; simp)]
      simp [List.filter_cons, hc]

/-- `Reset(true)` on at most 127 tags: writes the closing markup of the colour
tags only, the innermost first, and empties the stack. -/
theorem Reset_true_exact (st : State) (hl : st.tags.length ≤ 127) :
    Reset st true =
      some ⟨st.codes, [],
        st.conv ++ (st.tags.reverse.filter (fun t => t.char = CharColor)).map
          (fun t => Chunk.markup t true), st.opened⟩ := by
  unfold Reset
  rw [lastIndex_loop_count _ hl, ResetLoop_true_exact st.tags st.tags [] st (by simp)]

theorem GetCurrentColor_nil : GetCurrentColor [] = ⟨ColorNone, ColorNone⟩ := rfl

theorem openTags_cancel (st : State) (c : FormatCode)
    (h : c.color.GetState (GetCurrentColor st.tags) = StateCancel) : openTags st c = st := by
  unfold openTags
  simp only [h]
  rfl

/-! ## The lookahead as a function of the tokens ahead -/

theorem GetState_classify (c a : ColorCode) : c.GetState a = classifySpec c a := by
  unfold ColorCode.GetState classifySpec
  simp only [decide_eq_true_eq, ne_eq, decide_not, Bool.not_eq_true', decide_eq_false_iff_not]
  split_ifs <;> first | rfl | (exfalso; tauto)

theorem ShouldCloseColorTagLoop_suffix (r : Tag) (hr : r.char = CharColor)
    (suf pre codes : List FormatCode) (h : codes = pre ++ suf) :
    ShouldCloseColorTagLoop codes r suf.length (pre.length : Int) =
      some (lookaheadSpec false r suf) := by
  induction suf generalizing pre with
  | nil => rfl
  | cons k ks ih =>
    have hg : getIdx codes (pre.length : Int) = some k := by
      rw [h]; exact getIdx_append pre ks k
    have hn := ih (pre ++ [k]) (by rw [h]; simp)
    have e : ((pre ++ [k]).length : Int) = (pre.length : Int) + 1 := by simp
    rw [e] at hn
    simp only [List.length_cons, ShouldCloseColorTagLoop, if_pos hr, hg, lookaheadSpec,
      GetState_classify, Bool.false_eq_true, if_false]
    by_cases hk : k.char = CharColor
    · simp only [if_pos hk]
      split_ifs
      · rfl
      · rfl
      · exact hn
    · simp only [if_neg hk]
      exact hn

/-! ## The merge as a function of the most recent colour token -/

theorem GetLastCodeIndexLoop_none (codes : List FormatCode) (c : Char) (k : Nat)
    (hk : k ≤ codes.length) (h : ∀ u ∈ codes, u.char ≠ c) :
    GetLastCodeIndexLoop codes c k = some (-1) := by
  induction k with
  | zero => rfl
  | succ k ih =>
    simp only [GetLastCodeIndexLoop]
    rw [getIdx_lt codes k (by omega)]
    simp only []
    rw [if_neg (h _ (List.get_mem _ _ _))]
    exact ih (by omega)

theorem GetLastCodeIndexLoop_last (c : Char) (pre : List FormatCode) (p : FormatCode)
    (post1 post2 codes : List FormatCode) (h : codes = pre ++ p :: (post1 ++ post2))
    (hp : p.char = c) (h1 : ∀ u ∈ post1, u.char ≠ c) :
    GetLastCodeIndexLoop codes c (pre.length + 1 + post1.length) = some (pre.length : Int) := by
  induction post1 using List.reverseRecOn generalizing post2 with
  | nil =>
    simp only [List.length_nil, Nat.add_zero, GetLastCodeIndexLoop]
    have hg : getIdx codes (pre.length : Int) = some p := by
      rw [h]; exact getIdx_append pre _ p
    rw [hg]
    simp only [if_pos hp]
  | append_singleton q u ih =>
    have hlen : pre.length + 1 + (q ++ [u]).length = (pre.length + 1 + q.length) + 1 := by
      simp; omega
    rw [hlen]
    simp only [GetLastCodeIndexLoop]
    have hg : getIdx codes ((pre.length + 1 + q.length : Nat) : Int) = some u := by
      have e : codes = (pre ++ p :: q) ++ u :: post2 := by rw [h]; simp
      have e2 : (pre ++ p :: q).length = pre.length + 1 + q.length := by simp; omega
      rw [e, ← e2]
      exact getIdx_append _ post2 u
    rw [hg]
    simp only []
    rw [if_neg (h1 u (by simp))]
    exact ih (u :: post2) (by rw [h]; simp)
      (fun v hv => h1 v (List.mem_append_left _ hv))

theorem GetLastCodeIndex_last (c : Char) (pre : List FormatCode) (p : FormatCode)
    (post : List FormatCode) (hp : p.char = c) (h1 : ∀ u ∈ post, u.char ≠ c)
    (hl : (pre ++ p :: post).length ≤ 127) :
    GetLastCodeIndex (pre ++ p :: post) c = some (pre.length : Int) := by
  unfold GetLastCodeIndex
  rw [lastIndex_loop_count _ hl]
  have e : (pre ++ p :: post).length = pre.length + 1 + post.length := by simp; omega
  rw [e]
  exact GetLastCodeIndexLoop_last c pre p post [] _ (by simp) hp h1

/-- Without colour token in `codes` the merge appends the new token. -/
theorem mergeColor_no_color (codes : List FormatCode) (n : FormatCode)
    (h : ∀ u ∈ codes, u.char ≠ CharColor) (hl : codes.length ≤ 127) :
    mergeColor codes n = some (codes ++ [n]) := by
  unfold mergeColor GetLastCodeIndex
  rw [lastIndex_loop_count _ hl, GetLastCodeIndexLoop_none codes CharColor _ (le_refl _) h]
  simp only []
  rw [if_neg (by omega)]

/-- With `p` the most recent colour token of `codes`, the merge discards `p`
when its text is empty and its foreground is set, and appends the new token,
which has taken the background of `p` as `inheritBg` says; else it appends the
new token as it is. -/
theorem mergeColor_last (pre post : List FormatCode) (p n : FormatCode)
    (hp : p.char = CharColor) (hpost : ∀ u ∈ post, u.char ≠ CharColor)
    (hl : (pre ++ p :: post).length ≤ 127) :
    mergeColor (pre ++ p :: post) n =
      some (if p.text.length = 0 ∧ p.color.fg ≠ ColorNone then pre ++ post ++ [inheritBg n p]
        else pre ++ p :: post ++ [n]) := by
  have hlen : (pre ++ p :: post).length = pre.length + post.length + 1 := by simp; omega
  unfold mergeColor
  rw [GetLastCodeIndex_last CharColor pre p post hp hpost hl]
  simp only []
  have h0 : (pre.length : Int) ≥ 0 := by omega
  rw [if_pos h0, getIdx_append]
  simp only []
  by_cases h1 : p.text.length = 0
  · rw [if_pos h1]
    by_cases h2 : p.color.fg ≠ ColorNone
    · rw [if_pos h2, if_pos ⟨h1, h2⟩]
      have e1 : toInt8 ((pre.length : Int) + 1) = ((pre.length + 1 : Nat) : Int) := by
        rw [toInt8_of_small _ (by omega) (by omega)]
        omega
      have ha : sliceTo (pre ++ p :: post) (pre.length : Int) = some pre := by
        unfold sliceTo
        rw [if_pos ⟨by omega, by simp⟩]
        simp
      have hb : sliceFrom (pre ++ p :: post) (toInt8 ((pre.length : Int) + 1)) = some post := by
        unfold sliceFrom
        rw [e1, if_pos ⟨by omega, by simp⟩]
        have : (pre ++ p :: post) = (pre ++ [p]) ++ post := by simp
        rw [this]
        simp only [Int.toNat_ofNat]
        rw [List.drop_left' (by simp)]
      rw [ha, hb]
    · rw [if_neg h2, if_neg (fun h => h2 h.2)]
  · rw [if_neg h1, if_neg (fun h => h1 h.1)]

theorem exists_last_color (l : List FormatCode) :
    (∀ u ∈ l, u.char ≠ CharColor) ∨
    ∃ pre p post, l = pre ++ p :: post ∧ p.char = CharColor ∧ ∀ u ∈ post, u.char ≠ CharColor := by
  induction l with
  | nil => left; simp
  | cons a l ih =>
    rcases ih with h | ⟨pre, p, post, h1, h2, h3⟩
    · by_cases ha : a.char = CharColor
      · right
        exact ⟨[], a, l, rfl, ha, h⟩
      · left
        intro u hu
        rcases List.mem_cons.mp hu with e | e
        · rw [e]; exact ha
        · exact h u e
    · right
      exact ⟨a :: pre, p, post, by rw [h1]; rfl, h2, h3⟩

/-- The merge of a new colour token into at most 127 accepted tokens discards
at most one token, the most recent colour token of the list (its text is empty
and its foreground is set), whatever tokens without colour, reset tokens that
is, lie between it and the new token; every other token is kept, in order, and
the new token is appended with the background that `inheritBg` gives it. -/
theorem merge_discards_last_color (codes : List FormatCode) (n : FormatCode)
    (hl : codes.length ≤ 127) :
    mergeColor codes n = some (codes ++ [n]) ∨
    ∃ pre p post, codes = pre ++ p :: post ∧ p.char = CharColor ∧
      (∀ u ∈ post, u.char ≠ CharColor) ∧ p.text = [] ∧ p.color.fg ≠ ColorNone ∧
      mergeColor codes n = some (pre ++ post ++ [inheritBg n p]) := by
  rcases exists_last_color codes with h | ⟨pre, p, post, h1, h2, h3⟩
  · left
    exact mergeColor_no_color codes n h hl
  · have hm := mergeColor_last pre post p n h2 h3 (by rw [← h1]; exact hl)
    rw [← h1] at hm
    by_cases hc : p.text.length = 0 ∧ p.color.fg ≠ ColorNone
    · right
      rw [if_pos hc] at hm
      exact ⟨pre, p, post, h1, h2, h3, List.length_eq_zero.mp hc.1, hc.2, hm⟩
    · left
      rw [if_neg hc] at hm
      rw [hm, h1]

/-! ## A line of at most 127 matches does not panic -/

theorem CloseTag_length (st st1 : State) (i : Int) (h : CloseTag st i = some st1) :
    st.tags.length ≤ st1.tags.length + 1 := by
  unfold CloseTag at h
  by_cases hi : 0 ≤ i ∧ i < toInt8 st.tags.length
  · rw [if_pos hi] at h
    cases hg : getIdx st.tags i with
    | none => simp [hg] at h
    | some t =>
      simp only [hg, Tag.ToString] at h
      cases ha : sliceTo st.tags i with
      | none => simp [ha] at h
      | some a =>
        cases hb : sliceFrom st.tags (toInt8 (i + 1)) with
        | none => simp [ha, hb] at h
        | some b =>
          simp only [ha, hb, Option.some.injEq] at h
          subst h
          have h1 := toInt8_len_le st.tags.length
          have h2 := toInt8_le st.tags.length
          have h3 : (0 : Int) ≤ i := hi.1
          have h4 : (i : Int) < toInt8 st.tags.length := hi.2
          have e1 : toInt8 (i + 1) = i + 1 := toInt8_of_small _ (by omega) (by omega)
          unfold sliceTo at ha
          unfold sliceFrom at hb
          rw [e1] at hb
          split_ifs at ha hb
          simp only [Option.some.injEq] at ha hb
          subst ha hb
          simp only [List.length_append, List.length_take, List.length_drop]
          omega
  · rw [if_neg hi, Option.some.injEq] at h
    subst h
    omega

theorem ShouldCloseAllColorTagsLoop_total (start : Int) (k : Nat) (st : State)
    (hk : k ≤ st.tags.length) (h0 : 0 ≤ start) (hc : st.codes.length ≤ 127) :
    ∃ st1, ShouldCloseAllColorTagsLoop start k st = some st1 := by
  induction k generalizing st with
  | zero => exact ⟨st, rfl⟩
  | succ k ih =>
    simp only [ShouldCloseAllColorTagsLoop]
    rw [getIdx_lt st.tags k (by omega)]
    simp only []
    split_ifs
    · obtain ⟨b, hb⟩ := ShouldCloseColorTag_total st.codes (st.tags.get ⟨k, by omega⟩) start h0 hc
      rw [hb]
      cases b with
      | false => exact ⟨st, rfl⟩
      | true =>
        simp only []
        obtain ⟨s2, h2⟩ := CloseTag_total st (k : Int)
        rw [h2]
        simp only []
        have hlen := CloseTag_length st s2 _ h2
        have hcodes := (CloseTag_closes st s2 _ h2).1
        exact ih s2 (by omega) (by rw [hcodes]; exact hc)
    · exact ⟨st, rfl⟩

theorem ShouldCloseAllColorTags_total (st : State) (start : Int) (h0 : 0 ≤ start)
    (hc : st.codes.length ≤ 127) : ∃ st1, ShouldCloseAllColorTags st start = some st1 :=
  ShouldCloseAllColorTagsLoop_total start _ st (lastIndex_count_le _) h0 hc

theorem closeTags_total (st : State) (start : Int) (c : FormatCode) (h0 : 0 ≤ start)
    (hc : st.codes.length ≤ 127) : ∃ st1, closeTags st start c = some st1 := by
  unfold closeTags
  simp only []
  split_ifs
  · exact Reset_total st true
  · exact ShouldCloseAllColorTags_total st start h0 hc
  · exact ⟨st, rfl⟩

theorem AddColorTag_codes (st : State) (fg bg : Int) : (AddColorTag st fg bg).codes = st.codes := by
  unfold AddColorTag
  split_ifs <;> rfl

theorem openTags_codes (st : State) (c : FormatCode) : (openTags st c).codes = st.codes := by
  unfold openTags
  simp only []
  split_ifs <;> first | exact AddColorTag_codes _ _ _ | rfl

theorem directive_total (st : State) (start : Int) (c : FormatCode) (h0 : 0 ≤ start)
    (hc : st.codes.length ≤ 127) :
    ∃ st1, directive st start c = some st1 ∧ st1.codes = st.codes := by
  unfold directive
  split_ifs
  · obtain ⟨sa, ha⟩ := closeTags_total st start c h0 hc
    rw [ha]
    exact ⟨_, rfl, (openTags_codes sa c).trans (closeTags_closes _ _ _ _ ha).1⟩
  · obtain ⟨s1, h1⟩ := Reset_total st false
    exact ⟨s1, h1, (Reset_closes _ _ _ h1).1⟩
  · exact ⟨st, rfl, rfl⟩

theorem toggleLoop_codes (ms : List (Str × Str)) (st st1 : State)
    (h : toggleLoop st ms = some st1) : st1.codes = st.codes := by
  have e := toggleLoop_withCodes ms st st.codes
  have e2 : st.withCodes st.codes = st := rfl
  rw [e2, h] at e
  simp only [Option.map_some', Option.some.injEq] at e
  rw [e]
  rfl

theorem ConvertFormatCode_total (st : State) (start : Int) (c : FormatCode) (h0 : 0 ≤ start)
    (hc : st.codes.length ≤ 127) :
    ∃ st1, ConvertFormatCode st start c = some st1 ∧ st1.codes = st.codes := by
  unfold ConvertFormatCode
  obtain ⟨sb, hb, hcodes⟩ := directive_total st start c h0 hc
  obtain ⟨s1, h1⟩ := toggleLoop_total (re2FindAll c.text) sb
  rw [hb, Option.some_bind]
  exact ⟨s1, h1, (toggleLoop_codes _ _ _ h1).trans hcodes⟩

theorem codeLoop_total (cs : List FormatCode) (st : State) (i : Nat)
    (hi : i + cs.length ≤ 127) (hc : st.codes.length ≤ 127) :
    ∃ st1, codeLoop st i cs = some st1 ∧ st1.codes = st.codes := by
  induction cs generalizing st i with
  | nil => exact ⟨st, rfl, rfl⟩
  | cons c cs ih =>
    simp only [List.length_cons] at hi
    obtain ⟨s1, h1, hc1⟩ := ConvertFormatCode_total st (toInt8 i) c
      (by rw [toInt8_nat i (by omega)]; omega) hc
    obtain ⟨s2, h2, hc2⟩ := ih s1 (i + 1) (by omega) (by rw [hc1]; exact hc)
    simp only [codeLoop, h1]
    exact ⟨s2, h2, hc2.trans hc1⟩

theorem tokenStep_returns (st : State) (i : Nat) (m : Match) (hl : st.codes.length ≤ 126) :
    ∃ st1, tokenStep st i m = some st1 ∧ st1.codes.length ≤ st.codes.length + 1 := by
  unfold tokenStep colorStep
  split_ifs
  · exact ⟨_, rfl, by simp [State.write]⟩
  · obtain ⟨cs, hcs, hlen, _⟩ := mergeColor_total st.codes
      ⟨toInt8 i, CharColor, m.g5,
        ⟨(ParseInt8 m.g3).getD ColorNone, (ParseInt8 m.g4).getD ColorNone⟩⟩ hl
    rw [hcs]
    exact ⟨_, rfl, hlen⟩
  · exact ⟨_, rfl, by simp⟩
  · exact ⟨_, rfl, by simp [State.write]⟩

theorem tokenLoop_returns (ms : List Match) (st : State) (i : Nat)
    (hl : st.codes.length + ms.length ≤ 127) :
    ∃ st1, tokenLoop st i ms = some st1 ∧ st1.codes.length ≤ st.codes.length + ms.length := by
  induction ms generalizing st i with
  | nil => exact ⟨st, rfl, by simp⟩
  | cons m ms ih =>
    simp only [List.length_cons] at hl
    obtain ⟨s1, hs1, hlen1⟩ := tokenStep_returns st i m (by omega)
    obtain ⟨s2, hs2, hlen2⟩ := ih s1 (i + 1) (by omega)
    simp only [tokenLoop, hs1]
    exact ⟨s2, hs2, by simp only [List.length_cons]; omega⟩

/-- A call of `ConvertLine`, in any state, on a line of at most 127 matches
returns; the token list it leaves has at most 127 tokens. -/
theorem ConvertLine_total (st0 : State) (s : Str) (hn : (reFindAll s).length ≤ 127) :
    ∃ st1 st3 st4,
      tokenLoop { st0 with conv := [], codes := [] } 0 (reFindAll s) = some st1 ∧
      st1.codes.length ≤ 127 ∧
      codeLoop { st1 with codes := dropTrailing st1.codes, opened := fun _ => false } 0
        (dropTrailing st1.codes) = some st3 ∧
      Reset st3 false = some st4 ∧
      ConvertLine st0 s = some (st4, render st4.conv) := by
  obtain ⟨st1, h1, hlen1⟩ := tokenLoop_returns (reFindAll s) { st0 with conv := [], codes := [] }
    0 (by simp only [List.length_nil]; omega)
  simp only [List.length_nil] at hlen1
  obtain ⟨hdl, _⟩ := dropTrailing_sub st1.codes
  obtain ⟨st3, h3, _⟩ := codeLoop_total (dropTrailing st1.codes)
    { st1 with codes := dropTrailing st1.codes, opened := fun _ => false } 0 (by omega)
    (by simp only []; omega)
  obtain ⟨st4, h4⟩ := Reset_total st3 false
  exact ⟨st1, st3, st4, h1, by omega, h3, h4, ConvertLine_of_steps st0 st1 st3 st4 s h1 h3 h4⟩

/-! ## The matches of `re` cut the line into directives and texts -/

theorem takeDigits_partition (r : Str) : (takeDigits r).1 ++ (takeDigits r).2 = r := by
  rcases r with _ | ⟨a, _ | ⟨b, rest⟩⟩
  · rfl
  · simp only [takeDigits]
    split_ifs <;> rfl
  · simp only [takeDigits]
    split_ifs <;> rfl

theorem marked_color (g3 g4 g5 : Str) : marked ⟨[], [CharColor], g3, g4, g5⟩ :=
  Or.inl ⟨Nat.succ_pos 0, rfl⟩

theorem marked_reset (g5 : Str) : marked ⟨[CharReset], [], [], [], g5⟩ :=
  Or.inr ⟨Nat.succ_pos 0, rfl⟩

theorem reMatchColor_whole (run : Str) :
    (reMatchColor run).directive ++ (reMatchColor run).g5 = CharColor :: run ∧
      marked (reMatchColor run) := by
  have hp := takeDigits_partition run
  unfold reMatchColor
  simp only []
  by_cases h1 : (takeDigits run).1 = []
  · rw [if_pos h1]
    exact ⟨by simp [Match.directive], marked_color _ _ _⟩
  · rw [if_neg h1]
    split
    · rename_i r2 he
      have hp2 := takeDigits_partition r2
      by_cases h2 : (takeDigits r2).1 = []
      · rw [if_pos h2]
        refine ⟨?_, marked_color _ _ _⟩
        simp only [Match.directive, if_true, List.nil_append, List.append_nil]
        rw [List.append_assoc, hp]
        rfl
      · rw [if_neg h2]
        refine ⟨?_, marked_color _ _ _⟩
        simp only [Match.directive, if_neg h2, List.nil_append]
        have e : (takeDigits run).1 ++ ',' :: ((takeDigits r2).1 ++ (takeDigits r2).2) = run := by
          rw [hp2, ← he, hp]
        conv_rhs => rw [← e]
        simp
    · refine ⟨?_, marked_color _ _ _⟩
      simp only [Match.directive, if_true, List.nil_append, List.append_nil]
      rw [List.append_assoc, hp]
      rfl

theorem reMatch_whole (c : Char) (run : Str) (hc : isReMarker c = true) :
    (reMatch c run).directive ++ (reMatch c run).g5 = c :: run ∧ marked (reMatch c run) := by
  unfold reMatch
  by_cases h : c = CharReset
  · rw [if_pos h, h]
    exact ⟨by simp [Match.directive], marked_reset _⟩
  · rw [if_neg h]
    have hcol : c = CharColor := by
      simp only [isReMarker, decide_eq_true_eq] at hc
      rcases hc with e | e
      · exact e
      · exact absurd e h
    rw [hcol]
    exact reMatchColor_whole run

theorem cut_partition (p : Char → Bool) (s : Str) :
    (cut p s).1 ++ (((cut p s).2.map (fun x => x.1 :: x.2)).flatten) = s := by
  induction s with
  | nil => rfl
  | cons c cs ih =>
    simp only [cut]
    by_cases hc : p c = true
    · rw [if_pos hc]
      simp only [List.nil_append, List.map_cons, List.flatten_cons, List.cons_append]
      rw [ih]
    · rw [if_neg hc]
      simp only [List.cons_append]
      rw [ih]

theorem rest_whole (l : List (Char × Str)) (h : ∀ x ∈ l, isReMarker x.1 = true) :
    ((l.map (fun x => reMatch x.1 x.2)).map (fun m => m.directive ++ m.g5)).flatten =
      (l.map (fun x => x.1 :: x.2)).flatten := by
  induction l with
  | nil => rfl
  | cons a l ih =>
    simp only [List.map_cons, List.flatten_cons]
    rw [(reMatch_whole a.1 a.2 (h a (List.mem_cons_self _ _))).1,
      ih (fun x hx => h x (List.mem_cons_of_mem _ hx))]

theorem rest_marked (l : List (Char × Str)) (h : ∀ x ∈ l, isReMarker x.1 = true) :
    ∀ m ∈ l.map (fun x => reMatch x.1 x.2), marked m := by
  intro m hm
  obtain ⟨x, hx, he⟩ := List.mem_map.mp hm
  rw [← he]
  exact (reMatch_whole x.1 x.2 (h x hx)).2

/-- The matches of `re`, each with the directive it has taken put back in
front of its text, make up the line. -/
theorem reFindAll_partition (s : Str) :
    ((reFindAll s).map (fun m => m.directive ++ m.g5)).flatten = s := by
  have hp := cut_partition isReMarker s
  have hm := cut_markers isReMarker s
  cases s with
  | nil => rfl
  | cons c cs =>
    unfold reFindAll
    simp only []
    by_cases hc : isReMarker c = true
    · rw [if_pos hc, rest_whole _ hm]
      rw [cut_marker isReMarker c cs hc] at hp ⊢
      simpa using hp
    · rw [if_neg hc]
      simp only [List.map_cons, List.flatten_cons, rest_whole _ hm]
      simpa [Match.directive] using hp

/-- Every match of `re` but the first begins with a colour or a reset byte. -/
theorem reFindAll_tail_marked (s : Str) :
    ∃ m0 rest, reFindAll s = m0 :: rest ∧ ∀ m ∈ rest, marked m := by
  have hm := cut_markers isReMarker s
  cases s with
  | nil => exact ⟨_, [], rfl, by simp⟩
  | cons c cs =>
    unfold reFindAll
    simp only []
    by_cases hc : isReMarker c = true
    · rw [if_pos hc]
      rw [cut_marker isReMarker c cs hc] at hm ⊢
      simp only [List.map_cons]
      refine ⟨_, _, rfl, ?_⟩
      apply rest_marked
      intro x hx
      exact hm x (List.mem_cons_of_mem _ hx)
    · rw [if_neg hc]
      exact ⟨_, _, rfl, rest_marked _ hm⟩

/-! ## The texts through the loop over the matches -/

theorem textsOf_append (a b : List FormatCode) : textsOf (a ++ b) = textsOf a ++ textsOf b := by
  simp [textsOf]

theorem textsOf_cons (c : FormatCode) (a : List FormatCode) :
    textsOf (c :: a) = c.text ++ textsOf a := by
  simp [textsOf]

theorem textsOf_nil : textsOf [] = [] := rfl

theorem textOf_append (a b : List Chunk) : textOf (a ++ b) = textOf a ++ textOf b := by
  simp [textOf]

theorem textOf_text (a : List Chunk) (x : Str) : textOf (a ++ [Chunk.text x]) = textOf a ++ x := by
  simp [textOf, Chunk.textPart]

theorem inheritBg_text (n p : FormatCode) : (inheritBg n p).text = n.text := by
  unfold inheritBg
  split_ifs <;> rfl

/-- The merge neither drops nor moves a text. -/
theorem mergeColor_texts (codes cs : List FormatCode) (n : FormatCode)
    (hl : codes.length ≤ 127) (h : mergeColor codes n = some cs) :
    textsOf cs = textsOf codes ++ n.text := by
  rcases merge_discards_last_color codes n hl with e | ⟨pre, p, post, h1, _, _, h4, _, e⟩
  · rw [e, Option.some.injEq] at h
    rw [← h, textsOf_append, textsOf_cons, textsOf_nil, List.append_nil]
  · rw [e, Option.some.injEq] at h
    rw [← h, h1]
    simp only [textsOf_append, textsOf_cons, textsOf_nil, inheritBg_text, h4, List.nil_append,
      List.append_nil]

theorem tokenStep_marked_texts (st : State) (i : Nat) (m : Match) (hm : marked m)
    (hi : 1 ≤ i) (hl : st.codes.length ≤ 126) :
    ∃ st1, tokenStep st i m = some st1 ∧ st1.conv = st.conv ∧ st1.tags = st.tags ∧
      textsOf st1.codes = textsOf st.codes ++ m.g5 ∧
      st1.codes.length ≤ st.codes.length + 1 := by
  unfold tokenStep
  by_cases h1 : m.g2.length > 0 ∧ m.g2.head? = some CharColor
  · rw [if_pos h1]
    unfold colorStep
    rw [if_neg (fun h => by omega)]
    obtain ⟨cs, hcs, hlen, _⟩ := mergeColor_total st.codes
      ⟨toInt8 i, CharColor, m.g5,
        ⟨(ParseInt8 m.g3).getD ColorNone, (ParseInt8 m.g4).getD ColorNone⟩⟩ hl
    rw [hcs]
    exact ⟨_, rfl, rfl, rfl, mergeColor_texts _ _ _ (by omega) hcs, hlen⟩
  · rw [if_neg h1]
    have h2 : m.g1.length > 0 ∧ m.g1.head? = some CharReset := by
      rcases hm with e | e
      · exact absurd e h1
      · exact e
    rw [if_pos h2]
    refine ⟨_, rfl, rfl, rfl, ?_, by simp⟩
    simp only [textsOf_append, textsOf_cons, textsOf_nil, List.append_nil]

theorem tokenLoop_marked_texts (ms : List Match) (st : State) (i : Nat)
    (hm : ∀ m ∈ ms, marked m) (hi : 1 ≤ i) (hl : st.codes.length + ms.length ≤ 127) :
    ∃ st1, tokenLoop st i ms = some st1 ∧ st1.conv = st.conv ∧ st1.tags = st.tags ∧
      textsOf st1.codes = textsOf st.codes ++ (ms.map (fun m => m.g5)).flatten ∧
      st1.codes.length ≤ st.codes.length + ms.length := by
  induction ms generalizing st i with
  | nil => exact ⟨st, rfl, rfl, rfl, by simp, by simp⟩
  | cons m ms ih =>
    simp only [List.length_cons] at hl
    obtain ⟨s1, hs1, hc1, ht1, hx1, hl1⟩ :=
      tokenStep_marked_texts st i m (hm m (List.mem_cons_self _ _)) hi (by omega)
    obtain ⟨s2, hs2, hc2, ht2, hx2, hl2⟩ := ih s1 (i + 1)
      (fun x hx => hm x (List.mem_cons_of_mem _ hx)) (by omega) (by omega)
    simp only [tokenLoop, hs1]
    refine ⟨s2, hs2, hc2.trans hc1, ht2.trans ht1, ?_, by simp only [List.length_cons]; omega⟩
    rw [hx2, hx1]
    simp

/-- The first match: its text is written, or is the text of the one token
made. -/
theorem tokenStep_first_texts (st : State) (m : Match) (hc : st.codes = []) :
    ∃ st1, tokenStep st 0 m = some st1 ∧ st1.tags = st.tags ∧
      (st1.conv = st.conv ∨ ∃ x, st1.conv = st.conv ++ [Chunk.text x]) ∧
      textOf st1.conv ++ textsOf st1.codes = textOf st.conv ++ m.g5 ∧
      st1.codes.length ≤ 1 := by
  unfold tokenStep colorStep
  rw [hc]
  split_ifs
  · refine ⟨_, rfl, rfl, Or.inr ⟨_, rfl⟩, ?_, by simp [State.write, hc]⟩
    simp only [State.write, hc, textsOf_nil, List.append_nil, textOf_text]
  · rw [mergeColor_nil]
    refine ⟨_, rfl, rfl, Or.inl rfl, ?_, by simp⟩
    simp only [Option.map_some', textsOf_cons, textsOf_nil, List.append_nil]
  · refine ⟨_, rfl, rfl, Or.inl rfl, ?_, by simp⟩
    simp only [List.nil_append, textsOf_cons, textsOf_nil, List.append_nil]
  · refine ⟨_, rfl, rfl, Or.inr ⟨_, rfl⟩, ?_, by simp [State.write, hc]⟩
    simp only [State.write, hc, textsOf_nil, List.append_nil, textOf_text]

/-- The loop over the matches of a line of at most 127 matches, started with
an empty builder and no token: the texts written, then the texts of the
tokens, are the texts of the matches in order. -/
theorem tokenLoop_texts (tags : List Tag) (o : Char → Bool) (s : Str)
    (hn : (reFindAll s).length ≤ 127) :
    ∃ st1, tokenLoop ⟨[], tags, [], o⟩ 0 (reFindAll s) = some st1 ∧ st1.tags = tags ∧
      (st1.conv = [] ∨ ∃ x, st1.conv = [Chunk.text x]) ∧
      textOf st1.conv ++ textsOf st1.codes = ((reFindAll s).map (fun m => m.g5)).flatten ∧
      st1.codes.length ≤ 127 := by
  obtain ⟨m0, rest, he, hm⟩ := reFindAll_tail_marked s
  rw [he] at hn ⊢
  simp only [List.length_cons] at hn
  obtain ⟨s1, hs1, ht1, hc1, hx1, hl1⟩ := tokenStep_first_texts ⟨[], tags, [], o⟩ m0 rfl
  obtain ⟨s2, hs2, hc2, ht2, hx2, hl2⟩ := tokenLoop_marked_texts rest s1 1 hm (le_refl _)
    (by omega)
  simp only [tokenLoop, hs1]
  refine ⟨s2, hs2, ht2.trans ht1, ?_, ?_, by omega⟩
  · rw [hc2]
    rcases hc1 with e | ⟨x, e⟩
    · left; rw [e]
    · right; exact ⟨x, by rw [e]; rfl⟩
  · rw [hc2, hx2, ← List.append_assoc, hx1]
    simp [textOf]

/-! ## The texts through the loop over the tokens -/

theorem textOf_markups (ad : List Chunk) (tags : List Tag)
    (ha : ∀ ch ∈ ad, ∃ t ∈ tags, ch = Chunk.markup t true) : textOf ad = [] := by
  induction ad with
  | nil => rfl
  | cons ch ad ih =>
    obtain ⟨t, _, hte⟩ := ha ch (List.mem_cons_self _ _)
    have ih1 := ih (fun x hx => ha x (List.mem_cons_of_mem _ hx))
    simp only [textOf, List.map_cons, List.flatten_cons] at ih1 ⊢
    rw [ih1, hte]
    rfl

theorem texts_of_closes {st st1 : State} (h : Closes st st1) :
    textOf st1.conv = textOf st.conv := by
  obtain ⟨_, _, _, ad, hv, ha⟩ := h
  rw [hv, textOf_append, textOf_markups ad st.tags ha, List.append_nil]

theorem AddColorTag_textOf (st : State) (fg bg : Int) :
    textOf (AddColorTag st fg bg).conv = textOf st.conv := by
  unfold AddColorTag
  split_ifs
  · simp [AddTag, Tag.ToString, textOf, Chunk.textPart]
  · rfl

theorem openTags_textOf (st : State) (c : FormatCode) :
    textOf (openTags st c).conv = textOf st.conv := by
  unfold openTags
  simp only []
  split_ifs <;> first | exact AddColorTag_textOf _ _ _ | rfl

theorem directive_textOf (st sb : State) (i : Int) (c : FormatCode)
    (h : directive st i c = some sb) : textOf sb.conv = textOf st.conv := by
  unfold directive at h
  split_ifs at h
  · simp only [Option.map_eq_some'] at h
    obtain ⟨sa, ha, he⟩ := h
    rw [← he, openTags_textOf]
    exact texts_of_closes (closeTags_closes _ _ _ _ ha)
  · exact texts_of_closes (Reset_closes _ _ _ h)
  · simp only [Option.some.injEq] at h
    rw [← h]

/-- A token whose text has no style marker: the call writes the text, once,
after what was written before, and no other text. -/
theorem ConvertFormatCode_textOf (st st1 : State) (i : Int) (c : FormatCode)
    (hm : ∀ x ∈ c.text, isRe2Marker x = false) (h : ConvertFormatCode st i c = some st1) :
    textOf st1.conv = textOf st.conv ++ c.text := by
  unfold ConvertFormatCode at h
  simp only [Option.bind_eq_some] at h
  obtain ⟨sb, hb, ht⟩ := h
  rw [re2FindAll_no_marker c.text hm] at ht
  simp only [toggleLoop, toggleStep, Option.some.injEq] at ht
  rw [← ht]
  simp only [State.write, textOf_text]
  rw [directive_textOf st sb i c hb]

theorem codeLoop_textOf (cs : List FormatCode) (st st1 : State) (i : Nat)
    (hm : ∀ c ∈ cs, ∀ x ∈ c.text, isRe2Marker x = false) (h : codeLoop st i cs = some st1) :
    textOf st1.conv = textOf st.conv ++ textsOf cs := by
  induction cs generalizing st i with
  | nil =>
    simp only [codeLoop, Option.some.injEq] at h
    rw [← h, textsOf_nil, List.append_nil]
  | cons c cs ih =>
    simp only [codeLoop] at h
    cases h1 : ConvertFormatCode st (toInt8 i) c with
    | none => simp [h1] at h
    | some s1 =>
      simp only [h1] at h
      rw [ih s1 (i + 1) (fun x hx => hm x (List.mem_cons_of_mem _ hx)) h,
        ConvertFormatCode_textOf st s1 _ c (hm c (List.mem_cons_self _ _)) h1, textsOf_cons,
        List.append_assoc]

theorem dropTrailing_texts (cs : List FormatCode) : textsOf (dropTrailing cs) = textsOf cs := by
  unfold dropTrailing
  cases hl : cs.getLast? with
  | none => rfl
  | some l =>
    simp only []
    split_ifs with h0
    · have e := List.dropLast_append_getLast? l hl
      conv_rhs => rw [← e]
      rw [textsOf_append, textsOf_cons, textsOf_nil, List.length_eq_zero.mp h0]
      simp
    · rfl

theorem mem_textsOf (cs : List FormatCode) (c : FormatCode) (hc : c ∈ cs) (x : Char)
    (hx : x ∈ c.text) : x ∈ textsOf cs := by
  unfold textsOf
  rw [List.mem_flatten]
  exact ⟨c.text, List.mem_map.mpr ⟨c, hc, rfl⟩, hx⟩

/-- A character of the text of a match is a character of the line. -/
theorem mem_texts_mem_line (s : Str) (x : Char)
    (hx : x ∈ ((reFindAll s).map (fun m => m.g5)).flatten) : x ∈ s := by
  rw [List.mem_flatten] at hx
  obtain ⟨l, hl, hxl⟩ := hx
  obtain ⟨m, hm, he⟩ := List.mem_map.mp hl
  have hp := reFindAll_partition s
  rw [← hp, List.mem_flatten]
  refine ⟨m.directive ++ m.g5, List.mem_map.mpr ⟨m, hm, rfl⟩, ?_⟩
  rw [← he] at hxl
  exact List.mem_append_right _ hxl

/-! ## Proper nesting on a line without style marker -/

theorem nestStep_top (t : Tag) (rest : List Tag) :
    nestStep (t :: rest) (Chunk.markup t true) = some rest := by
  simp [nestStep]

theorem nestRun_close_all (post rest : List Tag) :
    runChunks nestStep (post ++ rest) (post.map (fun t => Chunk.markup t true)) = some rest := by
  induction post with
  | nil => rfl
  | cons t post ih =>
    simp only [List.cons_append, List.map_cons, runChunks, nestStep_top]
    exact ih

theorem NestInv.weaken {i j : Nat} {st : State} (h : NestInv i st) (hij : i ≤ j) :
    NestInv j st :=
  ⟨h.run, h.colors, h.marks, le_trans h.count hij⟩

theorem NestInv.written {i : Nat} {st : State} (h : NestInv i st) (x : Str) :
    NestInv i (st.write x) := by
  refine ⟨?_, h.colors, ?_, h.count⟩
  · simp only [State.write]
    rw [runChunks_snoc _ _ _ _ _ h.run]
    rfl
  · intro t b hm
    simp only [State.write, List.mem_append, List.mem_singleton] at hm
    rcases hm with h1 | h1
    · exact h.marks t b h1
    · cases h1

/-- Closing the tags `post` at the top of the stack, the innermost first. -/
theorem NestInv.closeTop {i : Nat} {st : State} (h : NestInv i st) (pre post : List Tag)
    (ht : st.tags = pre ++ post) :
    NestInv i ⟨st.codes, pre, st.conv ++ post.reverse.map (fun t => Chunk.markup t true),
      st.opened⟩ := by
  refine ⟨?_, ?_, ?_, ?_⟩
  · simp only []
    rw [runChunks_append, h.run, Option.some_bind, ht]
    have := nestRun_close_all post.reverse pre.reverse
    simpa using this
  · intro t htm
    exact h.colors t (by rw [ht]; exact List.mem_append_left _ htm)
  · intro t b hm
    simp only [List.mem_append, List.mem_map, List.mem_reverse] at hm
    rcases hm with h1 | ⟨u, hu, he⟩
    · exact h.marks t b h1
    · cases he
      exact h.colors _ (by rw [ht]; exact List.mem_append_right _ hu)
  · have := h.count
    rw [ht, List.length_append] at this
    simp only []
    omega

theorem Reset_nest {i : Nat} {st : State} (h : NestInv i st) (b : Bool) (hi : i ≤ 127) :
    ∃ st1, Reset st b = some st1 ∧ NestInv i st1 ∧ st1.codes = st.codes := by
  have hlen : st.tags.length ≤ 127 := le_trans h.count hi
  have key := h.closeTop [] st.tags (by simp)
  cases b with
  | false =>
    rw [Reset_exact st hlen]
    exact ⟨_, rfl, key, rfl⟩
  | true =>
    rw [Reset_true_exact st hlen]
    have e : st.tags.reverse.filter (fun t => t.char = CharColor) = st.tags.reverse := by
      rw [List.filter_eq_self]
      intro t ht
      simp only [decide_eq_true_eq]
      exact h.colors t (List.mem_reverse.mp ht)
    rw [e]
    exact ⟨_, rfl, key, rfl⟩

theorem closeTags_nest {i : Nat} {st : State} (h : NestInv i st) (start : Int) (c : FormatCode)
    (hi : i ≤ 127) (h0 : 0 ≤ start) (hc : st.codes.length ≤ 127) :
    ∃ st1, closeTags st start c = some st1 ∧ NestInv i st1 ∧ st1.codes = st.codes := by
  have hlen : st.tags.length ≤ 127 := le_trans h.count hi
  unfold closeTags
  simp only []
  split_ifs
  · exact Reset_nest h true hi
  · obtain ⟨pre, post, htags, _, hex⟩ := ShouldCloseAllColorTags_exact st start hlen h0 hc
    rw [hex]
    exact ⟨_, rfl, h.closeTop pre post htags, rfl⟩
  · exact ⟨st, rfl, h, rfl⟩

theorem AddColorTag_nest {i : Nat} {st : State} (h : NestInv i st) (fg bg : Int) :
    NestInv (i + 1) (AddColorTag st fg bg) := by
  unfold AddColorTag
  split_ifs
  · simp only [AddTag, Tag.ToString]
    refine ⟨?_, ?_, ?_, ?_⟩
    · simp only []
      rw [runChunks_snoc _ _ _ _ _ h.run]
      simp [nestStep]
    · intro t ht
      rcases List.mem_append.mp ht with h1 | h1
      · exact h.colors t h1
      · simp only [List.mem_singleton] at h1
        rw [h1]
    · intro t b hm
      simp only [List.mem_append, List.mem_singleton] at hm
      rcases hm with h1 | h1
      · exact h.marks t b h1
      · cases h1
        rfl
    · have := h.count
      simp only [List.length_append, List.length_singleton]
      omega
  · exact h.weaken (Nat.le_succ i)

theorem openTags_nest {i : Nat} {st : State} (h : NestInv i st) (c : FormatCode) :
    NestInv (i + 1) (openTags st c) := by
  unfold openTags
  simp only []
  split_ifs <;> first | exact AddColorTag_nest h _ _ | exact h.weaken (Nat.le_succ i)

theorem ConvertFormatCode_nest {i : Nat} {st : State} (h : NestInv i st) (c : FormatCode)
    (hi : i + 1 ≤ 127) (hc : st.codes.length ≤ 127)
    (hm : ∀ x ∈ c.text, isRe2Marker x = false) :
    ∃ st1, ConvertFormatCode st (toInt8 i) c = some st1 ∧ NestInv (i + 1) st1 ∧
      st1.codes = st.codes := by
  unfold ConvertFormatCode
  rw [toInt8_nat i (by omega), re2FindAll_no_marker c.text hm]
  have hd : ∃ sb, directive st (i : Int) c = some sb ∧ NestInv (i + 1) sb ∧
      sb.codes = st.codes := by
    unfold directive
    split_ifs
    · obtain ⟨sa, ha, hinv, hcodes⟩ := closeTags_nest h (i : Int) c (by omega) (by omega) hc
      rw [ha]
      exact ⟨_, rfl, openTags_nest hinv c, (openTags_codes sa c).trans hcodes⟩
    · obtain ⟨s1, h1, hinv, hcodes⟩ := Reset_nest h false (by omega)
      exact ⟨s1, h1, hinv.weaken (Nat.le_succ i), hcodes⟩
    · exact ⟨st, rfl, h.weaken (Nat.le_succ i), rfl⟩
  obtain ⟨sb, hb, hinv, hcodes⟩ := hd
  rw [hb, Option.some_bind]
  exact ⟨_, rfl, hinv.written _, hcodes⟩

theorem codeLoop_nest (cs : List FormatCode) {i : Nat} {st : State} (h : NestInv i st)
    (hi : i + cs.length ≤ 127) (hc : st.codes.length ≤ 127)
    (hm : ∀ c ∈ cs, ∀ x ∈ c.text, isRe2Marker x = false) :
    ∃ st1, codeLoop st i cs = some st1 ∧ NestInv (i + cs.length) st1 := by
  induction cs generalizing i st with
  | nil => exact ⟨st, rfl, h⟩
  | cons c cs ih =>
    simp only [List.length_cons] at hi
    obtain ⟨s1, hs1, hinv, hcodes⟩ :=
      ConvertFormatCode_nest h c (by omega) hc (hm c (List.mem_cons_self _ _))
    obtain ⟨s2, hs2, hinv2⟩ := ih hinv (by omega) (by rw [hcodes]; exact hc)
      (fun x hx => hm x (List.mem_cons_of_mem _ hx))
    simp only [codeLoop, hs1]
    refine ⟨s2, hs2, ?_⟩
    have e : i + (c :: cs).length = i + 1 + cs.length := by simp; omega
    rw [e]
    exact hinv2

theorem runChunks_prefix (step : List Tag → Chunk → Option (List Tag)) (a b : List Chunk)
    (s s1 : List Tag) (h : runChunks step s (a ++ b) = some s1) :
    ∃ s2, runChunks step s a = some s2 := by
  rw [runChunks_append] at h
  cases ha : runChunks step s a with
  | none => simp [ha] at h
  | some s2 => exact ⟨s2, rfl⟩

/-- Under proper nesting the closing markups written and the regions open make
up the opening markups written and the regions open at the start. -/
theorem nest_counts (conv : List Chunk) (s s1 : List Tag)
    (h : runChunks nestStep s conv = some s1) :
    (conv.filter Chunk.isClose).length + s1.length =
      (conv.filter Chunk.isOpen).length + s.length := by
  induction conv generalizing s with
  | nil =>
    simp only [runChunks, Option.some.injEq] at h
    rw [h]
    rfl
  | cons ch conv ih =>
    simp only [runChunks] at h
    cases hs : nestStep s ch with
    | none => simp [hs] at h
    | some s2 =>
      simp only [hs] at h
      have ih1 := ih s2 h
      cases ch with
      | text x =>
        simp only [nestStep, Option.some.injEq] at hs
        rw [← hs] at ih1
        simpa [List.filter_cons, Chunk.isClose, Chunk.isOpen] using ih1
      | markup t b =>
        cases b with
        | false =>
          simp only [nestStep, Option.some.injEq] at hs
          rw [← hs] at ih1
          simp only [List.filter_cons, Chunk.isClose, Chunk.isOpen, Bool.false_eq_true, if_false,
            if_true, List.length_cons] at ih1 ⊢
          omega
        | true =>
          cases s with
          | nil => simp [nestStep] at hs
          | cons u rest =>
            simp only [nestStep] at hs
            split_ifs at hs
            simp only [Option.some.injEq] at hs
            rw [← hs] at ih1
            simp only [List.filter_cons, Chunk.isClose, Chunk.isOpen, Bool.false_eq_true,
              if_false, if_true, List.length_cons] at ih1 ⊢
            omega

/-! ## The texts of the matches are the line without its directives -/

theorem digitsLength_le (s : Str) : digitsLength s ≤ s.length := by
  rcases s with _ | ⟨a, _ | ⟨b, rest⟩⟩
  · exact le_refl _
  · simp only [digitsLength]
    split_ifs <;> simp
  · simp only [digitsLength]
    split_ifs <;> simp

theorem digitsLength_append (run tail : Str)
    (ht : ∀ c tl, tail = c :: tl → c.isDigit = false) :
    digitsLength (run ++ tail) = digitsLength run := by
  rcases run with _ | ⟨a, _ | ⟨b, rest⟩⟩
  · rcases tail with _ | ⟨c, _ | ⟨d, tl⟩⟩
    · rfl
    · simp [digitsLength, ht c [] rfl]
    · simp [digitsLength, ht c (d :: tl) rfl]
  · rcases tail with _ | ⟨c, tl⟩
    · rfl
    · simp [digitsLength, ht c tl rfl]
  · rfl

theorem takeDigits_length (s : Str) :
    (takeDigits s).1.length = digitsLength s ∧ (takeDigits s).2 = s.drop (digitsLength s) := by
  rcases s with _ | ⟨a, _ | ⟨b, rest⟩⟩
  · exact ⟨rfl, rfl⟩
  · simp only [takeDigits, digitsLength]
    split_ifs <;> exact ⟨rfl, rfl⟩
  · simp only [takeDigits, digitsLength]
    split_ifs <;> exact ⟨rfl, rfl⟩

theorem directiveLength_le (s : Str) : directiveLength s ≤ s.length := by
  have h1 := digitsLength_le s
  unfold directiveLength
  simp only []
  split_ifs with h0
  · exact Nat.zero_le _
  · cases hd : s.drop (digitsLength s) with
    | nil => exact h1
    | cons c r =>
      simp only []
      split_ifs
      · have h2 := digitsLength_le r
        have h3 : (s.drop (digitsLength s)).length = (c :: r).length := by rw [hd]
        rw [List.length_drop, List.length_cons] at h3
        omega
      · exact h1

/-- The text of the match at a colour byte is what follows the directive. -/
theorem reMatchColor_g5 (run : Str) :
    (reMatchColor run).g5 = run.drop (directiveLength run) := by
  obtain ⟨hl, hr⟩ := takeDigits_length run
  unfold reMatchColor directiveLength
  simp only []
  by_cases h0 : (takeDigits run).1 = []
  · have hz : digitsLength run = 0 := by rw [← hl, h0]; rfl
    rw [if_pos h0, if_pos hz]
    rfl
  · have hz : digitsLength run ≠ 0 := by
      intro e
      apply h0
      exact List.length_eq_zero.mp (by rw [hl, e])
    rw [if_neg h0, if_neg hz, hr]
    generalize hd : run.drop (digitsLength run) = tl
    rcases tl with _ | ⟨c, r⟩
    · exact hd.symm
    · obtain ⟨hl2, hr2⟩ := takeDigits_length r
      by_cases hc : c = ','
      · subst hc
        simp only []
        by_cases h2 : (takeDigits r).1 = []
        · have hz2 : digitsLength r = 0 := by rw [← hl2, h2]; rfl
          rw [if_pos h2, if_neg (fun h => h.2 hz2)]
          exact hd.symm
        · have hz2 : digitsLength r ≠ 0 := by
            intro e
            apply h2
            exact List.length_eq_zero.mp (by rw [hl2, e])
          rw [if_neg h2, if_pos ⟨trivial, hz2⟩]
          simp only []
          rw [hr2]
          have e : run.drop (digitsLength run + 1 + digitsLength r) =
              (run.drop (digitsLength run)).drop (1 + digitsLength r) := by
            rw [List.drop_drop]
            congr 1
            omega
          rw [e, hd, Nat.add_comm 1, List.drop_succ_cons]
      · simp only []
        rw [if_neg (fun h => hc h.1)]
        split
        · rename_i r2 heq
          cases heq
          exact absurd rfl hc
        · exact hd.symm

theorem marker_not_digit (c : Char) (h : isReMarker c = true) :
    c.isDigit = false ∧ c ≠ ',' := by
  simp only [isReMarker, Bool.decide_or, Bool.or_eq_true, decide_eq_true_eq] at h
  rcases h with h | h <;> subst h <;> exact ⟨by decide, by decide⟩

theorem directiveLength_append (run tail : Str)
    (ht : ∀ c tl, tail = c :: tl → c.isDigit = false ∧ c ≠ ',') :
    directiveLength (run ++ tail) = directiveLength run := by
  have hd := digitsLength_append run tail (fun c tl h => (ht c tl h).1)
  have hle := digitsLength_le run
  unfold directiveLength
  simp only []
  rw [hd]
  by_cases h0 : digitsLength run = 0
  · rw [if_pos h0, if_pos h0]
  · rw [if_neg h0, if_neg h0, List.drop_append_of_le_length hle]
    rcases hr : run.drop (digitsLength run) with _ | ⟨c, r⟩
    · rcases tail with _ | ⟨d, tl⟩
      · rfl
      · simp only [List.nil_append]
        rw [if_neg (fun h => (ht d tl rfl).2 h.1)]
    · simp only [List.cons_append]
      rw [digitsLength_append r tail (fun c tl h => (ht c tl h).1)]

theorem stripLoop_drop (k : Nat) (s : Str) : stripLoop k s = stripLoop 0 (s.drop k) := by
  induction k generalizing s with
  | zero => rfl
  | succ k ih =>
    cases s with
    | nil => rfl
    | cons c s =>
      simp only [stripLoop, List.drop_succ_cons]
      exact ih s

theorem stripLoop_text (run tail : Str) (h : ∀ x ∈ run, isReMarker x = false) :
    stripLoop 0 (run ++ tail) = run ++ stripLoop 0 tail := by
  induction run with
  | nil => rfl
  | cons c run ih =>
    have hc := h c (List.mem_cons_self _ _)
    simp only [isReMarker, Bool.decide_or, Bool.or_eq_false_iff, decide_eq_false_iff_not] at hc
    simp only [List.cons_append, stripLoop, List.append_eq]
    rw [if_neg hc.2, if_neg hc.1, ih (fun x hx => h x (List.mem_cons_of_mem _ hx))]

theorem cut_clean (p : Char → Bool) (s : Str) :
    (∀ x ∈ (cut p s).1, p x = false) ∧ ∀ y ∈ (cut p s).2, ∀ x ∈ y.2, p x = false := by
  induction s with
  | nil => simp [cut]
  | cons c cs ih =>
    simp only [cut]
    by_cases hc : p c = true
    · rw [if_pos hc]
      refine And.intro ?_ ?_
      · intro x hx
        cases hx
      intro y hy
      rcases List.mem_cons.mp hy with h1 | h1
      · rw [h1]; exact ih.1
      · exact ih.2 y h1
    · rw [if_neg hc]
      refine ⟨?_, ih.2⟩
      intro x hx
      rcases List.mem_cons.mp hx with h1 | h1
      · rw [h1]
        cases hb : p c with
        | false => rfl
        | true => exact absurd hb hc
      · exact ih.1 x h1

/-- The line without its directives, from a marker on: the texts of the
matches. -/
theorem stripLoop_pieces (l : List (Char × Str)) (hm : ∀ x ∈ l, isReMarker x.1 = true)
    (ht : ∀ y ∈ l, ∀ x ∈ y.2, isReMarker x = false) :
    stripLoop 0 ((l.map (fun x => x.1 :: x.2)).flatten) =
      ((l.map (fun x => reMatch x.1 x.2)).map (fun m => m.g5)).flatten := by
  induction l with
  | nil => rfl
  | cons a l ih =>
    have ih1 := ih (fun x hx => hm x (List.mem_cons_of_mem _ hx))
      (fun y hy => ht y (List.mem_cons_of_mem _ hy))
    have ha := hm a (List.mem_cons_self _ _)
    have hta := ht a (List.mem_cons_self _ _)
    have htail : ∀ c tl, (l.map (fun x => x.1 :: x.2)).flatten = c :: tl →
        c.isDigit = false ∧ c ≠ ',' := by
      intro c tl h
      cases l with
      | nil => cases h
      | cons b l =>
        simp only [List.map_cons, List.flatten_cons, List.cons_append, List.cons.injEq] at h
        rw [← h.1]
        exact marker_not_digit b.1 (hm b (List.mem_cons_of_mem _ (List.mem_cons_self _ _)))
    simp only [List.map_cons, List.flatten_cons, List.cons_append, stripLoop, List.append_eq]
    rw [← ih1]
    unfold reMatch
    by_cases hr : a.1 = CharReset
    · rw [if_pos hr, if_pos hr]
      exact stripLoop_text _ _ hta
    · have hcol : a.1 = CharColor := by
        simp only [isReMarker, Bool.decide_or, Bool.or_eq_true, decide_eq_true_eq] at ha
        rcases ha with h | h
        · exact h
        · exact absurd h hr
      rw [if_neg hr, if_neg hr, if_pos hcol, stripLoop_drop, directiveLength_append _ _ htail,
        List.drop_append_of_le_length (directiveLength_le a.2), reMatchColor_g5]
      apply stripLoop_text
      intro x hx
      exact hta x (List.mem_of_mem_drop hx)

theorem texts_cut (s : Str) :
    ((reFindAll s).map (fun m => m.g5)).flatten = (cut isReMarker s).1 ++
      (((cut isReMarker s).2.map (fun x => reMatch x.1 x.2)).map (fun m => m.g5)).flatten := by
  cases s with
  | nil => rfl
  | cons c cs =>
    unfold reFindAll
    simp only []
    by_cases hc : isReMarker c = true
    · rw [if_pos hc]
      simp only [cut, if_pos hc, List.nil_append]
    · rw [if_neg hc]
      simp only [List.map_cons, List.flatten_cons]

/-- The texts of the matches of `re`, in order, are the line without its
directives. -/
theorem texts_eq_strip (s : Str) :
    ((reFindAll s).map (fun m => m.g5)).flatten = stripDirectives s := by
  obtain ⟨hc1, hc2⟩ := cut_clean isReMarker s
  rw [texts_cut]
  unfold stripDirectives
  rw [← stripLoop_pieces _ (cut_markers isReMarker s) hc2, ← stripLoop_text _ _ hc1,
    cut_partition isReMarker s]

/-- No colour or reset byte is left in the texts of the matches. -/
theorem texts_no_marker (s : Str) :
    ∀ x ∈ ((reFindAll s).map (fun m => m.g5)).flatten, x ≠ CharColor ∧ x ≠ CharReset := by
  obtain ⟨hc1, hc2⟩ := cut_clean isReMarker s
  have key : ∀ x ∈ ((reFindAll s).map (fun m => m.g5)).flatten, isReMarker x = false := by
    rw [texts_cut]
    intro x hx
    rcases List.mem_append.mp hx with h1 | h1
    · exact hc1 x h1
    · obtain ⟨g, hg, hxg⟩ := List.mem_flatten.mp h1
      obtain ⟨m, hm, he⟩ := List.mem_map.mp hg
      obtain ⟨y, hy, hey⟩ := List.mem_map.mp hm
      apply hc2 y hy
      rw [← he, ← hey] at hxg
      unfold reMatch at hxg
      split_ifs at hxg
      · exact hxg
      · rw [reMatchColor_g5] at hxg
        exact List.mem_of_mem_drop hxg
  intro x hx
  have := key x hx
  simp only [isReMarker, Bool.decide_or, Bool.or_eq_false_iff, decide_eq_false_iff_not] at this
  exact this

/-! ## A single colour region around the text of a token -/

theorem colorMarkups_append (a b : List Chunk) :
    colorMarkups (a ++ b) = colorMarkups a ++ colorMarkups b := by
  simp [colorMarkups]

theorem colorMarkups_text (x : Str) : colorMarkups [Chunk.text x] = [] := rfl

theorem colorMarkups_style (t : Tag) (b : Bool) (h : t.char ≠ CharColor) :
    colorMarkups [Chunk.markup t b] = [] := by
  simp [colorMarkups, Chunk.isColor, h]

theorem colorMarkups_closes (l : List Tag) (h : ∀ u ∈ l, u.char ≠ CharColor) :
    colorMarkups (l.map (fun t => Chunk.markup t true)) = [] := by
  induction l with
  | nil => rfl
  | cons t l ih =>
    have e : (t :: l).map (fun t => Chunk.markup t true) =
        [Chunk.markup t true] ++ l.map (fun t => Chunk.markup t true) := rfl
    rw [e, colorMarkups_append, colorMarkups_style t true (h t (List.mem_cons_self _ _)),
      ih (fun u hu => h u (List.mem_cons_of_mem _ hu))]
    rfl

/-- The style toggler leaves a colour tag at the bottom of the stack in place
and writes no colour markup. -/
theorem toggleTag_region (st st1 : State) (c : Char) (T : Tag) (rest : List Tag)
    (hcol : c ≠ CharColor) (hT : T.char = CharColor) (ht : st.tags = T :: rest)
    (hr : ∀ u ∈ rest, u.char ≠ CharColor) (hl : st.tags.length ≤ 127)
    (hs : toggleTag st c = some st1) :
    ∃ rest1 body, st1.tags = T :: rest1 ∧ (∀ u ∈ rest1, u.char ≠ CharColor) ∧
      st1.conv = st.conv ++ body ∧ colorMarkups body = [] := by
  unfold toggleTag at hs
  by_cases ho : st.opened c = true
  · rw [if_pos ho] at hs
    rcases GetLastTagIndex_exact st.tags c hl with ⟨hg, _⟩ | ⟨p1, t, p2, htags, htc, _, hg⟩
    · rw [hg] at hs
      simp only [CloseTag_neg, Option.map_some', Option.some.injEq] at hs
      rw [← hs]
      exact ⟨rest, [], ht, hr, (List.append_nil _).symm, rfl⟩
    · rw [hg] at hs
      simp only [CloseTag_exact st p1 p2 t htags hl, Option.map_some', Option.some.injEq] at hs
      rw [← hs]
      have htcol : t.char ≠ CharColor := by rw [htc]; exact hcol
      cases p1 with
      | nil =>
        rw [ht] at htags
        simp only [List.nil_append, List.cons.injEq] at htags
        rw [htags.1] at hT
        exact absurd hT htcol
      | cons a p1 =>
        rw [ht] at htags
        simp only [List.cons_append, List.cons.injEq] at htags
        refine ⟨p1 ++ p2, [Chunk.markup t true], ?_, ?_, rfl, colorMarkups_style t true htcol⟩
        · simp only [State.flip, List.cons_append]
          rw [htags.1]
        · intro u hu
          apply hr u
          rw [htags.2]
          rcases List.mem_append.mp hu with h1 | h1
          · exact List.mem_append_left _ h1
          · exact List.mem_append_right _ (List.mem_cons_of_mem _ h1)
  · rw [if_neg ho] at hs
    simp only [Option.some.injEq] at hs
    rw [← hs]
    refine ⟨rest ++ [⟨c, ⟨0, 0⟩⟩], [Chunk.markup ⟨c, ⟨0, 0⟩⟩ false], ?_, ?_, rfl,
      colorMarkups_style _ false hcol⟩
    · simp only [AddFormatTag, AddTag, Tag.ToString, State.flip, ht, List.cons_append]
    · intro u hu
      rcases List.mem_append.mp hu with h1 | h1
      · exact hr u h1
      · simp only [List.mem_singleton] at h1
        rw [h1]
        exact hcol

theorem toggleLoop_region {i : Nat} (ms : List (Str × Str)) {st : State} (h : LineInv i st)
    (hm : ∀ m ∈ ms, m.1 = [] ∨ ∃ c, m.1 = [c] ∧ isRe2Marker c = true) (hi : i + 3 ≤ 127)
    (T : Tag) (rest : List Tag) (hT : T.char = CharColor) (ht : st.tags = T :: rest)
    (hr : ∀ u ∈ rest, u.char ≠ CharColor) :
    ∃ st1 rest1 body, toggleLoop st ms = some st1 ∧ LineInv i st1 ∧ st1.tags = T :: rest1 ∧
      (∀ u ∈ rest1, u.char ≠ CharColor) ∧ st1.conv = st.conv ++ body ∧
      colorMarkups body = [] := by
  induction ms generalizing st rest with
  | nil => exact ⟨st, rest, [], rfl, h, ht, hr, (List.append_nil _).symm, rfl⟩
  | cons m ms ih =>
    have hlen : st.tags.length ≤ 127 := le_trans h.length_le hi
    obtain ⟨s1, hs1, hinv, _⟩ := toggleStep_inv h m (hm m (List.mem_cons_self _ _)) hi
    have step : ∃ rest1 body, s1.tags = T :: rest1 ∧ (∀ u ∈ rest1, u.char ≠ CharColor) ∧
        s1.conv = st.conv ++ body ∧ colorMarkups body = [] := by
      have hs := hs1
      unfold toggleStep at hs
      rcases hm m (List.mem_cons_self _ _) with e | ⟨c, e, hc⟩
      · rw [e] at hs
        simp only [Option.some.injEq] at hs
        rw [← hs]
        exact ⟨rest, [Chunk.text m.2], ht, hr, rfl, rfl⟩
      · rw [e] at hs
        simp only [] at hs
        obtain ⟨sa, hsa, hsb⟩ := Option.map_eq_some'.mp hs
        obtain ⟨rest1, body, h1, h2, h3, h4⟩ :=
          toggleTag_region st sa c T rest (marker_ne_color c hc) hT ht hr hlen hsa
        rw [← hsb]
        refine ⟨rest1, body ++ [Chunk.text m.2], h1, h2, ?_, ?_⟩
        · simp only [State.write, h3, List.append_assoc]
        · rw [colorMarkups_append, h4]
          rfl
    obtain ⟨rest1, body1, h1, h2, h3, h4⟩ := step
    obtain ⟨s2, rest2, body2, g1, g2, g3, g4, g5, g6⟩ :=
      ih hinv (fun x hx => hm x (List.mem_cons_of_mem _ hx)) rest1 h1 h2
    simp only [toggleLoop, hs1]
    refine ⟨s2, rest2, body1 ++ body2, g1, g2, g3, g4, ?_, ?_⟩
    · rw [g5, h3, List.append_assoc]
    · rw [colorMarkups_append, h4, g6]
      rfl

theorem GetState_new (cc : ColorCode) (h : visible cc.fg) :
    cc.GetState ⟨ColorNone, ColorNone⟩ = StateNew := by
  unfold visible at h
  unfold ColorCode.GetState
  simp only []
  rw [if_neg (by tauto), if_pos ⟨trivial, trivial⟩]

theorem directive_new (st : State) (i : Int) (c : FormatCode) (hc : c.char = CharColor)
    (hf : visible c.color.fg) (hsp : TrimSpace c.text ≠ []) (ht : st.tags = []) :
    directive st i c = some (AddTag st ⟨CharColor, c.color⟩) := by
  have hnew : c.color.GetState (GetCurrentColor st.tags) = StateNew := by
    rw [ht, GetCurrentColor_nil]
    exact GetState_new c.color hf
  have h1 : closeTags st i c = some st := by
    unfold closeTags
    simp only [hnew]
    rw [if_neg (by decide), if_neg (by decide)]
  have hlen : ¬ (TrimSpace c.text).length = 0 := fun e => hsp (List.length_eq_zero.mp e)
  have h2 : openTags st c = AddTag st ⟨CharColor, c.color⟩ := by
    unfold openTags
    simp only [hnew]
    rw [if_pos (Or.inr trivial)]
    simp only [hlen, decide_False, Bool.false_eq_true, if_false]
    unfold AddColorTag
    have hv : (c.color.fg ≠ ColorNone ∧ c.color.fg ≠ ColorTransp) ∨
        (c.color.bg ≠ ColorNone ∧ c.color.bg ≠ ColorTransp) := Or.inl hf
    rw [if_pos hv]
  unfold directive
  rw [if_pos hc, h1, Option.map_some', h2]

/-- A colour token with a visible foreground and a text that is not white space
only, converted on an empty tag stack with no style flag set, and the reset at
the end of the line: one colour region around what the text writes. -/
theorem single_region (cs : List FormatCode) (i : Int) (c : FormatCode)
    (hc : c.char = CharColor) (hf : visible c.color.fg) (hsp : TrimSpace c.text ≠ []) :
    ∃ st3 st4 inner, ConvertFormatCode ⟨cs, [], [], fun _ => false⟩ i c = some st3 ∧
      Reset st3 false = some st4 ∧
      st4.conv = Chunk.markup ⟨CharColor, c.color⟩ false :: inner ++
        [Chunk.markup ⟨CharColor, c.color⟩ true] ∧
      colorMarkups inner = [] := by
  have hinv : LineInv 1 (AddTag ⟨cs, [], [], fun _ => false⟩ ⟨CharColor, c.color⟩) := by
    refine ⟨rfl, ?_, ?_, ?_⟩
    · intro t ht
      simp only [AddTag, Tag.ToString, List.nil_append, List.mem_singleton] at ht
      left
      rw [ht]
    · intro d hd
      simp only [AddTag, Tag.ToString, List.nil_append]
      rw [kindCount_cons, kindCount_nil, if_neg (fun e => marker_ne_color d hd e.symm)]
      exact Nat.zero_le _
    · simp only [AddTag, Tag.ToString, List.nil_append]
      rw [kindCount_cons, kindCount_nil, if_pos rfl]
  obtain ⟨st3, rest1, body, h3, inv3, ht3, hr3, hc3, hb3⟩ :=
    toggleLoop_region (re2FindAll c.text) hinv (re2FindAll_markers c.text) (by decide)
      ⟨CharColor, c.color⟩ [] rfl rfl (fun u hu => by cases hu)
  have hlen : st3.tags.length ≤ 127 := le_trans inv3.length_le (by decide)
  refine ⟨st3, _, body ++ rest1.reverse.map (fun t => Chunk.markup t true), ?_,
    Reset_exact st3 hlen, ?_, ?_⟩
  · unfold ConvertFormatCode
    rw [directive_new _ i c hc hf hsp rfl, Option.some_bind]
    exact h3
  · simp only [hc3, ht3, AddTag, Tag.ToString, List.reverse_cons, List.map_append, List.map_cons,
      List.map_nil, List.nil_append, List.cons_append, List.append_assoc]
  · rw [colorMarkups_append, hb3,
      colorMarkups_closes rest1.reverse (fun u hu => hr3 u (List.mem_reverse.mp hu))]
    rfl

theorem dropTrailing_single (c : FormatCode) (h : c.text ≠ []) : dropTrailing [c] = [c] := by
  have : ¬ c.text.length = 0 := fun e => h (List.length_eq_zero.mp e)
  simp [dropTrailing, this]

theorem TrimSpace_nil : TrimSpace [] = [] := rfl

theorem render_region (T : Tag) (hT : T.char = CharColor) (inner : List Chunk) :
    render (Chunk.markup T false :: inner ++ [Chunk.markup T true]) =
      "<span class=".toList ++ [dquote] ++ classSpec T.color ++ [dquote, '>'] ++ render inner ++
        "</span>".toList := by
  have e : Chunk.markup T false :: inner ++ [Chunk.markup T true] =
      [Chunk.markup T false] ++ (inner ++ [Chunk.markup T true]) := rfl
  rw [e, render_append, render_append]
  have e1 : render [Chunk.markup T false] = T.markup false := by simp [render, Chunk.render]
  have e2 : render [Chunk.markup T true] = T.markup true := by simp [render, Chunk.render]
  rw [e1, e2, markup_color_open T hT, markup_color_close T hT]
  simp only [List.append_assoc]

/-! ## Theorems for the claims -/

/-- C1: a line that contains none of the five control bytes (the empty line
included) is returned unchanged by `ConvertLine`, in every package state with
an empty tag stack (the initial state is one). -/
theorem ConvertLine_no_control (st : State) (s : Str) (ht : st.tags = [])
    (h : ∀ c ∈ s, c ≠ CharColor ∧ c ≠ CharReset ∧ c ≠ CharBold ∧ c ≠ CharItalic ∧
      c ≠ CharUnderline) :
    (ConvertLine st s).map Prod.snd = some s := by
  have h1 : ∀ c ∈ s, isReMarker c = false := by
    intro c hc
    have := h c hc
    simp [isReMarker, this.1, this.2.1]
  rw [ConvertLine_no_directive st s ht h1]
  rfl

theorem ConvertLine_no_control_witness :
    (ConvertLine State.init "abc".toList).map Prod.snd = some "abc".toList ∧
    (ConvertLine State.init []).map Prod.snd = some [] :=
  ⟨ConvertLine_no_control State.init "abc".toList rfl (by decide),
   ConvertLine_no_control State.init [] rfl (by simp)⟩

/-- C2 (refuted as stated): on the line reset, bold, `a`, italic, `b`, bold,
`c` the call returns `[b]a[i]b[/b]c[/i]`: the bold region is closed while the
italic region opened after it is still open, so the markup written is not
properly nested. -/
theorem ConvertLine_not_nested :
    (ConvertLine State.init "\x0f\x02a\x1db\x02c".toList).map
        (fun r => (r.2, properlyNested r.1.conv)) =
      some ("[b]a[i]b[/b]c[/i]".toList, false) := by
  decide!

/-- C2 (amended): for a line that `re` cuts into at most 124 matches and whose
colour bytes are all followed by a foreground number other than 99,
`ConvertLine` returns, and in the markup it writes every region opened is
closed exactly once: a colour region when it is the innermost open region, a
style region when it is the innermost open region of its kind (so style
regions may cross other regions); nothing is left open at the end of the
line. -/
theorem ConvertLine_closed_by_kind (s : Str) (hn : (reFindAll s).length ≤ 124)
    (hfg : ∀ m ∈ reFindAll s, m.g2 ≠ [] → visible ((ParseInt8 m.g3).getD ColorNone)) :
    ∃ r, ConvertLine State.init s = some r ∧ r.2 = render r.1.conv ∧
      closedByKind r.1.conv = true := by
  obtain ⟨st1, h1, hlen1, hc1⟩ := tokenLoop_total (reFindAll s) ⟨[], [], [], fun _ => false⟩ 0
    (by simp only [List.length_nil]; omega) hfg (fun c hc => by cases hc)
  obtain ⟨ht1, hr1⟩ := tokenLoop_run (reFindAll s) _ st1 0 [] h1 rfl
  simp only [List.length_nil] at hlen1
  have ht1' : st1.tags = [] := ht1
  obtain ⟨hdl, hdm⟩ := dropTrailing_sub st1.codes
  have inv2 : LineInv 0
      ⟨dropTrailing st1.codes, st1.tags, st1.conv, fun _ => false⟩ := by
    refine ⟨?_, ?_, ?_, ?_⟩
    · simp only [ht1', List.reverse_nil]
      exact hr1
    · intro t ht
      simp only [ht1'] at ht
      cases ht
    · intro c _
      simp only [ht1', kindCount_nil]
      exact Nat.zero_le _
    · simp only [ht1', kindCount_nil]
      exact le_refl _
  obtain ⟨st3, h3, inv3⟩ := codeLoop_inv (dropTrailing st1.codes) inv2 (by omega)
    (by simp only []; omega) (fun c hc => hc1 c (hdm c hc))
  obtain ⟨st4, h4, inv4, _⟩ := Reset_inv inv3 (by omega)
  have ht4 : st4.tags = [] := Reset_tags st3 st4 false h4
  refine ⟨(st4, render st4.conv), ?_, rfl, ?_⟩
  · unfold ConvertLine
    simp only [State.init, h1, h3, h4]
  · have := inv4.run
    rw [ht4] at this
    simp only [closedByKind, decide_eq_true_eq]
    exact this

theorem ConvertLine_closed_by_kind_witness :
    ∃ r, ConvertLine State.init "\x0f\x02a\x1db\x02c\x0304,05d".toList = some r ∧
      r.2 = render r.1.conv ∧ closedByKind r.1.conv = true :=
  ConvertLine_closed_by_kind "\x0f\x02a\x1db\x02c\x0304,05d".toList (by decide!) (by decide!)

/-- C3 (as the code behaves): the scenario line converts to the literal
`Hello ` (the colour directive with foreground 1 that opens the line is
dropped), then `World` in a foreground-4 region, then plain `!`. -/
theorem convert_scenario :
    convert "\x0301Hello \x0304World\x0f!".toList =
      some "Hello <span class=\"fc4\">World</span>!".toList := by
  decide!

/-- C3 (refuted as stated): the scenario line does not convert to
`<span class="fc1">Hello </span><span class="fc4">World</span>!`. -/
theorem convert_scenario_not_spec :
    convert "\x0301Hello \x0304World\x0f!".toList ≠
      some "<span class=\"fc1\">Hello </span><span class=\"fc4\">World</span>!".toList := by
  decide!

/-- C4: `GetState` never returns the unnamed zero state and agrees with the
classifier of the specification on every pair of colour codes. -/
theorem GetState_eq_classifySpec (c a : ColorCode) :
    c.GetState a ≠ StateZero ∧ c.GetState a = classifySpec c a := by
  constructor
  · unfold ColorCode.GetState
    simp only []
    split_ifs <;> simp
  · unfold ColorCode.GetState classifySpec
    simp only [decide_eq_true_eq, ne_eq, decide_not, Bool.not_eq_true', decide_eq_false_iff_not]
    split_ifs <;> first | rfl | (exfalso; tauto)

/-- C5 (the code faults): on `line129` the merge pass finds the previous colour
token at index 127 of `codes`, and the slice `codes[p+1:]` is taken at
`Index(127) + 1 = -128`: `ConvertLine` panics. -/
theorem convert_line129_panics : convert line129 = none := by
  decide!

/-- C6 (the code leaves the markers in place): a line that begins with text,
here a bold marker, the text `hi` and a bold marker, is one match of `re`
without directive and is written to the output as it is; after a reset byte the
same run goes through the style toggler. -/
theorem convert_bold_run :
    convert "\x02hi\x02".toList = some "\x02hi\x02".toList ∧
    convert "\x0f\x02hi\x02".toList = some "[b]hi[/b]".toList := by
  decide!

/-- C7: after any sequence of calls that return, started in the initial package
state, the tag stack is empty; every call clears the builder, the token list
and the open flags before use; so a further call on a line `s` behaves as the
first call of the program on `s` and returns the same string. -/
theorem ConvertLine_stateless (ls : List Str) (st : State) (s : Str)
    (h : ConvertLines State.init ls = some st) :
    st.tags = [] ∧
    ConvertLine st s = ConvertLine ⟨[], st.tags, [], fun _ => false⟩ s ∧
    ConvertLine st s = ConvertLine State.init s ∧
    (ConvertLine st s).map Prod.snd = convert s := by
  have ht : st.tags = [] := ConvertLines_tags ls State.init st rfl h
  have hc : ConvertLine st s = ConvertLine State.init s := by
    rw [ConvertLine_cleared st s, ht]
    rfl
  exact ⟨ht, ConvertLine_cleared st s, hc, by rw [hc]; rfl⟩

theorem ConvertLine_stateless_witness :
    (ConvertLine
        ⟨[⟨0, CharColor, ['a'], ⟨4, -1⟩⟩], [],
          [Chunk.markup ⟨CharColor, ⟨4, -1⟩⟩ false, Chunk.text ['a'],
            Chunk.markup ⟨CharColor, ⟨4, -1⟩⟩ true], fun _ => false⟩
        "\x0305b".toList).map Prod.snd = convert "\x0305b".toList :=
  (ConvertLine_stateless ["\x0304a".toList] _ "\x0305b".toList (by rfl)).2.2.2

/-- C8 (refuted as stated): within the conditions of the claim the output is
not always one colour region with the foreground `f2`.  With the text a single
space the region has the background only; with the empty text nothing is
written; with `f2 = 99` the region has no foreground class. -/
theorem merge_collapse_no_region :
    convert "\x0304,05\x0307 ".toList = some "<span class=\"bc5\"> </span>".toList ∧
    convert "\x0304,05\x0307".toList = some [] ∧
    convert "\x0304,05\x0399text".toList = some "<span class=\"bc5\">text</span>".toList := by
  decide!

/-- C8 (amended): for two-digit groups `f1 = a1 a2`, `b1 = b1 b2`, `f2 = c1 c2`
and a text `t` without colour or reset byte that does not begin with a comma
followed by a digit, the line `\x03 f1 , b1 \x03 f2 t` leaves the merge pass
with the single token of foreground `f2` and background `b1`, and it converts
to the same output as the line `\x03 f2 , b1 t`; both calls return.  When
moreover `t` is not empty or white space only and `f2` is not 99, the output is
one colour region with the foreground `f2` and the background `b1`: the opening
markup of the colour tag `(f2, b1)`, with the class list of that colour, then
what the text writes, with no colour markup in it, then the closing markup of
that tag. -/
theorem merge_collapse (a1 a2 b1 b2 c1 c2 : Char) (t : Str)
    (h1 : a1.isDigit = true) (h2 : a2.isDigit = true) (h3 : b1.isDigit = true)
    (h4 : b2.isDigit = true) (h5 : c1.isDigit = true) (h6 : c2.isDigit = true)
    (ht : ∀ x ∈ t, x ≠ CharColor ∧ x ≠ CharReset)
    (hc : ∀ d r, t = ',' :: d :: r → d.isDigit = false) :
    convert (CharColor :: a1 :: a2 :: ',' :: b1 :: b2 :: CharColor :: c1 :: c2 :: t) =
      convert (CharColor :: c1 :: c2 :: ',' :: b1 :: b2 :: t) ∧
    (∃ out, convert (CharColor :: c1 :: c2 :: ',' :: b1 :: b2 :: t) = some out) ∧
    (∃ n, tokenLoop ⟨[], [], [], fun _ => false⟩ 0
        (reFindAll (CharColor :: a1 :: a2 :: ',' :: b1 :: b2 :: CharColor :: c1 :: c2 :: t)) =
      some ⟨[⟨n, CharColor, t,
        ⟨(ParseInt8 [c1, c2]).getD ColorNone, (ParseInt8 [b1, b2]).getD ColorNone⟩⟩], [], [],
        fun _ => false⟩) ∧
    (TrimSpace t ≠ [] → (ParseInt8 [c1, c2]).getD ColorNone ≠ ColorTransp →
      ∃ st inner,
        ConvertLine State.init
            (CharColor :: a1 :: a2 :: ',' :: b1 :: b2 :: CharColor :: c1 :: c2 :: t) =
          some (st, render st.conv) ∧
        st.conv =
          Chunk.markup ⟨CharColor,
              ⟨(ParseInt8 [c1, c2]).getD ColorNone, (ParseInt8 [b1, b2]).getD ColorNone⟩⟩ false ::
            inner ++
          [Chunk.markup ⟨CharColor,
              ⟨(ParseInt8 [c1, c2]).getD ColorNone, (ParseInt8 [b1, b2]).getD ColorNone⟩⟩ true] ∧
        colorMarkups inner = [] ∧
        visible ((ParseInt8 [c1, c2]).getD ColorNone) ∧
        render st.conv =
          "<span class=".toList ++ [dquote] ++
            classSpec ⟨(ParseInt8 [c1, c2]).getD ColorNone,
              (ParseInt8 [b1, b2]).getD ColorNone⟩ ++
            [dquote, '>'] ++ render inner ++ "</span>".toList) := by
  have ht1 : ∀ x ∈ t, isReMarker x = false := by
    intro x hx
    have := ht x hx
    simp [isReMarker, this.1, this.2]
  obtain ⟨hA, hB⟩ := tokenLoop_merge a1 a2 b1 b2 c1 c2 t h1 h2 h3 h4 h5 h6 ht1 hc
  refine ⟨?_, ?_, ⟨_, hA⟩, ?_⟩
  · rw [convert_emit, convert_emit, hA, hB, Option.some_bind, Option.some_bind]
    exact emit_single_id ⟨toInt8 0, CharColor, t, _⟩ (toInt8 1) [] _
  · rw [convert_emit, hB, Option.some_bind]
    exact emit_single_total _ _ _
  · intro hsp hf
    have hv : visible ((ParseInt8 [c1, c2]).getD ColorNone) := by
      obtain ⟨v, hv1, hv2⟩ := ParseInt8_two c1 c2 h5 h6
      refine ⟨?_, hf⟩
      rw [hv1]
      simp only [Option.getD_some, ColorNone]
      omega
    have htn : t ≠ [] := by
      intro e
      apply hsp
      rw [e]
      rfl
    obtain ⟨st3, st4, inner, g3, g4, g5, g6⟩ :=
      single_region
        [⟨toInt8 1, CharColor, t,
          ⟨(ParseInt8 [c1, c2]).getD ColorNone, (ParseInt8 [b1, b2]).getD ColorNone⟩⟩]
        (toInt8 (0 : Nat))
        ⟨toInt8 1, CharColor, t,
          ⟨(ParseInt8 [c1, c2]).getD ColorNone, (ParseInt8 [b1, b2]).getD ColorNone⟩⟩
        rfl hv hsp
    refine ⟨st4, inner, ?_, g5, g6, hv, ?_⟩
    · apply ConvertLine_of_steps State.init _ st3 st4 _ hA _ g4
      simp only []
      rw [dropTrailing_single _ htn]
      simp only [codeLoop, g3]
    · rw [g5]
      exact render_region _ rfl inner

theorem merge_collapse_witness :
    convert "\x0304,05\x0307text".toList = convert "\x0307,05text".toList ∧
    (∃ st inner,
      ConvertLine State.init "\x0304,05\x0307text".toList = some (st, render st.conv) ∧
      st.conv = Chunk.markup ⟨CharColor, ⟨7, 5⟩⟩ false :: inner ++
        [Chunk.markup ⟨CharColor, ⟨7, 5⟩⟩ true] ∧
      colorMarkups inner = [] ∧ visible 7 ∧
      render st.conv =
        "<span class=".toList ++ [dquote] ++ classSpec ⟨7, 5⟩ ++ [dquote, '>'] ++
          render inner ++ "</span>".toList) ∧
    convert "\x0304,05\x0307text".toList = some "<span class=\"fc7 bc5\">text</span>".toList :=
  ⟨(merge_collapse '0' '4' '0' '5' '0' '7' "text".toList rfl rfl rfl rfl rfl rfl
      (by decide) (by intro d r h; cases h)).1,
    (merge_collapse '0' '4' '0' '5' '0' '7' "text".toList rfl rfl rfl rfl rfl rfl
      (by decide) (by intro d r h; cases h)).2.2.2 (by decide) (by decide),
    by decide!⟩

/-- C9: for a colour token whose text is empty or white space only, processed
by `ConvertFormatCode` in any state, what the call writes contains at most one
opening markup, and a region it opens is a colour region with the foreground
unset and a visible background; and the line `\x0304 \x0305text` converts to
` <span class="fc5">text</span>`, with no span around the space. -/
theorem ConvertFormatCode_space :
    (∀ (st st1 : State) (i : Int) (c : FormatCode), c.char = CharColor →
      (∀ x ∈ c.text, isSpace x = true) → ConvertFormatCode st i c = some st1 →
      ∃ added, st1.conv = st.conv ++ added ∧ (added.filter Chunk.isOpen).length ≤ 1 ∧
        ∀ t, Chunk.markup t false ∈ added →
          t.char = CharColor ∧ t.color.fg = ColorNone ∧ visible t.color.bg) ∧
    convert "\x0304 \x0305text".toList = some " <span class=\"fc5\">text</span>".toList := by
  refine ⟨?_, by decide!⟩
  intro st st1 i c hc hsp h
  unfold ConvertFormatCode at h
  simp only [Option.bind_eq_some] at h
  obtain ⟨sb, hb, ht⟩ := h
  rw [toggleLoop_space sb c.text hsp, Option.some.injEq] at ht
  subst ht
  unfold directive at hb
  rw [if_pos hc, Option.map_eq_some'] at hb
  obtain ⟨sa, ha, he⟩ := hb
  obtain ⟨_, _, _, ad, hv, hcl⟩ := closeTags_closes _ _ _ _ ha
  have hf : ad.filter Chunk.isOpen = [] := by
    rw [List.filter_eq_nil_iff]
    intro ch hch
    obtain ⟨t, _, hte⟩ := hcl ch hch
    rw [hte]
    simp [Chunk.isOpen]
  have hno : ∀ t, Chunk.markup t false ∉ ad := by
    intro t hm
    obtain ⟨u, _, hte⟩ := hcl _ hm
    cases hte
  rcases openTags_space sa c hsp with ho | ⟨hvis, ho⟩
  · refine ⟨ad ++ [Chunk.text c.text], ?_, ?_, ?_⟩
    · rw [← he, ho]
      simp [State.write, hv]
    · simp [List.filter_append, hf, Chunk.isOpen]
    · intro t hm
      rcases List.mem_append.mp hm with h1 | h1
      · exact absurd h1 (hno t)
      · simp at h1
  · refine ⟨ad ++ [Chunk.markup ⟨CharColor, ⟨ColorNone, c.color.bg⟩⟩ false, Chunk.text c.text],
      ?_, ?_, ?_⟩
    · rw [← he, ho]
      simp [State.write, AddTag, Tag.ToString, hv]
    · simp [List.filter_append, hf, Chunk.isOpen, List.filter_cons]
    · intro t hm
      rcases List.mem_append.mp hm with h1 | h1
      · exact absurd h1 (hno t)
      · simp only [List.mem_cons, Chunk.markup.injEq, and_true, List.mem_singleton,
          List.not_mem_nil, or_false] at h1
        rcases h1 with h1 | h1
        · rw [h1]
          exact ⟨rfl, rfl, hvis⟩
        · cases h1

theorem ConvertFormatCode_space_witness :
    ∃ added,
      [Chunk.markup ⟨CharColor, ⟨-1, 5⟩⟩ false, Chunk.text [' ']] = State.init.conv ++ added ∧
      (added.filter Chunk.isOpen).length ≤ 1 ∧
      ∀ t, Chunk.markup t false ∈ added →
        t.char = CharColor ∧ t.color.fg = ColorNone ∧ visible t.color.bg :=
  ConvertFormatCode_space.1 State.init
    ⟨[], [⟨CharColor, ⟨-1, 5⟩⟩], [Chunk.markup ⟨CharColor, ⟨-1, 5⟩⟩ false, Chunk.text [' ']],
      fun _ => false⟩
    0 ⟨0, CharColor, [' '], ⟨4, 5⟩⟩ rfl (by decide) (by rfl)

/-- C10: in a call of `ConvertLine` (in a state with an empty tag stack, as the
initial one) every colour tag whose markup is written, so every colour region
pushed on the stack, has a component that is neither unset nor transparent; its
opening markup is `<span class="C">` with `C` the non-empty class list of the
specification, and its closing markup is `</span>`. -/
theorem ConvertLine_color_markup (st0 : State) (s : Str) (r : State × Str)
    (h0 : st0.tags = []) (h : ConvertLine st0 s = some r)
    (t : Tag) (close : Bool) (hm : Chunk.markup t close ∈ r.1.conv) (hc : t.char = CharColor) :
    r.2 = render r.1.conv ∧
    (visible t.color.fg ∨ visible t.color.bg) ∧
    classSpec t.color ≠ [] ∧
    t.markup false = "<span class=".toList ++ [dquote] ++ classSpec t.color ++ [dquote, '>'] ∧
    t.markup true = "</span>".toList := by
  have v0 : visible 0 := by unfold visible; decide
  have hg := @ConvertLine_good colorVisible st0 s r h0
    (fun c _ => Or.inl v0) (fun f b hv _ => hv) h
  have hv : visible t.color.fg ∨ visible t.color.bg := hg.1.2 t close hm hc
  exact ⟨hg.2, hv, classSpec_ne_nil _ hv, markup_color_open t hc, markup_color_close t hc⟩

theorem ConvertLine_color_markup_witness :
    (visible (4 : Int) ∨ visible (-1 : Int)) ∧
    (⟨CharColor, ⟨4, -1⟩⟩ : Tag).markup true = "</span>".toList :=
  have h := ConvertLine_color_markup State.init "\x0304a".toList
    (⟨[⟨0, CharColor, ['a'], ⟨4, -1⟩⟩], [],
        [Chunk.markup ⟨CharColor, ⟨4, -1⟩⟩ false, Chunk.text ['a'],
          Chunk.markup ⟨CharColor, ⟨4, -1⟩⟩ true], fun _ => false⟩,
      "<span class=\"fc4\">a</span>".toList)
    rfl (by rfl) ⟨CharColor, ⟨4, -1⟩⟩ false (List.mem_cons_self _ _) rfl
  ⟨h.2.1, h.2.2.2.2⟩

/-- C11: for texts `s` and `t` without any of the five control bytes, the line
`s`, reset byte, `t` converts to `s ++ t`; the call writes texts only, no
markup, and ends with an empty tag stack. -/
theorem reset_without_directive (s t : Str)
    (hs : ∀ c ∈ s, c ≠ CharColor ∧ c ≠ CharReset ∧ c ≠ CharBold ∧ c ≠ CharItalic ∧
      c ≠ CharUnderline)
    (ht : ∀ c ∈ t, c ≠ CharColor ∧ c ≠ CharReset ∧ c ≠ CharBold ∧ c ≠ CharItalic ∧
      c ≠ CharUnderline) :
    ∃ st, ConvertLine State.init (s ++ CharReset :: t) = some (st, s ++ t) ∧ st.tags = [] ∧
      ∀ ch ∈ st.conv, ∃ x, ch = Chunk.text x := by
  have hs1 : ∀ c ∈ s, isReMarker c = false := by
    intro c hc
    have := hs c hc
    simp [isReMarker, this.1, this.2.1]
  have ht1 : ∀ c ∈ t, isReMarker c = false := by
    intro c hc
    have := ht c hc
    simp [isReMarker, this.1, this.2.1]
  have ht2 : ∀ c ∈ t, isRe2Marker c = false := by
    intro c hc
    have := ht c hc
    simp [isRe2Marker, this.2.2.1, this.2.2.2.1, this.2.2.2.2]
  cases s with
  | nil =>
    have h1 : tokenLoop ⟨[], [], [], fun _ => false⟩ 0 (reFindAll ([] ++ CharReset :: t)) =
        some ⟨[⟨toInt8 0, CharReset, t, ⟨0, 0⟩⟩], [], [], fun _ => false⟩ := by
      rw [List.nil_append, reFindAll_reset t ht1]
      simp only [tokenLoop, tokenStep_reset]
      rfl
    obtain ⟨st, h2, h3, h4⟩ := finish_reset [] _ _ t _ _ ht2 h1
    refine ⟨st, by simpa [render] using h2, h3, ?_⟩
    intro ch hch
    rcases h4 with e | e
    · rw [e] at hch; cases hch
    · rw [e] at hch
      simp only [List.nil_append, List.mem_singleton] at hch
      exact ⟨t, hch⟩
  | cons a s =>
    have h1 : tokenLoop ⟨[], [], [], fun _ => false⟩ 0 (reFindAll (a :: s ++ CharReset :: t)) =
        some ⟨[⟨toInt8 1, CharReset, t, ⟨0, 0⟩⟩], [], [Chunk.text (a :: s)], fun _ => false⟩ := by
      rw [reFindAll_text_marker a s CharReset t hs1 (by decide), reFindAll_reset t ht1]
      simp only [tokenLoop, tokenStep_plain, tokenStep_reset]
      rfl
    obtain ⟨st, h2, h3, h4⟩ := finish_reset _ _ _ t _ _ ht2 h1
    refine ⟨st, by simpa [render_text] using h2, h3, ?_⟩
    intro ch hch
    rcases h4 with e | e
    · rw [e] at hch
      simp only [List.mem_singleton] at hch
      exact ⟨_, hch⟩
    · rw [e] at hch
      simp only [List.mem_append, List.mem_singleton] at hch
      rcases hch with h5 | h5
      · exact ⟨_, h5⟩
      · exact ⟨_, h5⟩

theorem reset_without_directive_witness :
    ∃ st, ConvertLine State.init ("ab".toList ++ CharReset :: "cd".toList) =
        some (st, "ab".toList ++ "cd".toList) ∧ st.tags = [] ∧
      ∀ ch ∈ st.conv, ∃ x, ch = Chunk.text x :=
  reset_without_directive "ab".toList "cd".toList (by decide) (by decide)

/-- C12: for a text `t` without colour or reset byte that does not begin with
a comma followed by a digit, the line `\x0301 t` converts to `t`, and so does
the line `\x031 t` when `t` does not begin with a digit either: the call makes
no token and writes the text `t` as it is, with no markup. -/
theorem first_token_rule (t : Str) (ht : ∀ x ∈ t, x ≠ CharColor ∧ x ≠ CharReset)
    (hc : ∀ d r, t = ',' :: d :: r → d.isDigit = false) :
    ConvertLine State.init (CharColor :: '0' :: '1' :: t) =
      some (⟨[], [], [Chunk.text t], fun _ => false⟩, t) ∧
    ((∀ d r, t = d :: r → d.isDigit = false) →
      ConvertLine State.init (CharColor :: '1' :: t) =
        some (⟨[], [], [Chunk.text t], fun _ => false⟩, t)) := by
  have ht1 : ∀ x ∈ t, isReMarker x = false := by
    intro x hx
    have := ht x hx
    simp [isReMarker, this.1, this.2]
  have p01 : ParseInt8 ['0', '1'] = some 1 := by decide
  have p1 : ParseInt8 ['1'] = some 1 := by decide
  constructor
  · apply ConvertLine_written _ t (fun _ => false)
    have hrun : ∀ x ∈ '0' :: '1' :: t, isReMarker x = false := by
      intro x hx
      rcases List.mem_cons.mp hx with h1 | h1
      · rw [h1]; decide
      · rcases List.mem_cons.mp h1 with h2 | h2
        · rw [h2]; decide
        · exact ht1 x h2
    rw [reFindAll_color_run _ hrun, reMatchColor_single '0' '1' t (by decide) (by decide) hc]
    simp only [tokenLoop, tokenStep_color, p01, ParseInt8_nil, Option.getD_some,
      Option.getD_none, colorStep_first]
    rfl
  · intro hd
    apply ConvertLine_written _ t (fun _ => false)
    have hrun : ∀ x ∈ '1' :: t, isReMarker x = false := by
      intro x hx
      rcases List.mem_cons.mp hx with h1 | h1
      · rw [h1]; decide
      · exact ht1 x h1
    rw [reFindAll_color_run _ hrun, reMatchColor_one '1' t (by decide) hd hc]
    simp only [tokenLoop, tokenStep_color, p1, ParseInt8_nil, Option.getD_some,
      Option.getD_none, colorStep_first]
    rfl

theorem first_token_rule_witness :
    ConvertLine State.init (CharColor :: '0' :: '1' :: "[12:00] hi".toList) =
      some (⟨[], [], [Chunk.text "[12:00] hi".toList], fun _ => false⟩, "[12:00] hi".toList) :=
  (first_token_rule "[12:00] hi".toList (by decide) (by intro d r h; cases h)).1

/-- C13 (refuted as stated): a bare colour byte (classified Cancel) processed
while a bold region is on the stack: no closing markup is written for the bold
region, yet the stack is left empty; on the line reset, bold, `a`, colour, `b`
the bold region is never closed. -/
theorem cancel_drops_style :
    (⟨-1, -1⟩ : ColorCode).GetState (GetCurrentColor [⟨CharBold, ⟨0, 0⟩⟩]) = StateCancel ∧
    (ConvertFormatCode ⟨[], [⟨CharBold, ⟨0, 0⟩⟩], [], fun k => k = CharBold⟩ 0
        ⟨0, CharColor, ['b'], ⟨-1, -1⟩⟩).map (fun s => (s.tags, s.conv)) =
      some ([], [Chunk.text ['b']]) ∧
    convert "\x0f\x02a\x03b".toList = some "[b]ab".toList := by
  decide!

/-- C13 (amended): when a colour token classifies as Cancel against the
effective colour, on a stack of at most 127 tags, the directive part of
`ConvertFormatCode` writes the closing markup of every colour region on the
stack, from the innermost to the outermost, and nothing else (no closing markup
for a style region, no opening markup); no colour region is left on the stack;
the style toggler then runs on the text and the call returns. -/
theorem cancel_closes_colors (st : State) (i : Int) (c : FormatCode)
    (hc : c.char = CharColor)
    (hs : c.color.GetState (GetCurrentColor st.tags) = StateCancel)
    (hl : st.tags.length ≤ 127) :
    ∃ sb st1, directive st i c = some sb ∧
      sb.conv = st.conv ++ (st.tags.reverse.filter (fun t => t.char = CharColor)).map
        (fun t => Chunk.markup t true) ∧
      (∀ t ∈ sb.tags, t.char ≠ CharColor) ∧
      toggleLoop sb (re2FindAll c.text) = some st1 ∧
      ConvertFormatCode st i c = some st1 := by
  have hd : directive st i c =
      some ⟨st.codes, [],
        st.conv ++ (st.tags.reverse.filter (fun t => t.char = CharColor)).map
          (fun t => Chunk.markup t true), st.opened⟩ := by
    unfold directive closeTags
    simp only [if_pos hc, hs, if_true]
    rw [Reset_true_exact st hl, Option.map_some']
    rw [openTags_cancel]
    rw [GetCurrentColor_nil]
    exact (GetState_eq_cancel_iff _ _).mpr ((GetState_eq_cancel_iff _ _).mp hs)
  obtain ⟨st1, h1⟩ := toggleLoop_total (re2FindAll c.text)
    ⟨st.codes, [],
      st.conv ++ (st.tags.reverse.filter (fun t => t.char = CharColor)).map
        (fun t => Chunk.markup t true), st.opened⟩
  refine ⟨_, st1, hd, rfl, ?_, h1, ?_⟩
  · intro t ht
    cases ht
  · unfold ConvertFormatCode
    rw [hd, Option.some_bind, h1]

theorem cancel_closes_colors_witness :
    ∃ sb st1,
      directive ⟨[], [⟨CharColor, ⟨4, -1⟩⟩, ⟨CharBold, ⟨0, 0⟩⟩], [], fun k => k = CharBold⟩ 0
        ⟨0, CharColor, ['b'], ⟨-1, -1⟩⟩ = some sb ∧
      sb.conv = [] ++ ([⟨CharColor, ⟨4, -1⟩⟩, ⟨CharBold, ⟨0, 0⟩⟩].reverse.filter
        (fun t : Tag => t.char = CharColor)).map (fun t => Chunk.markup t true) ∧
      (∀ t ∈ sb.tags, t.char ≠ CharColor) ∧
      toggleLoop sb (re2FindAll ['b']) = some st1 ∧
      ConvertFormatCode ⟨[], [⟨CharColor, ⟨4, -1⟩⟩, ⟨CharBold, ⟨0, 0⟩⟩], [],
        fun k => k = CharBold⟩ 0 ⟨0, CharColor, ['b'], ⟨-1, -1⟩⟩ = some st1 :=
  cancel_closes_colors ⟨[], [⟨CharColor, ⟨4, -1⟩⟩, ⟨CharBold, ⟨0, 0⟩⟩], [], fun k => k = CharBold⟩
    0 ⟨0, CharColor, ['b'], ⟨-1, -1⟩⟩ rfl (by decide) (by decide)

/-- C14 (refuted as stated): for the region (4, 5) and the single later token
(6, unset) the code classifies the token against the region (Fg) and keeps
the region, while the decider with the region as the candidate classifies
Both and closes; the line `\x0304,05a\x0306b` shows the region kept open. -/
theorem lookahead_order :
    ShouldCloseColorTag [⟨0, CharColor, ['x'], ⟨6, -1⟩⟩] ⟨CharColor, ⟨4, 5⟩⟩ 0 = some false ∧
    lookaheadSpec true ⟨CharColor, ⟨4, 5⟩⟩ [⟨0, CharColor, ['x'], ⟨6, -1⟩⟩] = true ∧
    convert "\x0304,05a\x0306b".toList =
      some "<span class=\"fc4 bc5\">a<span class=\"fc6\">b</span></span>".toList := by
  decide!

/-- C14 (amended): for a colour region `r`, at most 127 tokens and a start
index that is not negative, `ShouldCloseColorTag` returns the decision of the
lookahead decider in which the later token is the candidate of the classifier
and the region the active colour. -/
theorem ShouldCloseColorTag_eq_lookahead (codes : List FormatCode) (r : Tag) (start : Int)
    (hr : r.char = CharColor) (h0 : 0 ≤ start) (hl : codes.length ≤ 127) :
    ShouldCloseColorTag codes r start =
      some (lookaheadSpec false r (codes.drop start.toNat)) := by
  unfold ShouldCloseColorTag
  rw [toInt8_nat _ hl]
  by_cases h : start ≤ codes.length
  · have hs : ((codes.take start.toNat).length : Int) = start := by
      rw [List.length_take]
      omega
    have hn : ((codes.length : Int) - start).toNat = (codes.drop start.toNat).length := by
      rw [List.length_drop]
      omega
    have key := ShouldCloseColorTagLoop_suffix r hr (codes.drop start.toNat)
      (codes.take start.toNat) codes (List.take_append_drop _ _).symm
    rw [hs] at key
    rw [hn]
    exact key
  · have e : ((codes.length : Int) - start).toNat = 0 := by omega
    have e2 : codes.drop start.toNat = [] := by
      apply List.drop_eq_nil_of_le
      omega
    rw [e, e2]
    rfl

theorem ShouldCloseColorTag_eq_lookahead_witness :
    ShouldCloseColorTag [⟨0, CharColor, ['x'], ⟨6, -1⟩⟩] ⟨CharColor, ⟨4, 5⟩⟩ 0 =
      some (lookaheadSpec false ⟨CharColor, ⟨4, 5⟩⟩
        (([⟨0, CharColor, ['x'], ⟨6, -1⟩⟩] : List FormatCode).drop (0 : Int).toNat)) :=
  ShouldCloseColorTag_eq_lookahead [⟨0, CharColor, ['x'], ⟨6, -1⟩⟩] ⟨CharColor, ⟨4, 5⟩⟩ 0 rfl
    (by decide) (by decide)

/-- C15 (refuted as stated): the text-less token (4, 5) followed by the token
(7, 8), which has a background of its own: the merge discards the first token
and keeps the second as it is; the line `x\x0304,05\x0307,08text` renders the
one region (7, 8). -/
theorem merge_discards_anyway :
    mergeColor [⟨1, CharColor, [], ⟨4, 5⟩⟩] ⟨2, CharColor, ['t'], ⟨7, 8⟩⟩ =
      some [⟨2, CharColor, ['t'], ⟨7, 8⟩⟩] ∧
    convert "x\x0304,05\x0307,08text".toList =
      some "x<span class=\"fc7 bc8\">text</span>".toList := by
  decide!

/-- C15 (amended): with `p` the most recent colour token accepted, among at
most 127 tokens, and `n` the new colour token: `p` is discarded if and only if
its text is empty and its foreground is set, whatever `n` carries; `n` then
takes the background of `p` if its own background is unset and its foreground
is set, and is unchanged if not; when `p` is not discarded both tokens are kept
and `n` is unchanged. -/
theorem merge_discard_rule (pre post : List FormatCode) (p n : FormatCode)
    (hp : p.char = CharColor) (hpost : ∀ u ∈ post, u.char ≠ CharColor)
    (hl : (pre ++ p :: post).length ≤ 127) :
    mergeColor (pre ++ p :: post) n =
      some (if p.text = [] ∧ p.color.fg ≠ ColorNone then
          pre ++ post ++
            [if n.color.bg = ColorNone ∧ n.color.fg ≠ ColorNone then
              { n with color := ⟨n.color.fg, p.color.bg⟩ }
            else n]
        else pre ++ p :: post ++ [n]) := by
  rw [mergeColor_last pre post p n hp hpost hl]
  by_cases hc : p.text = [] ∧ p.color.fg ≠ ColorNone
  · rw [if_pos hc, if_pos ⟨List.length_eq_zero.mpr hc.1, hc.2⟩]
    rfl
  · rw [if_neg hc, if_neg (fun h => hc ⟨List.length_eq_zero.mp h.1, h.2⟩)]

theorem merge_discard_rule_witness :
    mergeColor ([] ++ (⟨1, CharColor, [], ⟨4, 5⟩⟩ : FormatCode) :: [])
        ⟨2, CharColor, ['t'], ⟨7, -1⟩⟩ =
      some (if ([] : Str) = [] ∧ (4 : Int) ≠ ColorNone then
          [] ++ [] ++
            [if (-1 : Int) = ColorNone ∧ (7 : Int) ≠ ColorNone then
              ({ (⟨2, CharColor, ['t'], ⟨7, -1⟩⟩ : FormatCode) with color := ⟨7, 5⟩ } : FormatCode)
            else ⟨2, CharColor, ['t'], ⟨7, -1⟩⟩]
        else [] ++ (⟨1, CharColor, [], ⟨4, 5⟩⟩ : FormatCode) :: [] ++
          [⟨2, CharColor, ['t'], ⟨7, -1⟩⟩]) :=
  merge_discard_rule [] [] ⟨1, CharColor, [], ⟨4, 5⟩⟩ ⟨2, CharColor, ['t'], ⟨7, -1⟩⟩ rfl
    (by simp) (by decide)

/-- C16 (the code merges across a reset): on the line `\x0304,05`, reset,
`hello`, `\x0307world` the first token is discarded although a reset token
lies between it and the new colour token, and the new token takes its
background 5, which the output renders on `world`. -/
theorem merge_across_reset :
    (tokenLoop ⟨[], [], [], fun _ => false⟩ 0
        (reFindAll "\x0304,05\x0fhello\x0307world".toList)).map (fun st => st.codes) =
      some [⟨1, CharReset, "hello".toList, ⟨0, 0⟩⟩, ⟨2, CharColor, "world".toList, ⟨7, 5⟩⟩] ∧
    convert "\x0304,05\x0fhello\x0307world".toList =
      some "hello<span class=\"fc7 bc5\">world</span>".toList := by
  decide!

/-- C17 (the code leaves the flag set): on the line reset, bold, `a`, reset,
`b`, bold, `c` the second reset closes the bold region and empties the stack
but leaves the bold flag set; the toggler at the next bold marker then finds
no bold tag: it writes no markup, removes nothing and clears the flag, and `c`
is written outside any region. -/
theorem toggle_after_reset :
    (Reset ⟨[], [⟨CharBold, ⟨0, 0⟩⟩], [], fun k => k = CharBold⟩ false).map
        (fun s => (s.tags, s.conv, s.opened CharBold)) =
      some ([], [Chunk.markup ⟨CharBold, ⟨0, 0⟩⟩ true], true) ∧
    (toggleTag ⟨[], [], [], fun k => k = CharBold⟩ CharBold).map
        (fun s => (s.tags, s.conv, s.opened CharBold)) = some ([], [], false) ∧
    convert "\x0f\x02a\x0fb\x02c".toList = some "[b]a[/b]bc".toList := by
  decide!

/-- C18: for a line without bold, italic or underline marker that `re` cuts
into at most 127 matches, a call of `ConvertLine` on an empty tag stack
returns; every markup it writes is that of a colour tag; the markup is properly
nested: each closing markup is that of the region on top of the stack, every
region opened is closed once and none is open at the end; and in every prefix
of what is written the closing markups are not more than the opening ones. -/
theorem color_markup_balanced (st0 : State) (s : Str) (h0 : st0.tags = [])
    (hs : ∀ x ∈ s, isRe2Marker x = false) (hn : (reFindAll s).length ≤ 127) :
    ∃ r, ConvertLine st0 s = some r ∧ r.2 = render r.1.conv ∧
      (∀ t b, Chunk.markup t b ∈ r.1.conv → t.char = CharColor) ∧
      properlyNested r.1.conv = true ∧
      ∀ k, ((r.1.conv.take k).filter Chunk.isClose).length ≤
        ((r.1.conv.take k).filter Chunk.isOpen).length := by
  obtain ⟨st1, h1, ht1, hc1, hx, hlen1⟩ := tokenLoop_texts st0.tags st0.opened s hn
  rw [h0] at ht1
  obtain ⟨hdl, hdm⟩ := dropTrailing_sub st1.codes
  have hmark : ∀ c ∈ dropTrailing st1.codes, ∀ x ∈ c.text, isRe2Marker x = false := by
    intro c hc x hxc
    apply hs x
    apply mem_texts_mem_line
    rw [← hx]
    apply List.mem_append_right
    exact mem_textsOf _ c (hdm c hc) x hxc
  have inv2 : NestInv 0 ⟨dropTrailing st1.codes, st1.tags, st1.conv, fun _ => false⟩ := by
    refine ⟨?_, ?_, ?_, ?_⟩
    · simp only [ht1, List.reverse_nil]
      rcases hc1 with e | ⟨x, e⟩ <;> rw [e] <;> rfl
    · intro t ht
      simp only [ht1] at ht
      cases ht
    · intro t b hm
      simp only [] at hm
      rcases hc1 with e | ⟨x, e⟩
      · rw [e] at hm; cases hm
      · rw [e] at hm
        simp only [List.mem_singleton] at hm
        cases hm
    · simp only [ht1, List.length_nil]
      exact le_refl _
  obtain ⟨st3, h3, inv3⟩ := codeLoop_nest (dropTrailing st1.codes) inv2 (by omega)
    (by simp only []; omega) hmark
  obtain ⟨st4, h4, inv4, _⟩ := Reset_nest inv3 false (by omega)
  have ht4 : st4.tags = [] := Reset_tags st3 st4 false h4
  have hrun : runChunks nestStep [] st4.conv = some [] := by
    have := inv4.run
    rw [ht4] at this
    exact this
  refine ⟨(st4, render st4.conv), ?_, rfl, inv4.marks, ?_, ?_⟩
  · exact ConvertLine_of_steps st0 st1 st3 st4 s h1 h3 h4
  · simp only [properlyNested, decide_eq_true_eq]
    exact hrun
  · intro k
    have hsplit : st4.conv = st4.conv.take k ++ st4.conv.drop k :=
      (List.take_append_drop k _).symm
    rw [hsplit] at hrun
    obtain ⟨s2, h2⟩ := runChunks_prefix nestStep _ _ [] [] hrun
    have := nest_counts _ [] s2 h2
    simp only [List.length_nil, Nat.add_zero] at this
    simp only []
    omega

theorem color_markup_balanced_witness :
    ∃ r, ConvertLine State.init "x\x0304,05a\x0306b\x03c".toList = some r ∧
      r.2 = render r.1.conv ∧
      (∀ t b, Chunk.markup t b ∈ r.1.conv → t.char = CharColor) ∧
      properlyNested r.1.conv = true ∧
      ∀ k, ((r.1.conv.take k).filter Chunk.isClose).length ≤
        ((r.1.conv.take k).filter Chunk.isOpen).length :=
  color_markup_balanced State.init "x\x0304,05a\x0306b\x03c".toList rfl (by decide!)
    (by decide!)

/-- C19: on a line that `re` cuts into at most 127 matches, in any package
state, no index or slice expression of the call is out of range (each one is
checked in the embedding, and an expression out of range makes the result
`none`): `ConvertLine` returns.  The token list has at most 127 tokens, and
the conversion to `Index` does not wrap on a token index or on the length of
the token list. -/
theorem ConvertLine_returns (st0 : State) (s : Str) (hn : (reFindAll s).length ≤ 127) :
    (∃ r, ConvertLine st0 s = some r ∧ r.2 = render r.1.conv) ∧
    (∃ st1, tokenLoop { st0 with conv := [], codes := [] } 0 (reFindAll s) = some st1 ∧
      st1.codes.length ≤ 127 ∧ toInt8 st1.codes.length = st1.codes.length ∧
      ∀ i : Nat, i < st1.codes.length → toInt8 i = i) := by
  obtain ⟨st1, st3, st4, h1, hlen, _, _, h5⟩ := ConvertLine_total st0 s hn
  refine ⟨⟨_, h5, rfl⟩, st1, h1, hlen, toInt8_nat _ hlen, ?_⟩
  intro i hi
  exact toInt8_nat i (by omega)

theorem ConvertLine_returns_witness :
    (∃ r, ConvertLine State.init "\x0304,05a\x0306b".toList = some r ∧
      r.2 = render r.1.conv) ∧
    (∃ st1, tokenLoop { State.init with conv := [], codes := [] } 0
        (reFindAll "\x0304,05a\x0306b".toList) = some st1 ∧
      st1.codes.length ≤ 127 ∧ toInt8 st1.codes.length = st1.codes.length ∧
      ∀ i : Nat, i < st1.codes.length → toInt8 i = i) :=
  ConvertLine_returns State.init "\x0304,05a\x0306b".toList (by decide!)

/-- C20: for a line without bold, italic or underline marker that `re` cuts
into at most 127 matches, `ConvertLine` (in any package state) returns, and the
literal texts it writes to the output, in order, concatenate to
`stripDirectives` of the line: the line with every reset byte and every colour
directive (the colour byte with the digit groups and the comma that belong to
it) removed, nothing else dropped, doubled or moved.  No colour or reset byte
is left in them.  They are the texts of the matches of `re`, and the matches,
directive and text, make up the line. -/
theorem text_preserved (st0 : State) (s : Str) (hs : ∀ x ∈ s, isRe2Marker x = false)
    (hn : (reFindAll s).length ≤ 127) :
    ∃ r, ConvertLine st0 s = some r ∧ r.2 = render r.1.conv ∧
      textOf r.1.conv = stripDirectives s ∧
      (∀ x ∈ textOf r.1.conv, x ≠ CharColor ∧ x ≠ CharReset) ∧
      textOf r.1.conv = ((reFindAll s).map (fun m => m.g5)).flatten ∧
      ((reFindAll s).map (fun m => m.directive ++ m.g5)).flatten = s := by
  obtain ⟨st1, st3, st4, h1, _, h3, h4, h5⟩ := ConvertLine_total st0 s hn
  obtain ⟨st1', h1', _, _, hx, _⟩ := tokenLoop_texts st0.tags st0.opened s hn
  have e1 : st1' = st1 := by
    have : some st1' = some st1 := by rw [← h1', ← h1]
    exact Option.some.inj this
  rw [e1] at hx
  have hmark : ∀ c ∈ dropTrailing st1.codes, ∀ x ∈ c.text, isRe2Marker x = false := by
    intro c hc x hxc
    apply hs x
    apply mem_texts_mem_line
    rw [← hx]
    apply List.mem_append_right
    rw [← dropTrailing_texts]
    exact mem_textsOf _ c hc x hxc
  have t3 := codeLoop_textOf (dropTrailing st1.codes) _ st3 0 hmark h3
  have t4 := texts_of_closes (Reset_closes _ _ _ h4)
  have key : textOf st4.conv = ((reFindAll s).map (fun m => m.g5)).flatten := by
    rw [t4, t3, dropTrailing_texts]
    exact hx
  refine ⟨_, h5, rfl, ?_, ?_, key, reFindAll_partition s⟩
  · simp only []
    rw [key]
    exact texts_eq_strip s
  · simp only []
    rw [key]
    exact texts_no_marker s

theorem text_preserved_witness :
    (∃ r, ConvertLine State.init "x\x0304,05a\x0f\x0306,b\x03,7c".toList = some r ∧
      r.2 = render r.1.conv ∧
      textOf r.1.conv = stripDirectives "x\x0304,05a\x0f\x0306,b\x03,7c".toList ∧
      (∀ x ∈ textOf r.1.conv, x ≠ CharColor ∧ x ≠ CharReset) ∧
      textOf r.1.conv =
        ((reFindAll "x\x0304,05a\x0f\x0306,b\x03,7c".toList).map (fun m => m.g5)).flatten ∧
      ((reFindAll "x\x0304,05a\x0f\x0306,b\x03,7c".toList).map
        (fun m => m.directive ++ m.g5)).flatten = "x\x0304,05a\x0f\x0306,b\x03,7c".toList) ∧
    stripDirectives "x\x0304,05a\x0f\x0306,b\x03,7c".toList = "xa,b,7c".toList :=
  ⟨text_preserved State.init "x\x0304,05a\x0f\x0306,b\x03,7c".toList (by decide!)
    (by decide!), by decide!⟩

end IrcLogs
